import Mathlib

/-!
# KeyHunt-Cuda: the GPU search kernel of `GPU/GPUCompute.h`

A shallow embedding of the device functions of `GPUCompute.h` and the
properties of the walk, the matchers and the output sink.

Conventions of the embedding.

* A `uint32_t` / `uint8_t` value is a natural number; every arithmetic result
  is reduced `% 2 ^ 32` (resp. `% 2 ^ 8`) where the C operation wraps.
* An `int32_t` value is an integer; `ofInt32` is the conversion to the 32-bit
  two's-complement word, `toInt32` the conversion back.
* Device memory reached through a pointer (`out`, `bloomLookUp`, a key read by
  `murmurhash2`) is a total map from the element index to the element.
* A 256-bit field element (`uint64_t[4]`, little-endian limbs) is the natural
  number it denotes.
-/

namespace KeyHunt

/-! ## Machine words -/

/-- The 32-bit two's-complement word of a signed value (`(uint32_t)z`). -/
def ofInt32 (z : Int) : Nat := (z % 2 ^ 32).toNat

/-- The signed value of a 32-bit word (`(int32_t)w`). -/
def toInt32 (w : Nat) : Int :=
  if w % 2 ^ 32 < 2 ^ 31 then ((w % 2 ^ 32 : Nat) : Int) else ((w % 2 ^ 32 : Nat) : Int) - 2 ^ 32

/-- A word-addressed (or byte-addressed) region of device memory. -/
abbrev Mem := Nat → Nat

/-- The store `buf[idx] = v`. -/
def Mem.write (buf : Mem) (idx v : Nat) : Mem := fun k => if k = idx then v else buf k

/-- A HASH160 digest as the kernel holds it: `uint32_t h[5]`. -/
structure Digest where
  h0 : Nat
  h1 : Nat
  h2 : Nat
  h3 : Nat
  h4 : Nat
deriving DecidableEq, Repr

/-- The word `_h[i]` of a digest. -/
def Digest.word (h : Digest) (i : Nat) : Nat :=
  match i with
  | 0 => h.h0
  | 1 => h.h1
  | 2 => h.h2
  | 3 => h.h3
  | _ => h.h4

/-- The bytes of a digest seen through `(uint8_t*)hash` (little-endian device). -/
def Digest.bytes (h : Digest) : Mem := fun k => (h.word (k / 4) >>> (8 * (k % 4))) % 256

/-- Modelled from the spec: the constant `ITEM_SIZE32` (its `#define` is not in
`GPUCompute.h`); the spec gives 8 words per record. -/
def ITEM_SIZE32 : Nat := 8

/-- The built-in CUDA thread coordinates read by `CheckPoint`. -/
structure Thread where
  blockIdx : Nat
  blockDim : Nat
  threadIdx : Nat

/-- The thread id `(blockIdx.x * blockDim.x) + threadIdx.x` as a `uint32_t`. -/
def Thread.tid (t : Thread) : Nat := (t.blockIdx * t.blockDim + t.threadIdx) % 2 ^ 32

/-! ## Bloom filter (`test_bit_set_bit`, `murmurhash2`, `BloomCheck`) -/

/-- The function `test_bit_set_bit(buf, bit)`. -/
def test_bit_set_bit (buf : Mem) (bit : Nat) : Nat :=
  let byte := bit >>> 3
  let c := buf byte % 2 ^ 8
  let mask := (1 <<< (bit % 8)) % 2 ^ 8
  if c &&& mask ≠ 0 then 1 else 0

/-- The load `*(uint32_t*)data` at byte offset `off` (little-endian). -/
def load32 (data : Mem) (off : Nat) : Nat :=
  data off % 256 + 2 ^ 8 * (data (off + 1) % 256) + 2 ^ 16 * (data (off + 2) % 256)
    + 2 ^ 24 * (data (off + 3) % 256)

/-- The `while (len >= 4)` loop of `murmurhash2`: state is the offset of `data`,
the remaining `len` and `h`; `fuel` bounds the number of iterations. -/
def murmurhash2_loop (key : Mem) : Nat → Nat → Int → Nat → Nat × Int × Nat
  | 0, off, len, h => (off, len, h)
  | fuel + 1, off, len, h =>
    if 4 ≤ len then
      let k := load32 key off
      let k := (k * 0x5bd1e995) % 2 ^ 32
      let k := k ^^^ (k >>> 24)
      let k := (k * 0x5bd1e995) % 2 ^ 32
      let h := (h * 0x5bd1e995) % 2 ^ 32
      let h := h ^^^ k
      murmurhash2_loop key fuel (off + 4) (len - 4) h
    else (off, len, h)

/-- The `switch (len)` of `murmurhash2` with its fall-through cases. -/
def murmurhash2_tail (key : Mem) (off : Nat) (len : Int) (h : Nat) : Nat :=
  if len = 3 then
    let h := h ^^^ ((key (off + 2) % 256) <<< 16)
    let h := h ^^^ ((key (off + 1) % 256) <<< 8)
    let h := h ^^^ (key off % 256)
    (h * 0x5bd1e995) % 2 ^ 32
  else if len = 2 then
    let h := h ^^^ ((key (off + 1) % 256) <<< 8)
    let h := h ^^^ (key off % 256)
    (h * 0x5bd1e995) % 2 ^ 32
  else if len = 1 then
    let h := h ^^^ (key off % 256)
    (h * 0x5bd1e995) % 2 ^ 32
  else h

/-- The function `murmurhash2(key, len, seed)`. -/
def murmurhash2 (key : Mem) (len : Int) (seed : Nat) : Nat :=
  let h := (seed % 2 ^ 32) ^^^ ofInt32 len
  let (off, len, h) := murmurhash2_loop key len.toNat 0 len h
  let h := murmurhash2_tail key off len h
  let h := h ^^^ (h >>> 13)
  let h := (h * 0x5bd1e995) % 2 ^ 32
  let h := h ^^^ (h >>> 15)
  h

/-- The bit index `x = (a + b * i) % BLOOM_BITS` of `BloomCheck`: the sum is a
`uint32_t`, the remainder is taken in 64 bits and stored in a `uint32_t`. -/
def bloomIndex (a b i BLOOM_BITS : Nat) : Nat :=
  (((a + (b * i) % 2 ^ 32) % 2 ^ 32) % BLOOM_BITS) % 2 ^ 32

/-- The `for (i = 0; i < BLOOM_HASHES; i++)` loop of `BloomCheck` together with
the statements after it; the first argument counts the remaining iterations,
the result is the value `BloomCheck` returns. -/
def BloomCheck_loop (inputBloomLookUp : Mem) (BLOOM_BITS BLOOM_HASHES add a b : Nat) :
    Nat → Nat → Nat → Nat
  | 0, _, hits => if hits = BLOOM_HASHES then 1 else 0
  | n + 1, i, hits =>
    let x := bloomIndex a b i BLOOM_BITS
    if test_bit_set_bit inputBloomLookUp x ≠ 0 then
      BloomCheck_loop inputBloomLookUp BLOOM_BITS BLOOM_HASHES add a b n ((i + 1) % 2 ^ 8)
        ((hits + 1) % 2 ^ 8)
    else if add = 0 then 0
    else
      BloomCheck_loop inputBloomLookUp BLOOM_BITS BLOOM_HASHES add a b n ((i + 1) % 2 ^ 8) hits

/-- The function `BloomCheck(hash, inputBloomLookUp, BLOOM_BITS, BLOOM_HASHES)`. -/
def BloomCheck (hash : Digest) (inputBloomLookUp : Mem) (BLOOM_BITS BLOOM_HASHES : Nat) : Nat :=
  let add := 0
  let a := murmurhash2 hash.bytes 20 0x9747b28c
  let b := murmurhash2 hash.bytes 20 a
  BloomCheck_loop inputBloomLookUp BLOOM_BITS BLOOM_HASHES add a b BLOOM_HASHES 0 0

/-! ## Output sink (`CheckPoint`, `MatchHash160`, `CheckPoint2`) -/

/-- The meta word `(uint32_t)(incr << 16) | (uint32_t)(mode << 15) | (uint32_t)(endo)`. -/
def metaWord (incr endo mode : Int) : Nat :=
  ofInt32 (incr * 2 ^ 16) ||| ofInt32 (mode * 2 ^ 15) ||| ofInt32 endo

/-- The body guarded by the matcher in `CheckPoint` and `CheckPoint2`:
`pos = atomicAdd(out, 1)` and, if `pos < maxFound`, the seven stores of the record.
Indices are `uint32_t` expressions. -/
def report (t : Thread) (_h : Digest) (incr endo mode : Int) (maxFound : Nat) (out : Mem) : Mem :=
  let pos := out 0
  let out := out.write 0 ((pos + 1) % 2 ^ 32)
  if pos < maxFound then
    let out := out.write ((pos * ITEM_SIZE32 + 1) % 2 ^ 32) t.tid
    let out := out.write ((pos * ITEM_SIZE32 + 2) % 2 ^ 32) (metaWord incr endo mode)
    let out := out.write ((pos * ITEM_SIZE32 + 3) % 2 ^ 32) _h.h0
    let out := out.write ((pos * ITEM_SIZE32 + 4) % 2 ^ 32) _h.h1
    let out := out.write ((pos * ITEM_SIZE32 + 5) % 2 ^ 32) _h.h2
    let out := out.write ((pos * ITEM_SIZE32 + 6) % 2 ^ 32) _h.h3
    let out := out.write ((pos * ITEM_SIZE32 + 7) % 2 ^ 32) _h.h4
    out
  else out

/-- The function `CheckPoint` (its unused last argument `type` is left out). -/
def CheckPoint (t : Thread) (_h : Digest) (incr endo mode : Int) (bloomLookUp : Mem)
    (BLOOM_BITS BLOOM_HASHES maxFound : Nat) (out : Mem) : Mem :=
  if BloomCheck _h bloomLookUp BLOOM_BITS BLOOM_HASHES > 0 then
    report t _h incr endo mode maxFound out
  else out

/-- The function `MatchHash160(_h, hash160)`. -/
def MatchHash160 (_h hash160 : Digest) : Bool :=
  if _h.h0 = hash160.h0 ∧ _h.h1 = hash160.h1 ∧ _h.h2 = hash160.h2 ∧ _h.h3 = hash160.h3 ∧
      _h.h4 = hash160.h4 then true
  else false

/-- The function `CheckPoint2` (its unused last argument `type` is left out). -/
def CheckPoint2 (t : Thread) (_h : Digest) (incr endo mode : Int) (hash160 : Digest)
    (maxFound : Nat) (out : Mem) : Mem :=
  if MatchHash160 _h hash160 then
    report t _h incr endo mode maxFound out
  else out


/-! ## Field arithmetic (`GPUMath.h`, not part of `GPUCompute.h`) -/

/-- Modelled from the spec: `ModSub256(r, a, b)` of the missing `GPUMath.h`,
`r = a - b` modulo `p`, fully reduced (spec 4.1 FieldArith `sub`). The two
argument form `ModSub256(r, b)` is `r = r - b`. -/
def ModSub256 (p a b : Nat) : Nat := (a + (p - b % p)) % p

/-- Modelled from the spec: `ModNeg256(r, a)` of the missing `GPUMath.h`,
`r = -a` modulo `p`, fully reduced (spec 4.1 FieldArith `neg`). -/
def ModNeg256 (p a : Nat) : Nat := (p - a % p) % p

/-- Modelled from the spec: `_ModMult(r, a, b)` of the missing `GPUMath.h`,
`r = a * b` modulo `p` (spec 4.1 FieldArith `mul`). The two argument form
`_ModMult(r, a)` is `r = r * a`. -/
def _ModMult (p a b : Nat) : Nat := (a * b) % p

/-- Modelled from the spec: `_ModSqr(r, a)` of the missing `GPUMath.h`,
`r = a * a` modulo `p` (spec 4.1 FieldArith `sqr`). -/
def _ModSqr (p a : Nat) : Nat := (a * a) % p

/-- Square-and-multiply: `acc * b ^ e` modulo `p`, with at most `fuel` squarings. -/
def powModAux (p : Nat) : Nat → Nat → Nat → Nat → Nat
  | 0, _, _, acc => acc % p
  | fuel + 1, b, e, acc =>
    if e = 0 then acc % p
    else powModAux p fuel ((b * b) % p) (e / 2) (if e % 2 = 1 then (acc * b) % p else acc)

/-- Modelled from the spec: `_ModInv` of the missing `GPUMath.h`, the field
inversion of spec 4.1, here by Fermat's little theorem (`a ^ (p - 2)` modulo `p`). -/
def _ModInv (p a : Nat) : Nat := powModAux p p (a % p) (p - 2) 1

/-- Forward pass of the grouped inversion: `P[0] = D[0]`, `P[i] = P[i-1] * D[i]`. -/
def subp (p : Nat) (D : Mem) : Nat → Nat
  | 0 => D 0
  | i + 1 => _ModMult p (subp p D i) (D (i + 1))

/-- Backward pass of the grouped inversion, from index `i` down to 1:
`D[i] = Q * P[i-1]`, then `Q = Q * D[i]` (the old `D[i]`); finally `D[0] = Q`. -/
def invBackward (p : Nat) (P : Nat → Nat) : Nat → Nat → Mem → Mem
  | 0, Q, D => D.write 0 Q
  | i + 1, Q, D =>
    let newValue := _ModMult p Q (P i)
    let Q := _ModMult p Q (D (i + 1))
    invBackward p P i Q (D.write (i + 1) newValue)

/-- Modelled from the spec: `_ModInvGrouped` of the missing `GPUMath.h` on an
array of `N` elements, the algorithm of spec 4.2 (forward products, one
inversion, backward pass). -/
def _ModInvGrouped (p N : Nat) (D : Mem) : Mem :=
  invBackward p (subp p D) (N - 1) (_ModInv p (subp p D (N - 1))) D

/-! ## Constants and tables of the kernel -/

/-- Modelled from the spec: the search modes (spec 6). -/
def SEARCH_COMPRESSED : Nat := 0

/-- Modelled from the spec: the search modes (spec 6). -/
def SEARCH_UNCOMPRESSED : Nat := 1

/-- Modelled from the spec: the search modes (spec 6). -/
def SEARCH_BOTH : Nat := 2

/-- The constants and read-only tables the kernel is compiled against; their
definitions are outside `GPUCompute.h`. -/
structure Env where
  /-- The field prime. -/
  p : Nat
  /-- Points per walk group. -/
  GRP_SIZE : Nat
  /-- Points per thread and launch. -/
  STEP_SIZE : Nat
  /-- The x coordinates of the generator table. -/
  Gx : Nat → Nat
  /-- The y coordinates of the generator table. -/
  Gy : Nat → Nat
  /-- The x coordinate used to move to the next centre. -/
  _2Gnx : Nat
  /-- The y coordinate used to move to the next centre. -/
  _2Gny : Nat
  /-- The endomorphism constant beta. -/
  _beta : Nat
  /-- The endomorphism constant beta squared. -/
  _beta2 : Nat
  /-- The compressed HASH160 of `(x, isOdd)`. -/
  _GetHash160Comp : Nat → Nat → Digest
  /-- The uncompressed HASH160 of `(x, y)`. -/
  _GetHash160 : Nat → Nat → Digest
  /-- The two compressed HASH160 digests of `x`. -/
  _GetHash160CompSym : Nat → Digest × Digest

/-- Modelled from the spec: `HSIZE = GRP_SIZE / 2 - 1` (spec 6). -/
def Env.HSIZE (E : Env) : Nat := E.GRP_SIZE / 2 - 1

/-- The conversion of an `int` to `uint64_t` at a call of `CheckPoint`. -/
def ofInt64 (z : Int) : Nat := (z % 2 ^ 64).toNat

/-- The negation `-incr` of an `int32_t`. -/
def neg32 (a : Int) : Int := toInt32 (ofInt32 (-a))

/-- The logical negation `!isOdd` of a `uint8_t`. -/
def lnot (b : Nat) : Nat := if b = 0 then 1 else 0

/-- A `for (i = 0; i < n; i++)` loop over a state. -/
def forUpTo {α : Type} (n : Nat) (body : Nat → α → α) (init : α) : α :=
  (List.range n).foldl (fun s i => body i s) init

/-! ## Hash fan-out (`CheckHashComp`, `CheckHashUncomp`, `CheckHash`) -/

/-- The function `CheckHashComp`; `CHECK_POINT(_h, incr, endo, mode)` is the
call of `CheckPoint` with the ambient filter and buffer. -/
def CheckHashComp (E : Env) (t : Thread) (px isOdd : Nat) (incr : Int) (bloomLookUp : Mem)
    (BLOOM_BITS : Int) (BLOOM_HASHES maxFound : Nat) (out : Mem) : Mem :=
  let CHECK_POINT := fun (h : Digest) (incr endo mode : Int) (out : Mem) =>
    CheckPoint t h incr endo mode bloomLookUp (ofInt64 BLOOM_BITS) BLOOM_HASHES maxFound out
  let h := E._GetHash160Comp px isOdd
  let out := CHECK_POINT h incr 0 1 out
  let pe1x := _ModMult E.p px E._beta
  let h := E._GetHash160Comp pe1x isOdd
  let out := CHECK_POINT h incr 1 1 out
  let pe2x := _ModMult E.p px E._beta2
  let h := E._GetHash160Comp pe2x isOdd
  let out := CHECK_POINT h incr 2 1 out
  let h := E._GetHash160Comp px (lnot isOdd)
  let out := CHECK_POINT h (neg32 incr) 0 1 out
  let h := E._GetHash160Comp pe1x (lnot isOdd)
  let out := CHECK_POINT h (neg32 incr) 1 1 out
  let h := E._GetHash160Comp pe2x (lnot isOdd)
  let out := CHECK_POINT h (neg32 incr) 2 1 out
  out

/-- The function `CheckHashUncomp`. -/
def CheckHashUncomp (E : Env) (t : Thread) (px py : Nat) (incr : Int) (bloomLookUp : Mem)
    (BLOOM_BITS : Int) (BLOOM_HASHES maxFound : Nat) (out : Mem) : Mem :=
  let CHECK_POINT := fun (h : Digest) (incr endo mode : Int) (out : Mem) =>
    CheckPoint t h incr endo mode bloomLookUp (ofInt64 BLOOM_BITS) BLOOM_HASHES maxFound out
  let h := E._GetHash160 px py
  let out := CHECK_POINT h incr 0 0 out
  let pe1x := _ModMult E.p px E._beta
  let h := E._GetHash160 pe1x py
  let out := CHECK_POINT h incr 1 0 out
  let pe2x := _ModMult E.p px E._beta2
  let h := E._GetHash160 pe2x py
  let out := CHECK_POINT h incr 2 0 out
  let pyn := ModNeg256 E.p py
  let h := E._GetHash160 px pyn
  let out := CHECK_POINT h (neg32 incr) 0 0 out
  let h := E._GetHash160 pe1x pyn
  let out := CHECK_POINT h (neg32 incr) 1 0 out
  let h := E._GetHash160 pe2x pyn
  let out := CHECK_POINT h (neg32 incr) 2 0 out
  out

/-- The function `CheckHash`: the `switch (mode)` over the three search modes. -/
def CheckHash (E : Env) (t : Thread) (mode px py : Nat) (incr : Int) (bloomLookUp : Mem)
    (BLOOM_BITS : Int) (BLOOM_HASHES maxFound : Nat) (out : Mem) : Mem :=
  if mode = SEARCH_COMPRESSED then
    CheckHashComp E t px (py % 2) incr bloomLookUp BLOOM_BITS BLOOM_HASHES maxFound out
  else if mode = SEARCH_UNCOMPRESSED then
    CheckHashUncomp E t px py incr bloomLookUp BLOOM_BITS BLOOM_HASHES maxFound out
  else if mode = SEARCH_BOTH then
    let out := CheckHashComp E t px (py % 2) incr bloomLookUp BLOOM_BITS BLOOM_HASHES maxFound out
    CheckHashUncomp E t px py incr bloomLookUp BLOOM_BITS BLOOM_HASHES maxFound out
  else out

/-! ## The walk (`ComputeKeys`) -/

/-- The first statements of a group of `ComputeKeys`: the delta-x array
`dx[GRP_SIZE / 2 + 1]` filled from the table and the centre `sx`. -/
def fillDx (E : Env) (sx : Nat) : Mem :=
  let dx : Mem := fun _ => 0
  let dx := forUpTo E.HSIZE (fun i dx => dx.write i (ModSub256 E.p (E.Gx i) sx)) dx
  let i := E.HSIZE
  let dx := dx.write i (ModSub256 E.p (E.Gx i) sx)
  let dx := dx.write (i + 1) (ModSub256 E.p E._2Gnx sx)
  dx

/-- The variables of `ComputeKeys` that live across statements: the current
point `(px, py)` and the state `acc` threaded through the check macro (the
output buffer, or a log of the calls). -/
structure WalkRegs (σ : Type) where
  px : Nat
  py : Nat
  acc : σ

/-- The macro `CHECK_PREFIX(incr)` at group `j`: the check is called on the
current `(px, py)` with the `uint32_t` value `j*GRP_SIZE + (incr)`. -/
def CHECK_PREFIX {σ : Type} (E : Env) (check : Nat → Nat → Nat → σ → σ) (j incr : Nat)
    (px py : Nat) (acc : σ) : σ :=
  check ((j * E.GRP_SIZE + incr) % 2 ^ 32) px py acc

/-- The body of the loop `for (i = 0; i < HSIZE; i++)` of a group: the point
`P + (i+1)*G`, then the point `P - (i+1)*G`. -/
def ComputeKeys_step {σ : Type} (E : Env) (check : Nat → Nat → Nat → σ → σ)
    (sx sy pyn : Nat) (dx : Mem) (j i : Nat) (r : WalkRegs σ) : WalkRegs σ :=
  let p := E.p
  -- P = StartPoint + i*G
  let px := sx
  let py := sy
  let dy := ModSub256 p (E.Gy i) py
  let _s := _ModMult p dy (dx i)
  let _p2 := _ModSqr p _s
  let px := ModSub256 p _p2 px
  let px := ModSub256 p px (E.Gx i)
  let py := ModSub256 p (E.Gx i) px
  let py := _ModMult p py _s
  let py := ModSub256 p py (E.Gy i)
  let acc := CHECK_PREFIX E check j ((E.GRP_SIZE / 2 + (i + 1) % 2 ^ 32) % 2 ^ 32) px py r.acc
  -- P = StartPoint - i*G
  let px := sx
  let dy := ModSub256 p pyn (E.Gy i)
  let _s := _ModMult p dy (dx i)
  let _p2 := _ModSqr p _s
  let px := ModSub256 p _p2 px
  let px := ModSub256 p px (E.Gx i)
  let py := ModSub256 p px (E.Gx i)
  let py := _ModMult p py _s
  let py := ModSub256 p (E.Gy i) py
  let acc := CHECK_PREFIX E check j
    ((E.GRP_SIZE / 2 + 2 ^ 32 - (i + 1) % 2 ^ 32) % 2 ^ 32) px py acc
  ⟨px, py, acc⟩

/-- The body of the loop `for (j = 0; j < STEP_SIZE / GRP_SIZE; j++)`: one group. -/
def ComputeKeys_group {σ : Type} (E : Env) (check : Nat → Nat → Nat → σ → σ)
    (sx sy : Nat) (j : Nat) (r : WalkRegs σ) : WalkRegs σ :=
  let p := E.p
  -- Fill group with delta x, compute modular inverse
  let dx := fillDx E sx
  let dx := _ModInvGrouped p (E.GRP_SIZE / 2 + 1) dx
  -- Check starting point
  let acc := CHECK_PREFIX E check j (E.GRP_SIZE / 2) r.px r.py r.acc
  let pyn := ModNeg256 p r.py
  let r := forUpTo E.HSIZE (ComputeKeys_step E check sx sy pyn dx j) ⟨r.px, r.py, acc⟩
  let i := E.HSIZE
  -- First point (startP - (GRP_SIZE/2)*G)
  let px := sx
  let py := sy
  let dy := ModNeg256 p (E.Gy i)
  let dy := ModSub256 p dy py
  let _s := _ModMult p dy (dx i)
  let _p2 := _ModSqr p _s
  let px := ModSub256 p _p2 px
  let px := ModSub256 p px (E.Gx i)
  let py := ModSub256 p px (E.Gx i)
  let py := _ModMult p py _s
  let py := ModSub256 p (E.Gy i) py
  let acc := CHECK_PREFIX E check j 0 px py r.acc
  let i := i + 1
  -- Next start point (startP + GRP_SIZE*G)
  let px := sx
  let py := sy
  let dy := ModSub256 p E._2Gny py
  let _s := _ModMult p dy (dx i)
  let _p2 := _ModSqr p _s
  let px := ModSub256 p _p2 px
  let px := ModSub256 p px E._2Gnx
  let py := ModSub256 p E._2Gnx px
  let py := _ModMult p py _s
  let py := ModSub256 p py E._2Gny
  ⟨px, py, acc⟩

/-- The walk of `ComputeKeys` for a given check: load the start point, run
`STEP_SIZE / GRP_SIZE` groups; the result holds the `(px, py)` that is stored
back into `(startx, starty)`. -/
def ComputeKeys_walk {σ : Type} (E : Env) (check : Nat → Nat → Nat → σ → σ)
    (startx starty : Nat) (acc : σ) : WalkRegs σ :=
  let sx := startx
  let sy := starty
  let px := sx
  let py := sy
  forUpTo (E.STEP_SIZE / E.GRP_SIZE) (ComputeKeys_group E check sx sy) ⟨px, py, acc⟩

/-- The function `ComputeKeys`: the walk with `CheckHash` as check. The result
is the new `(startx, starty)` and the output buffer. -/
def ComputeKeys (E : Env) (t : Thread) (mode startx starty : Nat) (bloomLookUp : Mem)
    (BLOOM_BITS : Int) (BLOOM_HASHES maxFound : Nat) (out : Mem) : Nat × Nat × Mem :=
  let r := ComputeKeys_walk E
    (fun incr px py out =>
      CheckHash E t mode px py (toInt32 incr) bloomLookUp BLOOM_BITS BLOOM_HASHES maxFound out)
    startx starty out
  (r.px, r.py, r.acc)

/-- One call of `CheckHash` made by the walk: the point and the increment. -/
structure Call where
  px : Nat
  py : Nat
  incr : Int
deriving DecidableEq, Repr

/-- The check that records its call instead of hashing. -/
def logCall (incr px py : Nat) (log : List Call) : List Call := log ++ [⟨px, py, toInt32 incr⟩]

/-- The calls of `CheckHash` made by `ComputeKeys`, in program order. -/
def ComputeKeys_calls (E : Env) (startx starty : Nat) : List Call :=
  (ComputeKeys_walk E logCall startx starty []).acc

/-- The calls of `CheckHash` made by group `j` entered with current point `(px, py)`. -/
def ComputeKeys_groupCalls (E : Env) (sx sy j px py : Nat) : List Call :=
  (ComputeKeys_group E logCall sx sy j ⟨px, py, []⟩).acc

/-! ## The points of a group, by formula -/

/-- The inverted delta-x array of a group with centre `sx`. -/
def groupDx (E : Env) (sx : Nat) : Mem := _ModInvGrouped E.p (E.GRP_SIZE / 2 + 1) (fillDx E sx)

/-- The point computed by the positive branch and by the next-centre block:
`s = (gy - sy) * inv`, `x = s^2 - sx - gx`, `y = (gx - x) * s - gy`. -/
def posPoint (p sx sy gx gy inv : Nat) : Nat × Nat :=
  let s := _ModMult p (ModSub256 p gy sy) inv
  let x := ModSub256 p (ModSub256 p (_ModSqr p s) sx) gx
  (x, ModSub256 p (_ModMult p (ModSub256 p gx x) s) gy)

/-- The point computed by the negative branch and by the first-point block from
the difference `dy`: `s = dy * inv`, `x = s^2 - sx - gx`, `y = gy - (x - gx) * s`. -/
def negPoint (p sx dy gx gy inv : Nat) : Nat × Nat :=
  let s := _ModMult p dy inv
  let x := ModSub256 p (ModSub256 p (_ModSqr p s) sx) gx
  (x, ModSub256 p gy (_ModMult p (ModSub256 p x gx) s))

/-- The call of the positive branch at loop step `i` of group `j`. -/
def posCall (E : Env) (sx sy j i : Nat) : Call :=
  let q := posPoint E.p sx sy (E.Gx i) (E.Gy i) (groupDx E sx i)
  ⟨q.1, q.2, toInt32 ((j * E.GRP_SIZE + (E.GRP_SIZE / 2 + (i + 1) % 2 ^ 32) % 2 ^ 32) % 2 ^ 32)⟩

/-- The call of the negative branch at loop step `i` of group `j`; `pyn` is the
negated `py` the group was entered with. -/
def negCall (E : Env) (sx pyn j i : Nat) : Call :=
  let q := negPoint E.p sx (ModSub256 E.p pyn (E.Gy i)) (E.Gx i) (E.Gy i) (groupDx E sx i)
  ⟨q.1, q.2,
    toInt32 ((j * E.GRP_SIZE + (E.GRP_SIZE / 2 + 2 ^ 32 - (i + 1) % 2 ^ 32) % 2 ^ 32) % 2 ^ 32)⟩

/-- The call on the first point of the group, after the loop. -/
def firstCall (E : Env) (sx sy j : Nat) : Call :=
  let q := negPoint E.p sx (ModSub256 E.p (ModNeg256 E.p (E.Gy E.HSIZE)) sy) (E.Gx E.HSIZE)
    (E.Gy E.HSIZE) (groupDx E sx E.HSIZE)
  ⟨q.1, q.2, toInt32 ((j * E.GRP_SIZE + 0) % 2 ^ 32)⟩

/-- The call on the point the group is entered with. -/
def centreCall (E : Env) (j px py : Nat) : Call :=
  ⟨px, py, toInt32 ((j * E.GRP_SIZE + E.GRP_SIZE / 2) % 2 ^ 32)⟩

/-- The next centre computed at the end of a group. -/
def nextCentre (E : Env) (sx sy : Nat) : Nat × Nat :=
  posPoint E.p sx sy E._2Gnx E._2Gny (groupDx E sx (E.HSIZE + 1))

/-- The calls of the loop steps `0 .. n-1`. -/
def loopCalls (E : Env) (sx sy pyn j n : Nat) : List Call :=
  (List.range n).flatMap (fun i => [posCall E sx sy j i, negCall E sx pyn j i])

/-! ## The calls of the walk -/

/-- The walk run with a check `f` and the walk run with the call log agree:
same registers, and the state of `f` is the fold of `f` over the log. -/
def LogRel {σ : Type} (f : Int → Nat → Nat → σ → σ) (acc0 : σ) (r : WalkRegs σ)
    (l : WalkRegs (List Call)) : Prop :=
  r.px = l.px ∧ r.py = l.py ∧ r.acc = l.acc.foldl (fun a c => f c.incr c.px c.py a) acc0

/-! ## The curve and its group law -/

/-- The curve `y^2 = x^3 + 7` over the field of `p` elements; for the secp256k1
prime this is secp256k1. Its points carry the group law of Mathlib. -/
def curve (p : Nat) : WeierstrassCurve.Affine (ZMod p) :=
  { a₁ := 0, a₂ := 0, a₃ := 0, a₄ := 0, a₆ := 7 }

/-- The reduced pair `(x, y)` is on the curve (a decidable check on numbers). -/
def onCurve (p x y : Nat) : Prop := x < p ∧ y < p ∧ (y * y) % p = (x * x * x + 7) % p

instance (p x y : Nat) : Decidable (onCurve p x y) := by
  unfold onCurve
  infer_instance

/-- The pair of reduced field elements `(x, y)` is the affine point `Q` of the curve. -/
def IsPt (p x y : Nat) (Q : (curve p).Point) : Prop :=
  x < p ∧ y < p ∧
    ∃ h : (curve p).Nonsingular (x : ZMod p) (y : ZMod p), Q = WeierstrassCurve.Affine.Point.some h

/-- The tangent formula (naive doubling of a point with `y ≠ 0`):
`s = 3 x^2 / (2 y)`, `x3 = s^2 - 2 x`, `y3 = s (x - x3) - y`. -/
def dblPoint (p x y : Nat) : Nat × Nat :=
  let s := _ModMult p (_ModMult p 3 (_ModSqr p x)) (_ModInv p (_ModMult p 2 y))
  let x3 := ModSub256 p (ModSub256 p (_ModSqr p s) x) x
  (x3, ModSub256 p (_ModMult p s (ModSub256 p x x3)) y)

/-- The signed offset from the centre of the point checked by the call at
position `idx` of a group: the centre first, then `+1, -1, +2, -2, ...`, and
`-GRP_SIZE/2` last. -/
def groupOffset (GRP_SIZE idx : Nat) : Int :=
  if idx = 0 then 0
  else if idx = GRP_SIZE - 1 then -((GRP_SIZE / 2 : Nat) : Int)
  else if idx % 2 = 1 then (((idx + 1) / 2 : Nat) : Int)
  else -((idx / 2 : Nat) : Int)

/-- The point a group is entered with: the start point for the first group, the
next centre computed from the start point for every later group. -/
def entryPoint (E : Env) (sx sy j : Nat) : Nat × Nat :=
  if j = 0 then (sx, sy) else nextCentre E sx sy

/-! ## Predicates and examples used by the theorems -/

/-- Bit `x` of a filter in the spec's words: bit `x mod 8`, least significant
first, of byte `x div 8`. -/
def filterBit (filter : Mem) (x : Nat) : Bool := (filter (x / 8) / 2 ^ (x % 8)) % 2 = 1

/-- A digest used in the examples. -/
def exDigest : Digest := ⟨0x11223344, 0xdeadbeef, 5, 0xffffffff, 0x01020304⟩

/-- A filter with every bit set. -/
def fullFilter : Mem := fun _ => 0xff

/-- The effect of one accepted report on the output buffer, in the spec's
words: the counter (word 0) goes from `s` to `s + 1`, words `8 s + 1 .. 8 s + 7`
hold `tid, meta, h[0..4]`, every other word keeps its value. -/
def RecordWritten (out out' : Mem) (s tid meta : Nat) (h : Digest) : Prop :=
  out' 0 = s + 1 ∧ out' (8 * s + 1) = tid ∧ out' (8 * s + 2) = meta ∧
  out' (8 * s + 3) = h.h0 ∧ out' (8 * s + 4) = h.h1 ∧ out' (8 * s + 5) = h.h2 ∧
  out' (8 * s + 6) = h.h3 ∧ out' (8 * s + 7) = h.h4 ∧
  ∀ k, k ≠ 0 → ¬ (8 * s + 1 ≤ k ∧ k ≤ 8 * s + 7) → out' k = out k

/-- A thread used in the examples (`tid = 7`). -/
def exThread : Thread := ⟨0, 128, 7⟩

/-- An output buffer whose counter is `c` and whose other words are zero. -/
def counterOnly (c : Nat) : Mem := fun k => if k = 0 then c else 0

/-- The two matchers of the kernel: the Bloom filter of `CheckPoint` and the
single target of `CheckPoint2`. -/
inductive Matcher where
  | bloom (bloomLookUp : Mem) (BLOOM_BITS BLOOM_HASHES : Nat)
  | exact (hash160 : Digest)

/-- One call of `CheckPoint` or `CheckPoint2`: the calling thread, the digest,
the tags and the matcher. -/
structure Report where
  t : Thread
  h : Digest
  incr : Int
  endo : Int
  mode : Int
  matcher : Matcher

/-- Whether the digest of a report passes its matcher. -/
def Report.passes (r : Report) : Bool :=
  match r.matcher with
  | .bloom f B k => decide (BloomCheck r.h f B k > 0)
  | .exact tgt => MatchHash160 r.h tgt

/-- The call of `CheckPoint` / `CheckPoint2` a report stands for. -/
def Report.apply (maxFound : Nat) (out : Mem) (r : Report) : Mem :=
  match r.matcher with
  | .bloom f B k => CheckPoint r.t r.h r.incr r.endo r.mode f B k maxFound out
  | .exact tgt => CheckPoint2 r.t r.h r.incr r.endo r.mode tgt maxFound out

/-- The reports of a list applied one after another. -/
def runReports (maxFound : Nat) (out : Mem) (rs : List Report) : Mem :=
  rs.foldl (Report.apply maxFound) out

/-- Slot `s` of the buffer holds the record of report `r`. -/
def SlotHolds (out : Mem) (s : Nat) (r : Report) : Prop :=
  out (8 * s + 1) = r.t.tid ∧ out (8 * s + 2) = metaWord r.incr r.endo r.mode ∧
  out (8 * s + 3) = r.h.h0 ∧ out (8 * s + 4) = r.h.h1 ∧ out (8 * s + 5) = r.h.h2 ∧
  out (8 * s + 6) = r.h.h3 ∧ out (8 * s + 7) = r.h.h4

/-- An exact-match report of thread `t` with increment `i`. -/
def exReport (t : Thread) (i : Int) : Report := ⟨t, exDigest, i, 0, 1, .exact exDigest⟩

/-- Five matching reports. -/
def fiveReports : List Report :=
  [exReport exThread 0, exReport exThread 1, exReport exThread 2, exReport exThread 3,
    exReport exThread 4]

/-- The number of reports after which the index `pos * ITEM_SIZE32 + 1` wraps. -/
def wrapCount : Nat := 2 ^ 29

/-- A run of `2 ^ 29` matches of thread 7 followed by one match of thread 9. -/
def wrapReports : List Report :=
  List.replicate wrapCount (exReport exThread 0) ++ [exReport ⟨0, 128, 9⟩ 0]

/-- Bits 31..16 of a meta word read as a signed 16-bit value. -/
def metaIncr (w : Nat) : Int :=
  if (w >>> 16) % 2 ^ 16 < 2 ^ 15 then (((w >>> 16) % 2 ^ 16 : Nat) : Int)
  else (((w >>> 16) % 2 ^ 16 : Nat) : Int) - 2 ^ 16

/-- Bit 15 of a meta word. -/
def metaMode (w : Nat) : Nat := (w >>> 15) &&& 1

/-- Bits 14..0 of a meta word. -/
def metaEndo (w : Nat) : Nat := w &&& 0x7fff

/-! ## The reports of a call of `CheckHash` -/

/-- The six calls of `CheckPoint` made by `CheckHashComp`, in program order. -/
def compReports (E : Env) (t : Thread) (px isOdd : Nat) (incr : Int) (bloomLookUp : Mem)
    (BLOOM_BITS : Int) (BLOOM_HASHES : Nat) : List Report :=
  let m := Matcher.bloom bloomLookUp (ofInt64 BLOOM_BITS) BLOOM_HASHES
  let pe1x := _ModMult E.p px E._beta
  let pe2x := _ModMult E.p px E._beta2
  [⟨t, E._GetHash160Comp px isOdd, incr, 0, 1, m⟩,
   ⟨t, E._GetHash160Comp pe1x isOdd, incr, 1, 1, m⟩,
   ⟨t, E._GetHash160Comp pe2x isOdd, incr, 2, 1, m⟩,
   ⟨t, E._GetHash160Comp px (lnot isOdd), neg32 incr, 0, 1, m⟩,
   ⟨t, E._GetHash160Comp pe1x (lnot isOdd), neg32 incr, 1, 1, m⟩,
   ⟨t, E._GetHash160Comp pe2x (lnot isOdd), neg32 incr, 2, 1, m⟩]

/-- The six calls of `CheckPoint` made by `CheckHashUncomp`, in program order. -/
def uncompReports (E : Env) (t : Thread) (px py : Nat) (incr : Int) (bloomLookUp : Mem)
    (BLOOM_BITS : Int) (BLOOM_HASHES : Nat) : List Report :=
  let m := Matcher.bloom bloomLookUp (ofInt64 BLOOM_BITS) BLOOM_HASHES
  let pe1x := _ModMult E.p px E._beta
  let pe2x := _ModMult E.p px E._beta2
  let pyn := ModNeg256 E.p py
  [⟨t, E._GetHash160 px py, incr, 0, 0, m⟩,
   ⟨t, E._GetHash160 pe1x py, incr, 1, 0, m⟩,
   ⟨t, E._GetHash160 pe2x py, incr, 2, 0, m⟩,
   ⟨t, E._GetHash160 px pyn, neg32 incr, 0, 0, m⟩,
   ⟨t, E._GetHash160 pe1x pyn, neg32 incr, 1, 0, m⟩,
   ⟨t, E._GetHash160 pe2x pyn, neg32 incr, 2, 0, m⟩]

/-- The calls of `CheckPoint` made by `CheckHash` on one walk point. -/
def callReports (E : Env) (t : Thread) (mode : Nat) (bloomLookUp : Mem) (BLOOM_BITS : Int)
    (BLOOM_HASHES : Nat) (c : Call) : List Report :=
  if mode = SEARCH_COMPRESSED then
    compReports E t c.px (c.py % 2) c.incr bloomLookUp BLOOM_BITS BLOOM_HASHES
  else if mode = SEARCH_UNCOMPRESSED then
    uncompReports E t c.px c.py c.incr bloomLookUp BLOOM_BITS BLOOM_HASHES
  else if mode = SEARCH_BOTH then
    compReports E t c.px (c.py % 2) c.incr bloomLookUp BLOOM_BITS BLOOM_HASHES ++
      uncompReports E t c.px c.py c.incr bloomLookUp BLOOM_BITS BLOOM_HASHES
  else []

/-! ## A small instance used in the examples
The curve `y^2 = x^3 + 7` over the field of 67 elements has a group of order 79;
`G = (2, 22)` generates it. Groups of 4 points: the table holds `G, 2G`, the step to the next
centre is `4G = (25, 17)`. The start point `(56, 4)` is `10 G`. -/

/-- The example kernel constants, for a given `STEP_SIZE`. -/
def exEnv (step : Nat) : Env where
  p := 67
  GRP_SIZE := 4
  STEP_SIZE := step
  Gx := fun i => if i = 0 then 2 else if i = 1 then 52 else 0
  Gy := fun i => if i = 0 then 22 else if i = 1 then 7 else 0
  _2Gnx := 25
  _2Gny := 17
  _beta := 29
  _beta2 := 37
  _GetHash160Comp := fun x o => ⟨x, o, 0, 0, 0⟩
  _GetHash160 := fun x y => ⟨x, y, 1, 0, 0⟩
  _GetHash160CompSym := fun x => (⟨x, 0, 0, 0, 0⟩, ⟨x, 1, 0, 0, 0⟩)

instance prime_67 : Fact (Nat.Prime 67) := ⟨by norm_num⟩

instance exEnv_prime (step : Nat) : Fact (Nat.Prime (exEnv step).p) := prime_67

/-! ## Single-target twins (`CheckHashComp2`, `CheckHashUncomp2`, `CheckHash2`) -/

/-- The function `CheckHashComp2`; `CHECK_POINT2(_h, incr, endo, mode)` is the
call of `CheckPoint2` with the ambient target and buffer. -/
def CheckHashComp2 (E : Env) (t : Thread) (px isOdd : Nat) (incr : Int) (hash160 : Digest)
    (maxFound : Nat) (out : Mem) : Mem :=
  let CHECK_POINT2 := fun (h : Digest) (incr endo mode : Int) (out : Mem) =>
    CheckPoint2 t h incr endo mode hash160 maxFound out
  let h := E._GetHash160Comp px isOdd
  let out := CHECK_POINT2 h incr 0 1 out
  let pe1x := _ModMult E.p px E._beta
  let h := E._GetHash160Comp pe1x isOdd
  let out := CHECK_POINT2 h incr 1 1 out
  let pe2x := _ModMult E.p px E._beta2
  let h := E._GetHash160Comp pe2x isOdd
  let out := CHECK_POINT2 h incr 2 1 out
  let h := E._GetHash160Comp px (lnot isOdd)
  let out := CHECK_POINT2 h (neg32 incr) 0 1 out
  let h := E._GetHash160Comp pe1x (lnot isOdd)
  let out := CHECK_POINT2 h (neg32 incr) 1 1 out
  let h := E._GetHash160Comp pe2x (lnot isOdd)
  let out := CHECK_POINT2 h (neg32 incr) 2 1 out
  out

/-- The function `CheckHashUncomp2`. -/
def CheckHashUncomp2 (E : Env) (t : Thread) (px py : Nat) (incr : Int) (hash160 : Digest)
    (maxFound : Nat) (out : Mem) : Mem :=
  let CHECK_POINT2 := fun (h : Digest) (incr endo mode : Int) (out : Mem) =>
    CheckPoint2 t h incr endo mode hash160 maxFound out
  let h := E._GetHash160 px py
  let out := CHECK_POINT2 h incr 0 0 out
  let pe1x := _ModMult E.p px E._beta
  let h := E._GetHash160 pe1x py
  let out := CHECK_POINT2 h incr 1 0 out
  let pe2x := _ModMult E.p px E._beta2
  let h := E._GetHash160 pe2x py
  let out := CHECK_POINT2 h incr 2 0 out
  let pyn := ModNeg256 E.p py
  let h := E._GetHash160 px pyn
  let out := CHECK_POINT2 h (neg32 incr) 0 0 out
  let h := E._GetHash160 pe1x pyn
  let out := CHECK_POINT2 h (neg32 incr) 1 0 out
  let h := E._GetHash160 pe2x pyn
  let out := CHECK_POINT2 h (neg32 incr) 2 0 out
  out

/-- The function `CheckHash2`: the `switch (mode)` over the three search modes. -/
def CheckHash2 (E : Env) (t : Thread) (mode px py : Nat) (incr : Int) (hash160 : Digest)
    (maxFound : Nat) (out : Mem) : Mem :=
  if mode = SEARCH_COMPRESSED then
    CheckHashComp2 E t px (py % 2) incr hash160 maxFound out
  else if mode = SEARCH_UNCOMPRESSED then
    CheckHashUncomp2 E t px py incr hash160 maxFound out
  else if mode = SEARCH_BOTH then
    let out := CheckHashComp2 E t px (py % 2) incr hash160 maxFound out
    CheckHashUncomp2 E t px py incr hash160 maxFound out
  else out

/-- The function `ComputeKeys2`: its body is that of `ComputeKeys` with
`CHECK_PREFIX2` (a call of `CheckHash2`) in place of `CHECK_PREFIX`. -/
def ComputeKeys2 (E : Env) (t : Thread) (mode startx starty : Nat) (hash160 : Digest)
    (maxFound : Nat) (out : Mem) : Nat × Nat × Mem :=
  let r := ComputeKeys_walk E
    (fun incr px py out => CheckHash2 E t mode px py (toInt32 incr) hash160 maxFound out)
    startx starty out
  (r.px, r.py, r.acc)

/-- What a report submits to the matcher and would store: digest, increment,
endomorphism index and mode bit. -/
def Report.tag (r : Report) : Digest × Int × Int × Int := (r.h, r.incr, r.endo, r.mode)

/-! ## Building a Bloom filter (host side, in the spec's words) -/

/-- Setting bit `x` of a filter: bit `x mod 8` of byte `x div 8`. -/
def setFilterBit (f : Mem) (x : Nat) : Mem := f.write (x / 8) (f (x / 8) ||| 2 ^ (x % 8))

/-- Inserting a digest: the `k` bits at the positions `BloomCheck` probes for it are set. -/
def bloomAdd (f : Mem) (h : Digest) (BLOOM_BITS k : Nat) : Mem :=
  let a := murmurhash2 h.bytes 20 0x9747b28c
  let b := murmurhash2 h.bytes 20 a
  forUpTo k (fun i f => setFilterBit f (bloomIndex a b i BLOOM_BITS)) f

/-- The filter obtained from a bit array by inserting the digests of a list. -/
def bloomBuild (f : Mem) (S : List Digest) (BLOOM_BITS k : Nat) : Mem :=
  S.foldl (fun f h => bloomAdd f h BLOOM_BITS k) f

/-- A filter of 1000 bits in which exactly the bits 42 and 653 are set. -/
def wrapFilter : Mem := setFilterBit (setFilterBit (fun _ => 0) 42) 653

/-! ## Reference MurmurHash2 (in the spec's words) -/

/-- Mixing one 32-bit word `w` into `h`: `k = w*m`, `k ^= k >> 24`, `k *= m`,
`h = (h*m) XOR k`, with `m = 0x5bd1e995`, all modulo `2^32`. -/
def murmurMix (h w : Nat) : Nat :=
  let k := (w * 0x5bd1e995) % 2 ^ 32
  let k := k ^^^ (k >>> 24)
  let k := (k * 0x5bd1e995) % 2 ^ 32
  ((h * 0x5bd1e995) % 2 ^ 32) ^^^ k

/-- The body of the reference hash over a byte string: every full little-endian
word is mixed; the 1 to 3 tail bytes are XORed in (shifted by 0, 8, 16),
followed by `h *= m`. -/
def murmurBody : List Nat → Nat → Nat
  | b0 :: b1 :: b2 :: b3 :: rest, h =>
    murmurBody rest (murmurMix h (b0 + 2 ^ 8 * b1 + 2 ^ 16 * b2 + 2 ^ 24 * b3))
  | [b0, b1, b2], h => ((h ^^^ (b2 <<< 16) ^^^ (b1 <<< 8) ^^^ b0) * 0x5bd1e995) % 2 ^ 32
  | [b0, b1], h => ((h ^^^ (b1 <<< 8) ^^^ b0) * 0x5bd1e995) % 2 ^ 32
  | [b0], h => ((h ^^^ b0) * 0x5bd1e995) % 2 ^ 32
  | [], h => h

/-- The final avalanche: `h ^= h >> 13`, `h *= m`, `h ^= h >> 15`. -/
def murmurFinal (h : Nat) : Nat :=
  let h := h ^^^ (h >>> 13)
  let h := (h * 0x5bd1e995) % 2 ^ 32
  h ^^^ (h >>> 15)

/-- The reference MurmurHash2 of a byte string: `h` starts as `seed XOR len`. -/
def MurmurHash2_ref (bytes : List Nat) (seed : Nat) : Nat :=
  murmurFinal (murmurBody bytes (seed ^^^ bytes.length))

/-! ## The P2PKH fast path (`ComputeKeysComp`, `ComputeKeysComp2`) -/

/-- The negation `-(_incr)` of a `uint32_t` expression. -/
def negWord (w : Nat) : Nat := (2 ^ 32 - w % 2 ^ 32) % 2 ^ 32

/-- The macros `CHECK_P2PKH_POINT(_incr)` and `CHECK_P2PKH_POINT2(_incr)` on the
current `px`: `cp` is the call of `CheckPoint` (of `CheckPoint2`) with the
ambient filter (target) and buffer; `_incr` is a `uint32_t` expression, converted
to the `int32_t` parameter of the sink. -/
def CHECK_P2PKH_POINT {σ : Type} (E : Env) (cp : Digest → Int → Int → Int → σ → σ)
    (_incr px : Nat) (acc : σ) : σ :=
  let h := E._GetHash160CompSym px
  let acc := cp h.1 (toInt32 _incr) 0 1 acc
  let acc := cp h.2 (toInt32 (negWord _incr)) 0 1 acc
  let pe1x := _ModMult E.p px E._beta
  let h := E._GetHash160CompSym pe1x
  let acc := cp h.1 (toInt32 _incr) 1 1 acc
  let acc := cp h.2 (toInt32 (negWord _incr)) 1 1 acc
  let pe2x := _ModMult E.p px E._beta2
  let h := E._GetHash160CompSym pe2x
  let acc := cp h.1 (toInt32 _incr) 2 1 acc
  let acc := cp h.2 (toInt32 (negWord _incr)) 2 1 acc
  acc

/-- The body of the loop `for (i = 0; i < HSIZE; i++)` of a group of
`ComputeKeysComp`: only the x coordinates of `P + (i+1)*G` and `P - (i+1)*G`
are computed; `checkx` is the macro applied to the increment word and `px`. -/
def ComputeKeysComp_step {σ : Type} (E : Env) (checkx : Nat → Nat → σ → σ)
    (sx sy pyn : Nat) (dx : Mem) (j i : Nat) (r : WalkRegs σ) : WalkRegs σ :=
  let p := E.p
  -- P = StartPoint + i*G
  let px := sx
  let py := sy
  let dy := ModSub256 p (E.Gy i) py
  let _s := _ModMult p dy (dx i)
  let _p2 := _ModSqr p _s
  let px := ModSub256 p _p2 px
  let px := ModSub256 p px (E.Gx i)
  let acc := checkx ((j * E.GRP_SIZE + (E.GRP_SIZE / 2 + (i + 1) % 2 ^ 32) % 2 ^ 32) % 2 ^ 32)
    px r.acc
  -- P = StartPoint - i*G
  let px := sx
  let dy := ModSub256 p pyn (E.Gy i)
  let _s := _ModMult p dy (dx i)
  let _p2 := _ModSqr p _s
  let px := ModSub256 p _p2 px
  let px := ModSub256 p px (E.Gx i)
  let acc := checkx
    ((j * E.GRP_SIZE + (E.GRP_SIZE / 2 + 2 ^ 32 - (i + 1) % 2 ^ 32) % 2 ^ 32) % 2 ^ 32) px acc
  ⟨px, py, acc⟩

/-- One group of `ComputeKeysComp`. -/
def ComputeKeysComp_group {σ : Type} (E : Env) (checkx : Nat → Nat → σ → σ)
    (sx sy : Nat) (j : Nat) (r : WalkRegs σ) : WalkRegs σ :=
  let p := E.p
  -- Fill group with delta x, compute modular inverse
  let dx := fillDx E sx
  let dx := _ModInvGrouped p (E.GRP_SIZE / 2 + 1) dx
  -- Check starting point
  let acc := checkx ((j * E.GRP_SIZE + E.GRP_SIZE / 2) % 2 ^ 32) r.px r.acc
  let pyn := ModNeg256 p r.py
  let r := forUpTo E.HSIZE (ComputeKeysComp_step E checkx sx sy pyn dx j) ⟨r.px, r.py, acc⟩
  let i := E.HSIZE
  -- First point (startP - (GRP_SIZE/2)*G)
  let px := sx
  let py := sy
  let dy := ModNeg256 p (E.Gy i)
  let dy := ModSub256 p dy py
  let _s := _ModMult p dy (dx i)
  let _p2 := _ModSqr p _s
  let px := ModSub256 p _p2 px
  let px := ModSub256 p px (E.Gx i)
  let acc := checkx ((j * E.GRP_SIZE + 0) % 2 ^ 32) px r.acc
  let i := i + 1
  -- Next start point (startP + GRP_SIZE*G)
  let px := sx
  let py := sy
  let dy := ModSub256 p E._2Gny py
  let _s := _ModMult p dy (dx i)
  let _p2 := _ModSqr p _s
  let px := ModSub256 p _p2 px
  let px := ModSub256 p px E._2Gnx
  let py := ModSub256 p E._2Gnx px
  let py := _ModMult p py _s
  let py := ModSub256 p py E._2Gny
  ⟨px, py, acc⟩

/-- The walk of `ComputeKeysComp` and `ComputeKeysComp2` for a given macro. -/
def ComputeKeysComp_walk {σ : Type} (E : Env) (checkx : Nat → Nat → σ → σ)
    (startx starty : Nat) (acc : σ) : WalkRegs σ :=
  let sx := startx
  let sy := starty
  let px := sx
  let py := sy
  forUpTo (E.STEP_SIZE / E.GRP_SIZE) (ComputeKeysComp_group E checkx sx sy) ⟨px, py, acc⟩

/-- The function `ComputeKeysComp`: the result is the new `(startx, starty)` and
the output buffer. -/
def ComputeKeysComp (E : Env) (t : Thread) (startx starty : Nat) (bloomLookUp : Mem)
    (BLOOM_BITS : Int) (BLOOM_HASHES maxFound : Nat) (out : Mem) : Nat × Nat × Mem :=
  let r := ComputeKeysComp_walk E
    (CHECK_P2PKH_POINT E (fun h incr endo mode out =>
      CheckPoint t h incr endo mode bloomLookUp (ofInt64 BLOOM_BITS) BLOOM_HASHES maxFound out))
    startx starty out
  (r.px, r.py, r.acc)

/-- The function `ComputeKeysComp2`: the body of `ComputeKeysComp` with
`CHECK_P2PKH_POINT2` (calls of `CheckPoint2`). -/
def ComputeKeysComp2 (E : Env) (t : Thread) (startx starty : Nat) (hash160 : Digest)
    (maxFound : Nat) (out : Mem) : Nat × Nat × Mem :=
  let r := ComputeKeysComp_walk E
    (CHECK_P2PKH_POINT E (fun h incr endo mode out =>
      CheckPoint2 t h incr endo mode hash160 maxFound out))
    startx starty out
  (r.px, r.py, r.acc)

/-- The six calls of the sink made by `CHECK_P2PKH_POINT` on `px`, in program
order, for the matcher `m`. -/
def symReports (E : Env) (t : Thread) (px : Nat) (incr : Int) (m : Matcher) : List Report :=
  let pe1x := _ModMult E.p px E._beta
  let pe2x := _ModMult E.p px E._beta2
  [⟨t, (E._GetHash160CompSym px).1, incr, 0, 1, m⟩,
   ⟨t, (E._GetHash160CompSym px).2, neg32 incr, 0, 1, m⟩,
   ⟨t, (E._GetHash160CompSym pe1x).1, incr, 1, 1, m⟩,
   ⟨t, (E._GetHash160CompSym pe1x).2, neg32 incr, 1, 1, m⟩,
   ⟨t, (E._GetHash160CompSym pe2x).1, incr, 2, 1, m⟩,
   ⟨t, (E._GetHash160CompSym pe2x).2, neg32 incr, 2, 1, m⟩]

/-- A report with its matcher replaced. -/
def Report.withMatcher (m : Matcher) (r : Report) : Report := { r with matcher := m }

/-- What a report submits, with the sign of the increment dropped: digest,
endomorphism index and `|incr|`. -/
def Report.triple (r : Report) : Digest × Int × Nat := (r.h, r.endo, r.incr.natAbs)

/-! ## `BloomCheck` with its accesses to the filter -/

/-- An access to the filter `inputBloomLookUp`, by byte index. -/
inductive Access where
  | read (byte : Nat)
  | write (byte : Nat)
deriving DecidableEq, Repr

/-- How an instrumented run of `BloomCheck` ends: with the returned value and the
accesses made, in a remainder by zero, or with the iteration budget used up. -/
inductive Outcome where
  | returned (value : Nat) (accesses : List Access)
  | moduloByZero
  | outOfFuel
deriving DecidableEq, Repr

/-- The function `test_bit_set_bit(buf, bit)` together with the access it makes:
the load `buf[byte]`. -/
def test_bit_set_bit_access (buf : Mem) (bit : Nat) : Nat × List Access :=
  let byte := bit >>> 3
  let c := buf byte % 2 ^ 8
  let mask := (1 <<< (bit % 8)) % 2 ^ 8
  (if c &&& mask ≠ 0 then 1 else 0, [Access.read byte])

/-- The `for (i = 0; i < BLOOM_HASHES; i++)` loop of `BloomCheck` with its loop
condition on the `uint8_t` counter, the remainder `% BLOOM_BITS` as a fallible
operation and the accesses to the filter recorded; `fuel` bounds the number of
evaluations of the loop condition. -/
def BloomCheck_run_loop (inputBloomLookUp : Mem) (BLOOM_BITS BLOOM_HASHES add a b : Nat) :
    Nat → Nat → Nat → List Access → Outcome
  | 0, _, _, _ => .outOfFuel
  | fuel + 1, i, hits, accesses =>
    if i < BLOOM_HASHES then
      if BLOOM_BITS = 0 then .moduloByZero
      else
        let x := bloomIndex a b i BLOOM_BITS
        let r := test_bit_set_bit_access inputBloomLookUp x
        let accesses := accesses ++ r.2
        if r.1 ≠ 0 then
          BloomCheck_run_loop inputBloomLookUp BLOOM_BITS BLOOM_HASHES add a b fuel
            ((i + 1) % 2 ^ 8) ((hits + 1) % 2 ^ 8) accesses
        else if add = 0 then .returned 0 accesses
        else
          BloomCheck_run_loop inputBloomLookUp BLOOM_BITS BLOOM_HASHES add a b fuel
            ((i + 1) % 2 ^ 8) hits accesses
    else .returned (if hits = BLOOM_HASHES then 1 else 0) accesses

/-- The function `BloomCheck` run with its accesses recorded. -/
def BloomCheck_run (hash : Digest) (inputBloomLookUp : Mem) (BLOOM_BITS BLOOM_HASHES : Nat)
    (fuel : Nat) : Outcome :=
  let add := 0
  let a := murmurhash2 hash.bytes 20 0x9747b28c
  let b := murmurhash2 hash.bytes 20 a
  BloomCheck_run_loop inputBloomLookUp BLOOM_BITS BLOOM_HASHES add a b fuel 0 0 []

/-! # Theorems -/

set_option maxRecDepth 100000

/-! ## Loops -/

theorem forUpTo_zero {α : Type} (body : Nat → α → α) (init : α) : forUpTo 0 body init = init := rfl

theorem forUpTo_succ {α : Type} (n : Nat) (body : Nat → α → α) (init : α) :
    forUpTo (n + 1) body init = body n (forUpTo n body init) := by
  simp [forUpTo, List.range_succ, List.foldl_append]

/-- A relation between two states that every loop body preserves is preserved by the loop. -/
theorem forUpTo_rel {α β : Type} (R : α → β → Prop) (f : Nat → α → α) (g : Nat → β → β)
    (hstep : ∀ i a b, R a b → R (f i a) (g i b)) (n : Nat) (a : α) (b : β) (h : R a b) :
    R (forUpTo n f a) (forUpTo n g b) := by
  induction n with
  | zero => exact h
  | succ n ih =>
    rw [forUpTo_succ, forUpTo_succ]
    exact hstep n _ _ ih

theorem ComputeKeys_step_logRel {σ : Type} (E : Env) (f : Int → Nat → Nat → σ → σ) (acc0 : σ)
    (sx sy pyn : Nat) (dx : Mem) (j i : Nat) (r : WalkRegs σ) (l : WalkRegs (List Call))
    (h : LogRel f acc0 r l) :
    LogRel f acc0
      (ComputeKeys_step E (fun w px py a => f (toInt32 w) px py a) sx sy pyn dx j i r)
      (ComputeKeys_step E logCall sx sy pyn dx j i l) := by
  obtain ⟨-, -, h3⟩ := h
  refine ⟨rfl, rfl, ?_⟩
  simp only [ComputeKeys_step, CHECK_PREFIX, logCall, List.foldl_append, List.foldl_cons,
    List.foldl_nil, h3]

theorem ComputeKeys_group_logRel {σ : Type} (E : Env) (f : Int → Nat → Nat → σ → σ) (acc0 : σ)
    (sx sy j : Nat) (r : WalkRegs σ) (l : WalkRegs (List Call)) (h : LogRel f acc0 r l) :
    LogRel f acc0
      (ComputeKeys_group E (fun w px py a => f (toInt32 w) px py a) sx sy j r)
      (ComputeKeys_group E logCall sx sy j l) := by
  obtain ⟨rpx, rpy, racc⟩ := r
  obtain ⟨lpx, lpy, lacc⟩ := l
  obtain ⟨h1, h2, h3⟩ := h
  simp only at h1 h2 h3
  subst h1 h2 h3
  have hloop := forUpTo_rel (LogRel f acc0)
    (ComputeKeys_step E (fun w px py a => f (toInt32 w) px py a) sx sy (ModNeg256 E.p rpy)
      (_ModInvGrouped E.p (E.GRP_SIZE / 2 + 1) (fillDx E sx)) j)
    (ComputeKeys_step E logCall sx sy (ModNeg256 E.p rpy)
      (_ModInvGrouped E.p (E.GRP_SIZE / 2 + 1) (fillDx E sx)) j)
    (fun i a b hab => ComputeKeys_step_logRel E f acc0 sx sy _ _ j i a b hab) E.HSIZE
    ⟨rpx, rpy, CHECK_PREFIX E (fun w px py a => f (toInt32 w) px py a) j (E.GRP_SIZE / 2)
      rpx rpy (lacc.foldl (fun a c => f c.incr c.px c.py a) acc0)⟩
    ⟨rpx, rpy, CHECK_PREFIX E logCall j (E.GRP_SIZE / 2) rpx rpy lacc⟩
    ⟨rfl, rfl, by simp [CHECK_PREFIX, logCall, List.foldl_append]⟩
  obtain ⟨-, -, q3⟩ := hloop
  refine ⟨rfl, rfl, ?_⟩
  simp only [ComputeKeys_group]
  simp only [CHECK_PREFIX, logCall, List.foldl_append, List.foldl_cons, List.foldl_nil]
  simp only [CHECK_PREFIX, logCall] at q3
  rw [q3]

/-- The output of `ComputeKeys` is `CheckHash` folded over the logged calls, and
the stored point is the point of the logged walk. -/
theorem ComputeKeys_eq_fold_calls (E : Env) (t : Thread) (mode startx starty : Nat)
    (bloomLookUp : Mem) (BLOOM_BITS : Int) (BLOOM_HASHES maxFound : Nat) (out : Mem) :
    ComputeKeys E t mode startx starty bloomLookUp BLOOM_BITS BLOOM_HASHES maxFound out =
      ((ComputeKeys_walk E logCall startx starty []).px,
       (ComputeKeys_walk E logCall startx starty []).py,
       (ComputeKeys_calls E startx starty).foldl
         (fun out c => CheckHash E t mode c.px c.py c.incr bloomLookUp BLOOM_BITS BLOOM_HASHES
           maxFound out) out) := by
  have h := forUpTo_rel
    (LogRel (fun incr px py out => CheckHash E t mode px py incr bloomLookUp BLOOM_BITS
      BLOOM_HASHES maxFound out) out)
    (ComputeKeys_group E (fun w px py out => CheckHash E t mode px py (toInt32 w) bloomLookUp
      BLOOM_BITS BLOOM_HASHES maxFound out) startx starty)
    (ComputeKeys_group E logCall startx starty)
    (fun j a b hab => ComputeKeys_group_logRel E _ out startx starty j a b hab)
    (E.STEP_SIZE / E.GRP_SIZE) ⟨startx, starty, out⟩ ⟨startx, starty, []⟩ ⟨rfl, rfl, rfl⟩
  obtain ⟨h1, h2, h3⟩ := h
  simp only [ComputeKeys, ComputeKeys_calls, ComputeKeys_walk]
  rw [h1, h2, h3]

theorem ComputeKeys_step_log (E : Env) (sx sy pyn j i : Nat) (r : WalkRegs (List Call)) :
    ComputeKeys_step E logCall sx sy pyn (groupDx E sx) j i r =
      ⟨(negCall E sx pyn j i).px, (negCall E sx pyn j i).py,
        r.acc ++ [posCall E sx sy j i, negCall E sx pyn j i]⟩ := by
  simp [ComputeKeys_step, CHECK_PREFIX, logCall, posCall, negCall, posPoint, negPoint]

theorem loopCalls_succ (E : Env) (sx sy pyn j n : Nat) :
    loopCalls E sx sy pyn j (n + 1) =
      loopCalls E sx sy pyn j n ++ [posCall E sx sy j n, negCall E sx pyn j n] := by
  simp [loopCalls, List.range_succ, List.flatMap_append]

theorem forUpTo_step_acc (E : Env) (sx sy pyn j : Nat) (r : WalkRegs (List Call)) (n : Nat) :
    (forUpTo n (ComputeKeys_step E logCall sx sy pyn (groupDx E sx) j) r).acc =
      r.acc ++ loopCalls E sx sy pyn j n := by
  induction n with
  | zero => simp [forUpTo_zero, loopCalls]
  | succ n ih =>
    rw [forUpTo_succ, ComputeKeys_step_log, loopCalls_succ]
    simp only [ih, List.append_assoc]

/-- The calls of one group, listed: the centre, the loop steps, the first point. -/
theorem ComputeKeys_groupCalls_eq (E : Env) (sx sy j px py : Nat) :
    ComputeKeys_groupCalls E sx sy j px py =
      centreCall E j px py :: (loopCalls E sx sy (ModNeg256 E.p py) j E.HSIZE ++
        [firstCall E sx sy j]) := by
  have h := forUpTo_step_acc E sx sy (ModNeg256 E.p py) j
    ⟨px, py, [centreCall E j px py]⟩ E.HSIZE
  simp only [ComputeKeys_groupCalls, ComputeKeys_group]
  simp only [CHECK_PREFIX, logCall, List.nil_append]
  simp only [groupDx, centreCall] at h
  rw [h]
  simp [firstCall, negPoint, groupDx, centreCall]

/-- The registers left by one group of the logged walk: the next centre. -/
theorem ComputeKeys_group_point {σ : Type} (E : Env) (check : Nat → Nat → Nat → σ → σ)
    (sx sy j : Nat) (r : WalkRegs σ) :
    (ComputeKeys_group E check sx sy j r).px = (nextCentre E sx sy).1 ∧
    (ComputeKeys_group E check sx sy j r).py = (nextCentre E sx sy).2 := by
  simp [ComputeKeys_group, nextCentre, posPoint, groupDx]

theorem loopCalls_length (E : Env) (sx sy pyn j n : Nat) :
    (loopCalls E sx sy pyn j n).length = 2 * n := by
  induction n with
  | zero => simp [loopCalls]
  | succ n ih =>
    rw [loopCalls_succ, List.length_append, ih]
    simp
    omega

theorem loopCalls_getElem? (E : Env) (sx sy pyn j n i : Nat) (hi : i < n) :
    (loopCalls E sx sy pyn j n)[2 * i]? = some (posCall E sx sy j i) ∧
    (loopCalls E sx sy pyn j n)[2 * i + 1]? = some (negCall E sx pyn j i) := by
  induction n with
  | zero => omega
  | succ n ih =>
    rw [loopCalls_succ]
    rcases Nat.lt_or_ge i n with h | h
    · obtain ⟨h1, h2⟩ := ih h
      have hl := loopCalls_length E sx sy pyn j n
      rw [List.getElem?_append_left (by omega), List.getElem?_append_left (by omega)]
      exact ⟨h1, h2⟩
    · have hin : i = n := by omega
      subst hin
      have hl := loopCalls_length E sx sy pyn j i
      rw [List.getElem?_append_right (by omega), List.getElem?_append_right (by omega)]
      have e1 : 2 * i - (loopCalls E sx sy pyn j i).length = 0 := by omega
      have e2 : 2 * i + 1 - (loopCalls E sx sy pyn j i).length = 1 := by omega
      rw [e1, e2]
      exact ⟨rfl, rfl⟩

/-! ## Field arithmetic in `ZMod p` -/

section Field

variable {p : Nat}

theorem cast_ModSub256 (hp : 0 < p) (a b : Nat) :
    ((ModSub256 p a b : Nat) : ZMod p) = (a : ZMod p) - b := by
  unfold ModSub256
  have hb : b % p ≤ p := (Nat.mod_lt b hp).le
  rw [ZMod.natCast_mod, Nat.cast_add, Nat.cast_sub hb, ZMod.natCast_self, ZMod.natCast_mod]
  ring

theorem cast_ModNeg256 (hp : 0 < p) (a : Nat) :
    ((ModNeg256 p a : Nat) : ZMod p) = -(a : ZMod p) := by
  unfold ModNeg256
  have hb : a % p ≤ p := (Nat.mod_lt a hp).le
  rw [ZMod.natCast_mod, Nat.cast_sub hb, ZMod.natCast_self, ZMod.natCast_mod]
  ring

theorem cast_ModMult (a b : Nat) : ((_ModMult p a b : Nat) : ZMod p) = (a : ZMod p) * b := by
  unfold _ModMult
  rw [ZMod.natCast_mod, Nat.cast_mul]

theorem cast_ModSqr (a : Nat) : ((_ModSqr p a : Nat) : ZMod p) = (a : ZMod p) ^ 2 := by
  unfold _ModSqr
  rw [ZMod.natCast_mod, Nat.cast_mul, sq]

theorem ModSub256_lt (hp : 0 < p) (a b : Nat) : ModSub256 p a b < p := Nat.mod_lt _ hp

theorem cast_powModAux (fuel b e acc : Nat) (he : e < 2 ^ fuel) :
    ((powModAux p fuel b e acc : Nat) : ZMod p) = (acc : ZMod p) * (b : ZMod p) ^ e := by
  induction fuel generalizing b e acc with
  | zero =>
    have : e = 0 := by simpa using he
    subst this
    simp [powModAux]
  | succ n ih =>
    unfold powModAux
    by_cases h0 : e = 0
    · subst h0
      simp
    · rw [if_neg h0, ih _ _ _ (by rw [pow_succ] at he; omega)]
      have hsq : (((b * b % p : Nat) : ZMod p)) = (b : ZMod p) ^ 2 := by
        rw [ZMod.natCast_mod, Nat.cast_mul, sq]
      rw [hsq, ← pow_mul]
      by_cases h1 : e % 2 = 1
      · rw [if_pos h1, ZMod.natCast_mod, Nat.cast_mul, mul_assoc, ← pow_succ']
        congr 2
        omega
      · rw [if_neg h1]
        congr 2
        omega

theorem cast_ModInv [Fact p.Prime] (a : Nat) (ha : (a : ZMod p) ≠ 0) :
    ((_ModInv p a : Nat) : ZMod p) = (a : ZMod p)⁻¹ := by
  have hp2 : 2 ≤ p := (Fact.out : p.Prime).two_le
  unfold _ModInv
  rw [cast_powModAux _ _ _ _ (lt_of_le_of_lt (Nat.sub_le p 2) (Nat.lt_two_pow p)), Nat.cast_one,
    one_mul, ZMod.natCast_mod]
  apply eq_inv_of_mul_eq_one_left
  rw [← pow_succ]
  have : p - 2 + 1 = p - 1 := by omega
  rw [this]
  exact ZMod.pow_card_sub_one_eq_one ha

end Field

/-! ## Grouped inversion -/

section Grouped

variable {p : Nat} [Fact p.Prime]

theorem cast_subp_succ (D : Mem) (i : Nat) :
    ((subp p D (i + 1) : Nat) : ZMod p) = (subp p D i : ZMod p) * (D (i + 1) : ZMod p) := by
  rw [subp, cast_ModMult]

theorem cast_subp_ne_zero (D : Mem) (i : Nat) (h : ∀ k, k ≤ i → (D k : ZMod p) ≠ 0) :
    ((subp p D i : Nat) : ZMod p) ≠ 0 := by
  induction i with
  | zero => exact h 0 (le_refl 0)
  | succ n ih =>
    rw [cast_subp_succ]
    exact mul_ne_zero (ih (fun k hk => h k (by omega))) (h (n + 1) (le_refl _))

theorem invBackward_spec (D0 : Mem) (i : Nat) :
    ∀ (Q : Nat) (D : Mem), (∀ k, k ≤ i → D k = D0 k) →
      (Q : ZMod p) = ((subp p D0 i : Nat) : ZMod p)⁻¹ →
      (∀ k, k ≤ i → (D0 k : ZMod p) ≠ 0) →
      (∀ k, k ≤ i → ((invBackward p (subp p D0) i Q D k : Nat) : ZMod p) = (D0 k : ZMod p)⁻¹) ∧
      (∀ k, i < k → invBackward p (subp p D0) i Q D k = D k) := by
  induction i with
  | zero =>
    intro Q D _ hQ _
    constructor
    · intro k hk
      have : k = 0 := by omega
      subst this
      simp only [invBackward, Mem.write, if_true]
      rw [hQ, subp]
    · intro k hk
      have : k ≠ 0 := by omega
      simp only [invBackward, Mem.write, if_neg this]
  | succ n ih =>
    intro Q D hD hQ hne
    have ha : ((subp p D0 n : Nat) : ZMod p) ≠ 0 := cast_subp_ne_zero D0 n (fun k hk => hne k (by omega))
    have hb : (D0 (n + 1) : ZMod p) ≠ 0 := hne (n + 1) (le_refl _)
    rw [cast_subp_succ] at hQ
    have hQ' : ((_ModMult p Q (D (n + 1)) : Nat) : ZMod p) = ((subp p D0 n : Nat) : ZMod p)⁻¹ := by
      rw [cast_ModMult, hQ, hD (n + 1) (le_refl _)]
      field_simp
      ring
    have hnew : ((_ModMult p Q (subp p D0 n) : Nat) : ZMod p) = (D0 (n + 1) : ZMod p)⁻¹ := by
      rw [cast_ModMult, hQ]
      field_simp
    obtain ⟨h1, h2⟩ := ih (_ModMult p Q (D (n + 1)))
      (D.write (n + 1) (_ModMult p Q (subp p D0 n)))
      (fun k hk => by
        have : k ≠ n + 1 := by omega
        simp only [Mem.write, if_neg this]
        exact hD k (by omega))
      hQ' (fun k hk => hne k (by omega))
    simp only [invBackward]
    constructor
    · intro k hk
      rcases Nat.lt_or_ge n k with hlt | hge
      · have hk1 : k = n + 1 := by omega
        subst hk1
        rw [h2 (n + 1) (by omega)]
        simp only [Mem.write, if_true]
        exact hnew
      · exact h1 k hge
    · intro k hk
      rw [h2 k (by omega)]
      have : k ≠ n + 1 := by omega
      simp only [Mem.write, if_neg this]

/-- The grouped inversion replaces `N >= 1` non-zero elements by their inverses
and leaves the rest of the array alone. -/
theorem ModInvGrouped_spec (N : Nat) (hN : 1 ≤ N) (D : Mem)
    (hne : ∀ k, k < N → (D k : ZMod p) ≠ 0) :
    (∀ k, k < N → ((_ModInvGrouped p N D k : Nat) : ZMod p) = (D k : ZMod p)⁻¹) ∧
    (∀ k, N ≤ k → _ModInvGrouped p N D k = D k) := by
  have hne' : ∀ k, k ≤ N - 1 → (D k : ZMod p) ≠ 0 := fun k hk => hne k (by omega)
  obtain ⟨h1, h2⟩ := invBackward_spec D (N - 1) (_ModInv p (subp p D (N - 1))) D
    (fun _ _ => rfl) (cast_ModInv _ (cast_subp_ne_zero D (N - 1) hne')) hne'
  exact ⟨fun k hk => h1 k (by omega), fun k hk => h2 k (by omega)⟩

end Grouped

/-! ## The delta-x array -/

theorem forUpTo_write (f : Nat → Nat) (dx0 : Mem) (n k : Nat) :
    (forUpTo n (fun i dx => Mem.write dx i (f i)) dx0) k = if k < n then f k else dx0 k := by
  induction n with
  | zero => simp [forUpTo_zero]
  | succ n ih =>
    rw [forUpTo_succ]
    simp only [Mem.write]
    by_cases hk : k = n
    · subst hk
      simp
    · rw [if_neg hk, ih]
      by_cases hlt : k < n
      · rw [if_pos hlt, if_pos (by omega)]
      · rw [if_neg hlt, if_neg (by omega)]

theorem fillDx_table (E : Env) (sx i : Nat) (hi : i ≤ E.HSIZE) :
    fillDx E sx i = ModSub256 E.p (E.Gx i) sx := by
  have h1 : i ≠ E.HSIZE + 1 := by omega
  simp only [fillDx, Mem.write, if_neg h1]
  by_cases h2 : i = E.HSIZE
  · rw [if_pos h2, h2]
  · rw [if_neg h2, forUpTo_write, if_pos (by omega)]

theorem fillDx_next (E : Env) (sx : Nat) :
    fillDx E sx (E.HSIZE + 1) = ModSub256 E.p E._2Gnx sx := by
  simp [fillDx, Mem.write]

/-! ## Points of the curve -/

section Curve

open WeierstrassCurve.Affine

variable {p : Nat} [Fact p.Prime]

theorem prime_pos : 0 < p := (Fact.out : p.Prime).pos

theorem curve_Δ_ne_zero (h7 : 7 < p) : (curve p).Δ ≠ 0 := by
  have hΔ : (curve p).Δ = -((21168 : Nat) : ZMod p) := by
    simp only [WeierstrassCurve.Δ, WeierstrassCurve.b₂, WeierstrassCurve.b₄, WeierstrassCurve.b₆,
      WeierstrassCurve.b₈, curve]
    push_cast
    ring
  rw [hΔ, neg_ne_zero, Ne, ZMod.natCast_zmod_eq_zero_iff_dvd]
  intro hdvd
  have hp : p.Prime := Fact.out
  have e : 21168 = 2 ^ 4 * 3 ^ 3 * 7 ^ 2 := by norm_num
  rw [e] at hdvd
  rcases (Nat.Prime.dvd_mul hp).1 hdvd with h | h
  · rcases (Nat.Prime.dvd_mul hp).1 h with h | h
    · have := Nat.le_of_dvd (by norm_num) (hp.dvd_of_dvd_pow h)
      omega
    · have := Nat.le_of_dvd (by norm_num) (hp.dvd_of_dvd_pow h)
      omega
  · have := Nat.le_of_dvd (by norm_num) (hp.dvd_of_dvd_pow h)
    omega

theorem curve_equation_iff (x y : ZMod p) : (curve p).Equation x y ↔ y ^ 2 = x ^ 3 + 7 := by
  rw [equation_iff]
  simp [curve]

theorem nonsingular_of_onCurve (h7 : 7 < p) {x y : Nat} (h : onCurve p x y) :
    (curve p).Nonsingular (x : ZMod p) (y : ZMod p) := by
  refine nonsingular_of_Δ_ne_zero (curve p) ?_ (curve_Δ_ne_zero h7)
  rw [curve_equation_iff]
  have h3 := congrArg (Nat.cast : Nat → ZMod p) h.2.2
  rw [ZMod.natCast_mod, ZMod.natCast_mod] at h3
  push_cast at h3
  linear_combination h3

/-- A pair that passes the on-curve check is a point of the curve. -/
theorem isPt_of_onCurve (h7 : 7 < p) {x y : Nat} (h : onCurve p x y) :
    IsPt p x y (Point.some (nonsingular_of_onCurve h7 h)) :=
  ⟨h.1, h.2.1, nonsingular_of_onCurve h7 h, rfl⟩

omit [Fact p.Prime] in
theorem some_congr {W : WeierstrassCurve.Affine (ZMod p)} {x y x1 y1 : ZMod p}
    (h : W.Nonsingular x y) (hx : x1 = x) (hy : y1 = y) :
    ∃ h1 : W.Nonsingular x1 y1, Point.some h = Point.some h1 := by
  subst hx hy
  exact ⟨h, rfl⟩

theorem natCast_inj_of_lt {a b : Nat} (ha : a < p) (hb : b < p)
    (h : (a : ZMod p) = (b : ZMod p)) : a = b := by
  have := (ZMod.natCast_eq_natCast_iff a b p).1 h
  exact Nat.ModEq.eq_of_lt_of_lt this ha hb

/-- A point of the curve has one pair of reduced coordinates. -/
theorem IsPt.unique {x y x1 y1 : Nat} {Q : (curve p).Point} (h : IsPt p x y Q)
    (h1 : IsPt p x1 y1 Q) : x = x1 ∧ y = y1 := by
  obtain ⟨hx, hy, hn, rfl⟩ := h
  obtain ⟨hx1, hy1, hn1, e⟩ := h1
  have := Point.some.inj e
  exact ⟨natCast_inj_of_lt hx hx1 this.1, natCast_inj_of_lt hy hy1 this.2⟩

omit [Fact p.Prime] in
theorem IsPt.ne_zero {x y : Nat} {Q : (curve p).Point} (h : IsPt p x y Q) : Q ≠ 0 := by
  obtain ⟨_, _, hn, rfl⟩ := h
  exact Point.some_ne_zero hn

/-- The chord formula of the positive branch: with `inv` the inverse of
`gx - sx`, `posPoint` is the group-law sum of `(sx, sy)` and `(gx, gy)`. -/
theorem posPoint_isPt {sx sy gx gy : Nat} (inv : Nat) {P Q : (curve p).Point}
    (hP : IsPt p sx sy P) (hQ : IsPt p gx gy Q)
    (hinv : (inv : ZMod p) * ((gx : ZMod p) - sx) = 1) :
    IsPt p (posPoint p sx sy gx gy inv).1 (posPoint p sx sy gx gy inv).2 (P + Q) := by
  have hp := prime_pos (p := p)
  obtain ⟨_, _, h1, rfl⟩ := hP
  obtain ⟨_, _, h2, rfl⟩ := hQ
  have hd : (gx : ZMod p) - sx ≠ 0 := right_ne_zero_of_mul_eq_one hinv
  have hx : (sx : ZMod p) ≠ gx := fun e => hd (by rw [e, sub_self])
  have hd' : (sx : ZMod p) - gx ≠ 0 := sub_ne_zero.2 hx
  have hL : (curve p).slope (sx : ZMod p) gx sy gy = ((gy : ZMod p) - sy) * inv := by
    rw [slope_of_X_ne hx, div_eq_iff hd']
    linear_combination ((gy : ZMod p) - sy) * hinv
  refine ⟨ModSub256_lt hp _ _, ModSub256_lt hp _ _, ?_⟩
  rw [Point.add_of_X_ne hx]
  apply some_congr
  · simp only [posPoint, cast_ModSub256 hp, cast_ModSqr, cast_ModMult, addX, hL]
    simp only [curve]
    ring
  · simp only [posPoint, cast_ModSub256 hp, cast_ModSqr, cast_ModMult, addY, negAddY, negY,
      addX, hL]
    simp only [curve]
    linear_combination ((gy : ZMod p) - sy) * hinv

/-- The chord formula of the negative branch: with `inv` the inverse of
`gx - sx` and `dy = -sy - gy`, `negPoint` is the group-law difference of
`(sx, sy)` and `(gx, gy)`. -/
theorem negPoint_isPt {sx sy dy gx gy : Nat} (inv : Nat) {P Q : (curve p).Point}
    (hP : IsPt p sx sy P) (hQ : IsPt p gx gy Q)
    (hdy : (dy : ZMod p) = -(sy : ZMod p) - gy)
    (hinv : (inv : ZMod p) * ((gx : ZMod p) - sx) = 1) :
    IsPt p (negPoint p sx dy gx gy inv).1 (negPoint p sx dy gx gy inv).2 (P - Q) := by
  have hp := prime_pos (p := p)
  obtain ⟨_, _, h1, rfl⟩ := hP
  obtain ⟨_, _, h2, rfl⟩ := hQ
  have hd : (gx : ZMod p) - sx ≠ 0 := right_ne_zero_of_mul_eq_one hinv
  have hx : (sx : ZMod p) ≠ gx := fun e => hd (by rw [e, sub_self])
  have hd' : (sx : ZMod p) - gx ≠ 0 := sub_ne_zero.2 hx
  have hL : (curve p).slope (sx : ZMod p) gx sy ((curve p).negY gx gy) =
      (-(sy : ZMod p) - gy) * inv := by
    rw [slope_of_X_ne hx, div_eq_iff hd']
    simp only [negY, curve]
    linear_combination (-(gy : ZMod p) - sy) * hinv
  refine ⟨ModSub256_lt hp _ _, ModSub256_lt hp _ _, ?_⟩
  rw [sub_eq_add_neg, Point.neg_some, Point.add_of_X_ne hx]
  apply some_congr
  · simp only [negPoint, cast_ModSub256 hp, cast_ModSqr, cast_ModMult, hdy, addX, hL]
    simp only [curve]
    ring
  · simp only [negPoint, cast_ModSub256 hp, cast_ModSqr, cast_ModMult, hdy, addY, negAddY,
      addX, hL]
    simp only [negY, curve]
    linear_combination (-(gy : ZMod p) - sy) * hinv

end Curve

section Curve2

open WeierstrassCurve.Affine

variable {p : Nat} [Fact p.Prime]

omit [Fact p.Prime] in
/-- Two points with the same reduced coordinates are equal. -/
theorem IsPt.eq {x y : Nat} {Q Q1 : (curve p).Point} (h : IsPt p x y Q) (h1 : IsPt p x y Q1) :
    Q = Q1 := by
  obtain ⟨_, _, hn, rfl⟩ := h
  obtain ⟨_, _, hn1, rfl⟩ := h1
  rfl

/-- The tangent formula is the group-law double. -/
theorem dblPoint_isPt {x y : Nat} {P : (curve p).Point} (hP : IsPt p x y P)
    (hy : (2 : ZMod p) * y ≠ 0) :
    IsPt p (dblPoint p x y).1 (dblPoint p x y).2 (P + P) := by
  have hp := prime_pos (p := p)
  obtain ⟨_, _, h1, rfl⟩ := hP
  have hyn : (y : ZMod p) ≠ (curve p).negY x y := by
    intro e
    apply hy
    simp only [negY, curve] at e
    linear_combination e
  have h2y : ((_ModMult p 2 y : Nat) : ZMod p) ≠ 0 := by
    rw [cast_ModMult]
    exact_mod_cast hy
  have hd : (y : ZMod p) - (curve p).negY x y ≠ 0 := sub_ne_zero.2 hyn
  have hL : (curve p).slope (x : ZMod p) x y y = 3 * (x : ZMod p) ^ 2 * ((2 : ZMod p) * y)⁻¹ := by
    rw [slope_of_Y_ne rfl hyn, div_eq_mul_inv]
    simp only [negY, curve]
    congr 1
    · ring
    · congr 1
      ring
  refine ⟨ModSub256_lt hp _ _, ModSub256_lt hp _ _, ?_⟩
  rw [Point.add_self_of_Y_ne hyn]
  apply some_congr
  · simp only [dblPoint, cast_ModSub256 hp, cast_ModSqr, cast_ModMult, cast_ModInv _ h2y, addX,
      hL]
    simp only [curve]
    push_cast
    ring
  · simp only [dblPoint, cast_ModSub256 hp, cast_ModSqr, cast_ModMult, cast_ModInv _ h2y, addY,
      negAddY, addX, hL]
    simp only [negY, curve]
    push_cast
    ring

end Curve2

/-! ## The walk, group by group -/

theorem ComputeKeys_group_log (E : Env) (sx sy j : Nat) (r : WalkRegs (List Call)) :
    ComputeKeys_group E logCall sx sy j r =
      ⟨(nextCentre E sx sy).1, (nextCentre E sx sy).2,
        r.acc ++ ComputeKeys_groupCalls E sx sy j r.px r.py⟩ := by
  have h := forUpTo_step_acc E sx sy (ModNeg256 E.p r.py) j
    ⟨r.px, r.py, r.acc ++ [centreCall E j r.px r.py]⟩ E.HSIZE
  rw [ComputeKeys_groupCalls_eq]
  simp only [ComputeKeys_group]
  simp only [CHECK_PREFIX, logCall]
  simp only [groupDx, centreCall] at h
  rw [h]
  simp [firstCall, negPoint, groupDx, centreCall, nextCentre, posPoint]

theorem ComputeKeys_walk_log (E : Env) (sx sy n : Nat) :
    forUpTo n (ComputeKeys_group E logCall sx sy) ⟨sx, sy, []⟩ =
      ⟨(entryPoint E sx sy n).1, (entryPoint E sx sy n).2,
        (List.range n).flatMap
          (fun j => ComputeKeys_groupCalls E sx sy j (entryPoint E sx sy j).1
            (entryPoint E sx sy j).2)⟩ := by
  induction n with
  | zero => simp [forUpTo_zero, entryPoint]
  | succ n ih =>
    rw [forUpTo_succ, ih, ComputeKeys_group_log]
    simp [entryPoint, List.range_succ, List.flatMap_append]

/-- The calls of `ComputeKeys` are the calls of its groups, the first group
entered with the start point and every later one with the next centre that was
computed from the start point. -/
theorem ComputeKeys_calls_eq (E : Env) (sx sy : Nat) :
    ComputeKeys_calls E sx sy =
      (List.range (E.STEP_SIZE / E.GRP_SIZE)).flatMap
        (fun j => ComputeKeys_groupCalls E sx sy j (entryPoint E sx sy j).1
          (entryPoint E sx sy j).2) := by
  simp only [ComputeKeys_calls, ComputeKeys_walk]
  rw [ComputeKeys_walk_log]

/-- The point `ComputeKeys` stores back, for any check: the start point if no
group runs, otherwise the next centre computed from the start point. -/
theorem ComputeKeys_walk_point {σ : Type} (E : Env) (check : Nat → Nat → Nat → σ → σ)
    (sx sy : Nat) (acc : σ) :
    (ComputeKeys_walk E check sx sy acc).px = (entryPoint E sx sy (E.STEP_SIZE / E.GRP_SIZE)).1 ∧
    (ComputeKeys_walk E check sx sy acc).py = (entryPoint E sx sy (E.STEP_SIZE / E.GRP_SIZE)).2 := by
  simp only [ComputeKeys_walk]
  cases h : E.STEP_SIZE / E.GRP_SIZE with
  | zero => simp [forUpTo_zero, entryPoint]
  | succ n =>
    rw [forUpTo_succ]
    simpa [entryPoint] using ComputeKeys_group_point E check sx sy n _

theorem ComputeKeys_groupCalls_length (E : Env) (sx sy j px py : Nat) :
    (ComputeKeys_groupCalls E sx sy j px py).length = 2 * E.HSIZE + 2 := by
  rw [ComputeKeys_groupCalls_eq]
  simp [loopCalls_length]

theorem ComputeKeys_groupCalls_getElem? (E : Env) (sx sy j px py : Nat) :
    (ComputeKeys_groupCalls E sx sy j px py)[0]? = some (centreCall E j px py) ∧
    (∀ i, i < E.HSIZE →
      (ComputeKeys_groupCalls E sx sy j px py)[2 * i + 1]? = some (posCall E sx sy j i) ∧
      (ComputeKeys_groupCalls E sx sy j px py)[2 * i + 2]? =
        some (negCall E sx (ModNeg256 E.p py) j i)) ∧
    (ComputeKeys_groupCalls E sx sy j px py)[2 * E.HSIZE + 1]? = some (firstCall E sx sy j) := by
  rw [ComputeKeys_groupCalls_eq]
  have hl := loopCalls_length E sx sy (ModNeg256 E.p py) j E.HSIZE
  refine ⟨by simp, ?_, ?_⟩
  · intro i hi
    obtain ⟨h1, h2⟩ := loopCalls_getElem? E sx sy (ModNeg256 E.p py) j E.HSIZE i hi
    rw [List.getElem?_cons_succ, List.getElem?_cons_succ,
      List.getElem?_append_left (by omega), List.getElem?_append_left (by omega)]
    exact ⟨h1, h2⟩
  · rw [List.getElem?_cons_succ, List.getElem?_append_right (by omega)]
    simp [hl]

/-! ## Exact inverses in the delta-x array -/

section Exact

variable (E : Env) [Fact E.p.Prime]

/-- The hypothesis "dx holds the exact modular inverses", in the field. -/
theorem groupDx_cast_of_exact (sx i : Nat)
    (h : (groupDx E sx i * fillDx E sx i) % E.p = 1) :
    (groupDx E sx i : ZMod E.p) * (fillDx E sx i : ZMod E.p) = 1 := by
  have h1 := congrArg (Nat.cast : Nat → ZMod E.p) h
  rw [ZMod.natCast_mod] at h1
  push_cast at h1
  exact h1

/-- When every delta-x of the group is non-zero, the grouped inversion leaves
the exact inverses in the array. -/
theorem groupDx_exact (sx : Nat) (hG : 2 ≤ E.GRP_SIZE)
    (hne : ∀ k, k < E.GRP_SIZE / 2 + 1 → (fillDx E sx k : ZMod E.p) ≠ 0) (k : Nat)
    (hk : k < E.GRP_SIZE / 2 + 1) :
    (groupDx E sx k : ZMod E.p) * (fillDx E sx k : ZMod E.p) = 1 := by
  obtain ⟨h1, -⟩ := ModInvGrouped_spec (p := E.p) (E.GRP_SIZE / 2 + 1) (by omega) (fillDx E sx) hne
  unfold groupDx
  rw [h1 k hk]
  exact inv_mul_cancel₀ (hne k hk)

end Exact

/-! ## The points of a group are the group-law sums -/

section GroupPoints

variable (E : Env) [Fact E.p.Prime]

theorem posCall_isPt {sx sy i : Nat} (j : Nat) {P Q : (curve E.p).Point}
    (hP : IsPt E.p sx sy P) (hQ : IsPt E.p (E.Gx i) (E.Gy i) Q) (hi : i ≤ E.HSIZE)
    (hinv : (groupDx E sx i : ZMod E.p) * (fillDx E sx i : ZMod E.p) = 1) :
    IsPt E.p (posCall E sx sy j i).px (posCall E sx sy j i).py (P + Q) := by
  rw [fillDx_table E sx i hi, cast_ModSub256 prime_pos] at hinv
  exact posPoint_isPt _ hP hQ hinv

theorem negCall_isPt {sx sy i : Nat} (j : Nat) {P Q : (curve E.p).Point}
    (hP : IsPt E.p sx sy P) (hQ : IsPt E.p (E.Gx i) (E.Gy i) Q) (hi : i ≤ E.HSIZE)
    (hinv : (groupDx E sx i : ZMod E.p) * (fillDx E sx i : ZMod E.p) = 1) :
    IsPt E.p (negCall E sx (ModNeg256 E.p sy) j i).px (negCall E sx (ModNeg256 E.p sy) j i).py
      (P - Q) := by
  rw [fillDx_table E sx i hi, cast_ModSub256 prime_pos] at hinv
  refine negPoint_isPt _ hP hQ ?_ hinv
  rw [cast_ModSub256 prime_pos, cast_ModNeg256 prime_pos]

theorem firstCall_isPt {sx sy : Nat} (j : Nat) {P Q : (curve E.p).Point}
    (hP : IsPt E.p sx sy P) (hQ : IsPt E.p (E.Gx E.HSIZE) (E.Gy E.HSIZE) Q)
    (hinv : (groupDx E sx E.HSIZE : ZMod E.p) * (fillDx E sx E.HSIZE : ZMod E.p) = 1) :
    IsPt E.p (firstCall E sx sy j).px (firstCall E sx sy j).py (P - Q) := by
  rw [fillDx_table E sx E.HSIZE (le_refl _), cast_ModSub256 prime_pos] at hinv
  refine negPoint_isPt _ hP hQ ?_ hinv
  rw [cast_ModSub256 prime_pos, cast_ModNeg256 prime_pos]
  ring

theorem nextCentre_isPt {sx sy : Nat} {P Q : (curve E.p).Point}
    (hP : IsPt E.p sx sy P) (hQ : IsPt E.p E._2Gnx E._2Gny Q)
    (hinv : (groupDx E sx (E.HSIZE + 1) : ZMod E.p) * (fillDx E sx (E.HSIZE + 1) : ZMod E.p) = 1) :
    IsPt E.p (nextCentre E sx sy).1 (nextCentre E sx sy).2 (P + Q) := by
  rw [fillDx_next, cast_ModSub256 prime_pos] at hinv
  exact posPoint_isPt _ hP hQ hinv

/-- Every delta-x of the group is non-zero in the field when the centre differs
from the x coordinates of the table and of the step to the next centre. -/
theorem fillDx_ne_zero {sx sy : Nat} {P G : (curve E.p).Point} (hG2 : 2 ≤ E.GRP_SIZE)
    (hP : IsPt E.p sx sy P)
    (hT : ∀ i, i < E.GRP_SIZE / 2 → IsPt E.p (E.Gx i) (E.Gy i) ((i + 1) • G))
    (hN : IsPt E.p E._2Gnx E._2Gny (E.GRP_SIZE • G))
    (hne : ∀ i, i < E.GRP_SIZE / 2 → sx ≠ E.Gx i) (hneN : sx ≠ E._2Gnx) :
    ∀ k, k < E.GRP_SIZE / 2 + 1 → (fillDx E sx k : ZMod E.p) ≠ 0 := by
  intro k hk
  have hH : E.HSIZE + 1 = E.GRP_SIZE / 2 := by
    unfold Env.HSIZE
    omega
  rcases Nat.lt_or_ge k (E.GRP_SIZE / 2) with h | h
  · rw [fillDx_table E sx k (by omega), cast_ModSub256 prime_pos, sub_ne_zero]
    intro e
    exact hne k h (natCast_inj_of_lt hP.1 (hT k h).1 e.symm)
  · have hk' : k = E.HSIZE + 1 := by omega
    rw [hk', fillDx_next, cast_ModSub256 prime_pos, sub_ne_zero]
    intro e
    exact hneN (natCast_inj_of_lt hP.1 hN.1 e.symm)

end GroupPoints

/-! ## The example instance -/

theorem exSetup67 :
    ∃ P G : (curve 67).Point,
      IsPt 67 56 4 P ∧ IsPt 67 2 22 G ∧ IsPt 67 52 7 (2 • G) ∧ IsPt 67 25 17 (4 • G) := by
  have h7 : 7 < 67 := by decide
  have hP := isPt_of_onCurve h7 (show onCurve 67 56 4 by decide)
  have hG := isPt_of_onCurve h7 (show onCurve 67 2 22 by decide)
  have h2 := dblPoint_isPt hG (by decide)
  have e2 : dblPoint 67 2 22 = (52, 7) := by decide
  rw [e2] at h2
  have h4 := dblPoint_isPt h2 (by decide)
  have e4 : dblPoint 67 52 7 = (25, 17) := by decide
  rw [e4] at h4
  refine ⟨_, _, hP, hG, ?_, ?_⟩
  · rw [two_nsmul]
    exact h2
  · have e : ∀ Q : (curve 67).Point, 4 • Q = (Q + Q) + (Q + Q) := by
      intro Q
      rw [← two_nsmul, ← two_nsmul, ← mul_nsmul]
    rw [e]
    exact h4

/-- The example instance is a valid input of the walk: the start point `(56, 4)`
and the generator `(2, 22)` are points of the curve, the table holds `G, 2 G` and
the step to the next centre is `4 G`. -/
theorem exSetup (step : Nat) :
    ∃ P G : (curve (exEnv step).p).Point,
      IsPt (exEnv step).p 56 4 P ∧ IsPt (exEnv step).p 2 22 G ∧
      (∀ i, i < (exEnv step).GRP_SIZE / 2 →
        IsPt (exEnv step).p ((exEnv step).Gx i) ((exEnv step).Gy i) ((i + 1) • G)) ∧
      IsPt (exEnv step).p (exEnv step)._2Gnx (exEnv step)._2Gny ((exEnv step).GRP_SIZE • G) := by
  obtain ⟨P, G, hP, hG, h2, h4⟩ := exSetup67
  refine ⟨P, G, hP, hG, ?_, h4⟩
  intro i hi
  have hi2 : i < 2 := by simpa [exEnv] using hi
  interval_cases i
  · rw [zero_add, one_nsmul]
    exact hG
  · exact h2

/-! ## Bloom filter -/

theorem test_bit_set_bit_ne_zero_iff (buf : Mem) (bit : Nat) :
    test_bit_set_bit buf bit ≠ 0 ↔ filterBit buf bit = true := by
  have hj : bit % 8 < 8 := Nat.mod_lt _ (by norm_num)
  have hm : (1 <<< (bit % 8)) % 2 ^ 8 = 2 ^ (bit % 8) := by
    rw [Nat.one_shiftLeft]
    exact Nat.mod_eq_of_lt (Nat.pow_lt_pow_right (by norm_num) hj)
  unfold test_bit_set_bit filterBit
  simp only [hm, Nat.shiftRight_eq_div_pow, Nat.and_two_pow]
  have hb : (buf (bit / 2 ^ 3) % 2 ^ 8).testBit (bit % 8) = (buf (bit / 2 ^ 3)).testBit (bit % 8) := by
    rw [Nat.testBit_mod_two_pow]; simp [hj]
  rw [hb, Nat.testBit_to_div_mod]
  have h2 : 0 < 2 ^ (bit % 8) := by positivity
  by_cases h : buf (bit / 2 ^ 3) / 2 ^ (bit % 8) % 2 = 1
  · simp [h, h2.ne']
  · simp [h]

theorem BloomCheck_loop_spec (f : Mem) (B k a b : Nat) (hk : k < 256) :
    ∀ n i, i + n = k →
      (BloomCheck_loop f B k 0 a b n i i = 1 ↔
        ∀ j, i ≤ j → j < k → filterBit f (bloomIndex a b j B) = true) ∧
      (BloomCheck_loop f B k 0 a b n i i = 1 ∨ BloomCheck_loop f B k 0 a b n i i = 0) := by
  intro n
  induction n with
  | zero =>
    intro i hi
    have : i = k := by omega
    subst this
    simp only [BloomCheck_loop, if_true, true_or, and_true, true_iff]
    intro j h1 h2
    omega
  | succ n ih =>
    intro i hi
    have hi1 : (i + 1) % 2 ^ 8 = i + 1 := Nat.mod_eq_of_lt (by omega)
    simp only [BloomCheck_loop, hi1]
    by_cases hb : test_bit_set_bit f (bloomIndex a b i B) ≠ 0
    · rw [if_pos hb]
      obtain ⟨h1, h2⟩ := ih (i + 1) (by omega)
      refine ⟨?_, h2⟩
      rw [h1]
      constructor
      · intro h j hij hjk
        rcases Nat.eq_or_lt_of_le hij with rfl | hlt
        · exact (test_bit_set_bit_ne_zero_iff f _).1 hb
        · exact h j hlt hjk
      · intro h j hij hjk
        exact h j (by omega) hjk
    · rw [if_neg hb]
      simp only [if_true, zero_ne_one, false_iff, or_true, and_true, not_forall]
      exact ⟨i, le_refl i, by omega, fun h => hb ((test_bit_set_bit_ne_zero_iff f _).2 h)⟩

/-- C4. For a filter size `BLOOM_BITS > 0` and `k = BLOOM_HASHES` in `0..255`,
`BloomCheck` returns 1 exactly when each of the `k` probed bits (bit `x mod 8`,
least significant first, of byte `x div 8`) is set, and 0 otherwise; it returns
0 when some probed bit is clear (in particular the first one) and 1 when `k = 0`. -/
theorem BloomCheck_correct (h : Digest) (filter : Mem) (BLOOM_BITS k : Nat)
    (_hB : 0 < BLOOM_BITS) (hk : k < 256) :
    let a := murmurhash2 h.bytes 20 0x9747b28c
    let b := murmurhash2 h.bytes 20 a
    (BloomCheck h filter BLOOM_BITS k = 1 ↔
        ∀ i, i < k → filterBit filter (bloomIndex a b i BLOOM_BITS) = true) ∧
    (BloomCheck h filter BLOOM_BITS k ≠ 1 → BloomCheck h filter BLOOM_BITS k = 0) ∧
    ((∃ i, i < k ∧ filterBit filter (bloomIndex a b i BLOOM_BITS) = false) →
        BloomCheck h filter BLOOM_BITS k = 0) ∧
    (0 < k → filterBit filter (bloomIndex a b 0 BLOOM_BITS) = false →
        BloomCheck h filter BLOOM_BITS k = 0) ∧
    (k = 0 → BloomCheck h filter BLOOM_BITS k = 1) := by
  intro a b
  obtain ⟨h1, h2⟩ := BloomCheck_loop_spec filter BLOOM_BITS k a b hk k 0 (by omega)
  have hiff : BloomCheck h filter BLOOM_BITS k = 1 ↔
      ∀ i, i < k → filterBit filter (bloomIndex a b i BLOOM_BITS) = true := by
    unfold BloomCheck
    rw [h1]
    exact ⟨fun H i hi => H i (Nat.zero_le i) hi, fun H i _ hi => H i hi⟩
  have hor : BloomCheck h filter BLOOM_BITS k ≠ 1 → BloomCheck h filter BLOOM_BITS k = 0 := by
    intro hne
    rcases h2 with h2 | h2
    · exact absurd h2 hne
    · exact h2
  have hmiss : (∃ i, i < k ∧ filterBit filter (bloomIndex a b i BLOOM_BITS) = false) →
      BloomCheck h filter BLOOM_BITS k = 0 := by
    rintro ⟨i, hi, hf⟩
    apply hor
    intro h1'
    have := hiff.1 h1' i hi
    rw [hf] at this
    exact Bool.false_ne_true this
  refine ⟨hiff, hor, hmiss, fun hk0 hf => hmiss ⟨0, hk0, hf⟩, ?_⟩
  intro hk0
  exact hiff.2 (fun i hi => by omega)

/-- Witness of C4: a full filter of 1000 bits probed three times. -/
theorem BloomCheck_correct_witness :
    BloomCheck exDigest fullFilter 1000 3 = 1 ∧
      ∀ i, i < 3 → filterBit fullFilter (bloomIndex (murmurhash2 exDigest.bytes 20 0x9747b28c)
        (murmurhash2 exDigest.bytes 20 (murmurhash2 exDigest.bytes 20 0x9747b28c)) i 1000) = true :=
  ⟨by decide,
   ((BloomCheck_correct exDigest fullFilter 1000 3 (by decide) (by decide)).1).1 (by decide)⟩

/-! ## Output sink: one report -/

theorem report_recordWritten (t : Thread) (h : Digest) (incr endo mode : Int) (maxFound : Nat)
    (out : Mem) (hlt : out 0 < maxFound) (hidx : 8 * out 0 + 7 < 2 ^ 32) :
    RecordWritten out (report t h incr endo mode maxFound out) (out 0) t.tid
      (metaWord incr endo mode) h := by
  have e0 : (out 0 + 1) % 2 ^ 32 = out 0 + 1 := Nat.mod_eq_of_lt (by omega)
  have e1 : (out 0 * 8 + 1) % 2 ^ 32 = 8 * out 0 + 1 := by rw [Nat.mod_eq_of_lt (by omega)]; ring
  have e2 : (out 0 * 8 + 2) % 2 ^ 32 = 8 * out 0 + 2 := by rw [Nat.mod_eq_of_lt (by omega)]; ring
  have e3 : (out 0 * 8 + 3) % 2 ^ 32 = 8 * out 0 + 3 := by rw [Nat.mod_eq_of_lt (by omega)]; ring
  have e4 : (out 0 * 8 + 4) % 2 ^ 32 = 8 * out 0 + 4 := by rw [Nat.mod_eq_of_lt (by omega)]; ring
  have e5 : (out 0 * 8 + 5) % 2 ^ 32 = 8 * out 0 + 5 := by rw [Nat.mod_eq_of_lt (by omega)]; ring
  have e6 : (out 0 * 8 + 6) % 2 ^ 32 = 8 * out 0 + 6 := by rw [Nat.mod_eq_of_lt (by omega)]; ring
  have e7 : (out 0 * 8 + 7) % 2 ^ 32 = 8 * out 0 + 7 := by rw [Nat.mod_eq_of_lt (by omega)]; ring
  unfold RecordWritten report
  simp only [ITEM_SIZE32, if_pos hlt, e0, e1, e2, e3, e4, e5, e6, e7, Mem.write]
  refine ⟨by simp, by simp, by simp, by simp, by simp, by simp, by simp, by simp, ?_⟩
  intro k hk0 hk
  have h1 : k ≠ 8 * out 0 + 1 := by omega
  have h2 : k ≠ 8 * out 0 + 2 := by omega
  have h3 : k ≠ 8 * out 0 + 3 := by omega
  have h4 : k ≠ 8 * out 0 + 4 := by omega
  have h5 : k ≠ 8 * out 0 + 5 := by omega
  have h6 : k ≠ 8 * out 0 + 6 := by omega
  have h7 : k ≠ 8 * out 0 + 7 := by omega
  simp [hk0, h1, h2, h3, h4, h5, h6, h7]

theorem report_full (t : Thread) (h : Digest) (incr endo mode : Int) (maxFound : Nat)
    (out : Mem) (hge : ¬ out 0 < maxFound) :
    report t h incr endo mode maxFound out = out.write 0 ((out 0 + 1) % 2 ^ 32) := by
  unfold report
  simp only [if_neg hge]

/-- C5 (amended). For a digest that passes the matcher (`BloomCheck > 0` in
`CheckPoint`, `MatchHash160` in `CheckPoint2`) while word 0 holds `s < maxFound`
and the record indices fit the 32-bit index arithmetic (`8 s + 7 < 2 ^ 32`):
word 0 becomes `s + 1`, words `8 s + 1 .. 8 s + 7` become `tid, meta, h[0..4]`,
every other word is unchanged; for a digest that does not pass the matcher the
whole buffer is unchanged. -/
theorem CheckPoint_frame (t : Thread) (h : Digest) (incr endo mode : Int) (bloomLookUp : Mem)
    (BLOOM_BITS BLOOM_HASHES maxFound : Nat) (hash160 : Digest) (out : Mem)
    (hlt : out 0 < maxFound) (hidx : 8 * out 0 + 7 < 2 ^ 32) :
    (BloomCheck h bloomLookUp BLOOM_BITS BLOOM_HASHES > 0 →
      RecordWritten out
        (CheckPoint t h incr endo mode bloomLookUp BLOOM_BITS BLOOM_HASHES maxFound out)
        (out 0) t.tid (metaWord incr endo mode) h) ∧
    (MatchHash160 h hash160 = true →
      RecordWritten out (CheckPoint2 t h incr endo mode hash160 maxFound out)
        (out 0) t.tid (metaWord incr endo mode) h) ∧
    (¬ BloomCheck h bloomLookUp BLOOM_BITS BLOOM_HASHES > 0 →
      CheckPoint t h incr endo mode bloomLookUp BLOOM_BITS BLOOM_HASHES maxFound out = out) ∧
    (MatchHash160 h hash160 = false →
      CheckPoint2 t h incr endo mode hash160 maxFound out = out) := by
  refine ⟨?_, ?_, ?_, ?_⟩
  · intro hb
    unfold CheckPoint
    rw [if_pos hb]
    exact report_recordWritten t h incr endo mode maxFound out hlt hidx
  · intro hm
    unfold CheckPoint2
    rw [if_pos hm]
    exact report_recordWritten t h incr endo mode maxFound out hlt hidx
  · intro hb
    unfold CheckPoint
    rw [if_neg hb]
  · intro hm
    unfold CheckPoint2
    simp [hm]

/-- Witness of C5: an exact match reported in an empty buffer of capacity 2. -/
theorem CheckPoint_frame_witness :
    MatchHash160 exDigest exDigest = true ∧
    RecordWritten (counterOnly 0) (CheckPoint2 exThread exDigest 3 1 1 exDigest 2 (counterOnly 0))
      0 7 (metaWord 3 1 1) exDigest :=
  ⟨by decide,
   (CheckPoint_frame exThread exDigest 3 1 1 fullFilter 1000 3 2 exDigest (counterOnly 0)
      (by decide) (by decide)).2.1 (by decide)⟩

/-- C5 as stated fails where the `uint32_t` index `pos * ITEM_SIZE32 + 1` wraps:
with the counter at `s = 2 ^ 29 < maxFound`, a matching report stores `tid` in
word 1 (a word of slot 0) and leaves word `8 s + 1` untouched. -/
theorem CheckPoint_frame_counterexample :
    MatchHash160 exDigest exDigest = true ∧
    counterOnly (2 ^ 29) 0 < 2 ^ 29 + 1 ∧
    (CheckPoint2 exThread exDigest 3 1 1 exDigest (2 ^ 29 + 1) (counterOnly (2 ^ 29))) 1 = 7 ∧
    counterOnly (2 ^ 29) 1 = 0 ∧
    (CheckPoint2 exThread exDigest 3 1 1 exDigest (2 ^ 29 + 1) (counterOnly (2 ^ 29)))
      (8 * 2 ^ 29 + 1) = 0 ∧
    exThread.tid = 7 ∧
    ¬ RecordWritten (counterOnly (2 ^ 29))
      (CheckPoint2 exThread exDigest 3 1 1 exDigest (2 ^ 29 + 1) (counterOnly (2 ^ 29)))
      (2 ^ 29) exThread.tid (metaWord 3 1 1) exDigest := by
  refine ⟨by decide, by decide, by decide, by decide, by decide, by decide, ?_⟩
  intro hR
  have h1 := hR.2.1
  revert h1
  decide

/-! ## Output sink: a run of reports -/

theorem Report.apply_of_passes (maxFound : Nat) (out : Mem) (r : Report) (hp : r.passes = true) :
    r.apply maxFound out = report r.t r.h r.incr r.endo r.mode maxFound out := by
  unfold Report.apply
  unfold Report.passes at hp
  cases hm : r.matcher with
  | bloom f B k =>
    rw [hm] at hp
    simp only [decide_eq_true_eq] at hp
    simp only [CheckPoint, if_pos hp]
  | exact tgt =>
    rw [hm] at hp
    simp only at hp
    simp only [CheckPoint2, hp, if_true]

theorem runReports_append (maxFound : Nat) (out : Mem) (rs : List Report) (r : Report) :
    runReports maxFound out (rs ++ [r]) = r.apply maxFound (runReports maxFound out rs) := by
  simp [runReports, List.foldl_append]

/-- Invariant of a run of matching reports from a reset counter, as long as the
slot indices fit the 32-bit index arithmetic. -/
theorem runReports_invariant (maxFound : Nat) (out : Mem) (h0 : out 0 = 0) (rs : List Report) :
    (∀ r ∈ rs, r.passes = true) → rs.length < 2 ^ 32 →
    8 * min rs.length maxFound ≤ 2 ^ 32 →
    (runReports maxFound out rs) 0 = rs.length ∧
    (∀ s r, rs[s]? = some r → s < maxFound → SlotHolds (runReports maxFound out rs) s r) ∧
    (∀ k, k ≠ 0 → (k % 8 = 0 ∨ 8 * min rs.length maxFound < k) →
      (runReports maxFound out rs) k = out k) := by
  induction rs using List.reverseRecOn with
  | nil =>
    intro _ _ _
    refine ⟨by simpa [runReports] using h0, ?_, ?_⟩
    · intro s r hs
      simp at hs
    · intro k _ _
      simp [runReports]
  | append_singleton l a ih =>
    intro hpass hlen hidx
    have hlen' : l.length + 1 < 2 ^ 32 := by simpa using hlen
    have hmin : 8 * min l.length maxFound ≤ 2 ^ 32 := by
      have : min l.length maxFound ≤ min (l ++ [a]).length maxFound := by
        simp only [List.length_append, List.length_singleton]
        omega
      omega
    obtain ⟨ic, isl, ifr⟩ := ih (fun r hr => hpass r (by simp [hr])) (by omega) hmin
    have ha : a.passes = true := hpass a (by simp)
    rw [runReports_append, Report.apply_of_passes _ _ _ ha]
    set st := runReports maxFound out l with hst
    by_cases hlt : l.length < maxFound
    · have hlt' : st 0 < maxFound := by rw [ic]; exact hlt
      have hmin2 : min (l ++ [a]).length maxFound = l.length + 1 := by
        simp only [List.length_append, List.length_singleton]
        omega
      have hmin1 : min l.length maxFound = l.length := by omega
      rw [hmin2] at hidx
      have hix : 8 * st 0 + 7 < 2 ^ 32 := by rw [ic]; omega
      obtain ⟨r0, r1, r2, r3, r4, r5, r6, r7, rf⟩ :=
        report_recordWritten a.t a.h a.incr a.endo a.mode maxFound st hlt' hix
      rw [ic] at r0 r1 r2 r3 r4 r5 r6 r7 rf
      refine ⟨by simpa using r0, ?_, ?_⟩
      · intro s r hs hsm
        rcases Nat.lt_or_ge s l.length with hsl | hsl
        · rw [List.getElem?_append_left hsl] at hs
          obtain ⟨q1, q2, q3, q4, q5, q6, q7⟩ := isl s r hs hsm
          unfold SlotHolds
          rw [rf _ (by omega) (by omega), rf _ (by omega) (by omega), rf _ (by omega) (by omega),
            rf _ (by omega) (by omega), rf _ (by omega) (by omega), rf _ (by omega) (by omega),
            rf _ (by omega) (by omega)]
          exact ⟨q1, q2, q3, q4, q5, q6, q7⟩
        · have hsl' : s = l.length := by
            have := (List.getElem?_eq_some_iff.1 hs).1
            simp only [List.length_append, List.length_singleton] at this
            omega
          subst hsl'
          have : a = r := by simpa using hs
          subst this
          exact ⟨r1, r2, r3, r4, r5, r6, r7⟩
      · intro k hk0 hk
        rw [hmin2] at hk
        rw [rf k hk0 (by omega)]
        exact ifr k hk0 (by rw [hmin1]; omega)
    · have hge : ¬ st 0 < maxFound := by rw [ic]; exact hlt
      rw [report_full _ _ _ _ _ _ _ hge, ic]
      have hmin2 : min (l ++ [a]).length maxFound = maxFound := by
        simp only [List.length_append, List.length_singleton]
        omega
      have hmin1 : min l.length maxFound = maxFound := by omega
      refine ⟨?_, ?_, ?_⟩
      · simp only [Mem.write, if_true, List.length_append, List.length_singleton]
        exact Nat.mod_eq_of_lt hlen'
      · intro s r hs hsm
        have hsl : s < l.length := by omega
        rw [List.getElem?_append_left hsl] at hs
        have := isl s r hs hsm
        unfold SlotHolds at this ⊢
        simpa [Mem.write] using this
      · intro k hk0 hk
        rw [hmin2] at hk
        simp only [Mem.write, if_neg hk0]
        exact ifr k hk0 (by rw [hmin1]; exact hk)

/-- C6 (amended). From a reset counter, after `n < 2 ^ 32` matching reports
applied one after another (`CheckPoint` or `CheckPoint2`), with the populated
slots inside the 32-bit index range (`8 * min n maxFound ≤ 2 ^ 32`): word 0 is
`n`; for every `s < min n maxFound` slot `s` holds the `s`-th match; no other
word (padding words, slots from `min n maxFound` on) has changed; and each
report made while word 0 is `≥ maxFound` changes word 0 only, adding one. -/
theorem runReports_overflow (maxFound : Nat) (out : Mem) (rs : List Report) (h0 : out 0 = 0)
    (hpass : ∀ r ∈ rs, r.passes = true) (hlen : rs.length < 2 ^ 32)
    (hidx : 8 * min rs.length maxFound ≤ 2 ^ 32) :
    (runReports maxFound out rs) 0 = rs.length ∧
    (∀ s r, rs[s]? = some r → s < maxFound → SlotHolds (runReports maxFound out rs) s r) ∧
    (∀ k, k ≠ 0 → (k % 8 = 0 ∨ 8 * min rs.length maxFound < k) →
      (runReports maxFound out rs) k = out k) ∧
    (∀ j r, rs[j]? = some r → maxFound ≤ j →
      (runReports maxFound out (rs.take j)) 0 = j ∧
      runReports maxFound out (rs.take (j + 1)) =
        (runReports maxFound out (rs.take j)).write 0 (j + 1)) := by
  obtain ⟨h1, h2, h3⟩ := runReports_invariant maxFound out h0 rs hpass hlen hidx
  refine ⟨h1, h2, h3, ?_⟩
  intro j r hj hmj
  have hjl : j < rs.length := (List.getElem?_eq_some_iff.1 hj).1
  have hlt : (rs.take j).length = j := by
    rw [List.length_take]
    omega
  obtain ⟨c1, -, -⟩ := runReports_invariant maxFound out h0 (rs.take j)
    (fun r hr => hpass r (List.mem_of_mem_take hr)) (by omega) (by rw [hlt]; omega)
  rw [hlt] at c1
  refine ⟨c1, ?_⟩
  have hr : r.passes = true := by
    obtain ⟨hjl', hjr⟩ := List.getElem?_eq_some_iff.1 hj
    exact hpass r (hjr ▸ List.getElem_mem hjl')
  rw [List.take_succ, hj, Option.toList_some, runReports_append,
    Report.apply_of_passes _ _ _ hr, report_full _ _ _ _ _ _ _ (by rw [c1]; omega), c1,
    Nat.mod_eq_of_lt (by omega)]

/-- Witness of C6: `maxFound = 2` and 5 matches give counter 5, two populated
slots and an untouched third slot. -/
theorem runReports_overflow_witness :
    (runReports 2 (counterOnly 0) fiveReports) 0 = 5 ∧
    SlotHolds (runReports 2 (counterOnly 0) fiveReports) 0 (exReport exThread 0) ∧
    SlotHolds (runReports 2 (counterOnly 0) fiveReports) 1 (exReport exThread 1) ∧
    (runReports 2 (counterOnly 0) fiveReports) 17 = 0 :=
  have H := runReports_overflow 2 (counterOnly 0) fiveReports (by decide) (by decide)
    (by decide) (by decide)
  ⟨H.1, H.2.1 0 _ rfl (by decide), H.2.1 1 _ rfl (by decide),
    H.2.2.1 17 (by decide) (by decide)⟩

/-- C6 as stated fails for `maxFound > 2 ^ 29`: after `2 ^ 29 + 1 < 2 ^ 32`
matching reports with `maxFound = 2 ^ 29 + 1`, the last report has stored its
thread id in word 1, so slot 0 no longer holds match 0. -/
theorem runReports_overflow_counterexample :
    (∀ r ∈ wrapReports, r.passes = true) ∧ wrapReports.length < 2 ^ 32 ∧
    wrapReports[0]? = some (exReport exThread 0) ∧ 0 < wrapCount + 1 ∧
    (runReports (wrapCount + 1) (counterOnly 0) wrapReports) 1 = 9 ∧
    ¬ SlotHolds (runReports (wrapCount + 1) (counterOnly 0) wrapReports) 0
        (exReport exThread 0) := by
  have hp : ∀ r ∈ List.replicate wrapCount (exReport exThread 0), r.passes = true := by
    intro r hr
    rw [List.eq_of_mem_replicate hr]
    decide
  have hlen : (List.replicate wrapCount (exReport exThread 0)).length = 2 ^ 29 := by
    rw [List.length_replicate]; rfl
  have h1 : (runReports (wrapCount + 1) (counterOnly 0) wrapReports) 1 = 9 := by
    obtain ⟨c, -, -⟩ := runReports_invariant (wrapCount + 1) (counterOnly 0) rfl
      (List.replicate wrapCount (exReport exThread 0)) hp (by rw [hlen]; norm_num)
      (by rw [hlen]; norm_num [wrapCount])
    rw [hlen] at c
    unfold wrapReports
    rw [runReports_append, Report.apply_of_passes _ _ _ (by decide)]
    generalize runReports (wrapCount + 1) (counterOnly 0)
      (List.replicate wrapCount (exReport exThread 0)) = st at c
    unfold report
    rw [c]
    simp [Mem.write, ITEM_SIZE32, wrapCount, exReport, Thread.tid]
  refine ⟨?_, ?_, ?_, by omega, h1, ?_⟩
  · intro r hr
    unfold wrapReports at hr
    rcases List.mem_append.1 hr with hr | hr
    · exact hp r hr
    · rw [List.mem_singleton.1 hr]
      decide
  · unfold wrapReports
    rw [List.length_append, hlen]
    norm_num
  · unfold wrapReports
    rw [List.getElem?_append_left (by rw [hlen]; norm_num)]
    rw [List.getElem?_replicate]
    simp [wrapCount]
  · intro hs
    have := hs.1
    rw [h1] at this
    revert this
    decide

/-! ## Exact matcher and meta word -/

theorem MatchHash160_eq_true_iff (h t : Digest) :
    MatchHash160 h t = true ↔
      h.h0 = t.h0 ∧ h.h1 = t.h1 ∧ h.h2 = t.h2 ∧ h.h3 = t.h3 ∧ h.h4 = t.h4 := by
  unfold MatchHash160
  by_cases hc : h.h0 = t.h0 ∧ h.h1 = t.h1 ∧ h.h2 = t.h2 ∧ h.h3 = t.h3 ∧ h.h4 = t.h4
  · simp [hc]
  · simp only [if_neg hc, hc]
    simp

theorem report_counter (t : Thread) (h : Digest) (incr endo mode : Int) (maxFound : Nat)
    (out : Mem) : (report t h incr endo mode maxFound out) 0 = (out 0 + 1) % 2 ^ 32 := by
  unfold report
  by_cases hlt : out 0 < maxFound
  · have e1 : (0 : Nat) ≠ (out 0 * 8 + 1) % 2 ^ 32 := by omega
    have e2 : (0 : Nat) ≠ (out 0 * 8 + 2) % 2 ^ 32 := by omega
    have e3 : (0 : Nat) ≠ (out 0 * 8 + 3) % 2 ^ 32 := by omega
    have e4 : (0 : Nat) ≠ (out 0 * 8 + 4) % 2 ^ 32 := by omega
    have e5 : (0 : Nat) ≠ (out 0 * 8 + 5) % 2 ^ 32 := by omega
    have e6 : (0 : Nat) ≠ (out 0 * 8 + 6) % 2 ^ 32 := by omega
    have e7 : (0 : Nat) ≠ (out 0 * 8 + 7) % 2 ^ 32 := by omega
    simp only [if_pos hlt, Mem.write, ITEM_SIZE32, if_neg e1, if_neg e2, if_neg e3, if_neg e4,
      if_neg e5, if_neg e6, if_neg e7, if_true]
  · simp only [if_neg hlt, Mem.write, if_true]

/-- C7. In exact mode `MatchHash160` returns true exactly when the five words of
the digest equal the five words of the target, and `CheckPoint2` increments
word 0 (as a `uint32_t`) exactly in that case: otherwise it leaves the whole
buffer, word 0 included, as it was. -/
theorem CheckPoint2_reserves_iff (t : Thread) (h hash160 : Digest) (incr endo mode : Int)
    (maxFound : Nat) (out : Mem) :
    (MatchHash160 h hash160 = true ↔
      h.h0 = hash160.h0 ∧ h.h1 = hash160.h1 ∧ h.h2 = hash160.h2 ∧ h.h3 = hash160.h3 ∧
        h.h4 = hash160.h4) ∧
    (MatchHash160 h hash160 = true ↔ h = hash160) ∧
    (MatchHash160 h hash160 = true →
      (CheckPoint2 t h incr endo mode hash160 maxFound out) 0 = (out 0 + 1) % 2 ^ 32) ∧
    (MatchHash160 h hash160 = false →
      CheckPoint2 t h incr endo mode hash160 maxFound out = out) ∧
    ((CheckPoint2 t h incr endo mode hash160 maxFound out) 0 ≠ out 0 ↔
      MatchHash160 h hash160 = true) := by
  have hinc : MatchHash160 h hash160 = true →
      (CheckPoint2 t h incr endo mode hash160 maxFound out) 0 = (out 0 + 1) % 2 ^ 32 := by
    intro hm
    simp only [CheckPoint2, hm, if_true]
    exact report_counter t h incr endo mode maxFound out
  have hno : MatchHash160 h hash160 = false →
      CheckPoint2 t h incr endo mode hash160 maxFound out = out := by
    intro hm
    simp [CheckPoint2, hm]
  refine ⟨MatchHash160_eq_true_iff h hash160, ?_, hinc, hno, ?_⟩
  · rw [MatchHash160_eq_true_iff]
    constructor
    · rintro ⟨a0, a1, a2, a3, a4⟩
      cases h
      cases hash160
      simp only at a0 a1 a2 a3 a4
      simp [a0, a1, a2, a3, a4]
    · rintro rfl
      exact ⟨rfl, rfl, rfl, rfl, rfl⟩
  · constructor
    · intro hne
      by_contra hm
      rw [Bool.not_eq_true] at hm
      rw [hno hm] at hne
      exact hne rfl
    · intro hm
      rw [hinc hm]
      omega

theorem metaWord_eq_sum (incr endo mode : Int) (hi : -2 ^ 15 ≤ incr ∧ incr < 2 ^ 15)
    (hm : mode = 0 ∨ mode = 1) (he : 0 ≤ endo ∧ endo < 2 ^ 15) :
    metaWord incr endo mode =
      2 ^ 16 * (incr % 2 ^ 16).toNat + 2 ^ 15 * mode.toNat + endo.toNat := by
  have hA : ofInt32 (incr * 2 ^ 16) = 2 ^ 16 * (incr % 2 ^ 16).toNat := by
    unfold ofInt32
    omega
  have hM : ofInt32 (mode * 2 ^ 15) = 2 ^ 15 * mode.toNat := by
    unfold ofInt32
    omega
  have hE : ofInt32 endo = endo.toNat := by
    unfold ofInt32
    omega
  have hM' : 2 ^ 15 * mode.toNat < 2 ^ 16 := by omega
  have hE' : endo.toNat < 2 ^ 15 := by omega
  unfold metaWord
  rw [hA, hM, hE, ← Nat.mul_add_lt_is_or hM']
  have e : 2 ^ 16 * (incr % 2 ^ 16).toNat + 2 ^ 15 * mode.toNat =
      2 ^ 15 * (2 * (incr % 2 ^ 16).toNat + mode.toNat) := by ring
  rw [e, ← Nat.mul_add_lt_is_or hE']

theorem metaWord_decode (incr endo mode : Int) (hi : -2 ^ 15 ≤ incr ∧ incr < 2 ^ 15)
    (hm : mode = 0 ∨ mode = 1) (he : 0 ≤ endo ∧ endo < 2 ^ 15) :
    metaWord incr endo mode < 2 ^ 32 ∧
    metaIncr (metaWord incr endo mode) = incr ∧
    (metaMode (metaWord incr endo mode) : Int) = mode ∧
    (metaEndo (metaWord incr endo mode) : Int) = endo := by
  have hs := metaWord_eq_sum incr endo mode hi hm he
  have h1 : (metaMode (metaWord incr endo mode)) = (metaWord incr endo mode / 2 ^ 15) % 2 := by
    unfold metaMode
    rw [Nat.shiftRight_eq_div_pow, Nat.and_one_is_mod]
  have h2 : (metaEndo (metaWord incr endo mode)) = metaWord incr endo mode % 2 ^ 15 := by
    unfold metaEndo
    exact Nat.and_pow_two_sub_one_eq_mod _ 15
  refine ⟨by omega, ?_, ?_, ?_⟩
  · unfold metaIncr
    rw [Nat.shiftRight_eq_div_pow]
    split_ifs <;> omega
  · rw [h1]
    omega
  · rw [h2]
    omega

theorem report_meta (t : Thread) (h : Digest) (incr endo mode : Int) (maxFound : Nat)
    (out : Mem) (hlt : out 0 < maxFound) :
    (report t h incr endo mode maxFound out) ((out 0 * ITEM_SIZE32 + 2) % 2 ^ 32) =
      metaWord incr endo mode := by
  unfold report
  have e3 : (out 0 * 8 + 2) % 2 ^ 32 ≠ (out 0 * 8 + 3) % 2 ^ 32 := by omega
  have e4 : (out 0 * 8 + 2) % 2 ^ 32 ≠ (out 0 * 8 + 4) % 2 ^ 32 := by omega
  have e5 : (out 0 * 8 + 2) % 2 ^ 32 ≠ (out 0 * 8 + 5) % 2 ^ 32 := by omega
  have e6 : (out 0 * 8 + 2) % 2 ^ 32 ≠ (out 0 * 8 + 6) % 2 ^ 32 := by omega
  have e7 : (out 0 * 8 + 2) % 2 ^ 32 ≠ (out 0 * 8 + 7) % 2 ^ 32 := by omega
  simp only [if_pos hlt, Mem.write, ITEM_SIZE32, if_neg e3, if_neg e4, if_neg e5, if_neg e6,
    if_neg e7, if_true]

/-- C8. The meta word that `CheckPoint` and `CheckPoint2` store in the second word
of a record is `(incr << 16) | (mode << 15) | endo`, a 32-bit word, and it
round-trips: for `incr` in `[-2^15, 2^15)`, `mode` in `{0, 1}` and `endo` in
`[0, 2^15)`, bits 31..16 read as a signed 16-bit value, bit 15 and bits 14..0
give back `incr`, `mode`, `endo`, for negative `incr` as well. -/
theorem metaWord_roundtrip (t : Thread) (h hash160 : Digest) (incr endo mode : Int)
    (bloomLookUp : Mem) (BLOOM_BITS BLOOM_HASHES maxFound : Nat) (out : Mem)
    (hlt : out 0 < maxFound) (hi : -2 ^ 15 ≤ incr ∧ incr < 2 ^ 15)
    (hm : mode = 0 ∨ mode = 1) (he : 0 ≤ endo ∧ endo < 2 ^ 15) :
    (BloomCheck h bloomLookUp BLOOM_BITS BLOOM_HASHES > 0 →
      (CheckPoint t h incr endo mode bloomLookUp BLOOM_BITS BLOOM_HASHES maxFound out)
        ((out 0 * ITEM_SIZE32 + 2) % 2 ^ 32) = metaWord incr endo mode) ∧
    (MatchHash160 h hash160 = true →
      (CheckPoint2 t h incr endo mode hash160 maxFound out)
        ((out 0 * ITEM_SIZE32 + 2) % 2 ^ 32) = metaWord incr endo mode) ∧
    metaWord incr endo mode < 2 ^ 32 ∧
    metaIncr (metaWord incr endo mode) = incr ∧
    (metaMode (metaWord incr endo mode) : Int) = mode ∧
    (metaEndo (metaWord incr endo mode) : Int) = endo := by
  refine ⟨?_, ?_, metaWord_decode incr endo mode hi hm he⟩
  · intro hb
    simp only [CheckPoint, if_pos hb]
    exact report_meta t h incr endo mode maxFound out hlt
  · intro hb
    simp only [CheckPoint2, hb, if_true]
    exact report_meta t h incr endo mode maxFound out hlt

/-- Witness of C8: a negative increment with the compressed flag and index 2,
stored by `CheckPoint2` in the second word of slot 0 and decoded. -/
theorem metaWord_roundtrip_witness :
    (CheckPoint2 exThread exDigest (-5) 2 1 exDigest 2 (counterOnly 0)) 2 = metaWord (-5) 2 1 ∧
    metaWord (-5) 2 1 < 2 ^ 32 ∧ metaIncr (metaWord (-5) 2 1) = -5 ∧
    (metaMode (metaWord (-5) 2 1) : Int) = 1 ∧ (metaEndo (metaWord (-5) 2 1) : Int) = 2 :=
  have H := metaWord_roundtrip exThread exDigest exDigest (-5) 2 1 fullFilter 1000 3 2
    (counterOnly 0) (by decide) (by decide) (by decide) (by decide)
  ⟨H.2.1 (by decide), H.2.2⟩

/-! ## Claims on the walk -/

theorem toInt32_of_lt {w : Nat} (h : w < 2 ^ 31) : toInt32 w = (w : Int) := by
  unfold toInt32
  have h1 : w % 2 ^ 32 = w := Nat.mod_eq_of_lt (by omega)
  rw [h1, if_pos h]

theorem fillDx_cast_ne_zero (E : Env) [Fact E.p.Prime] (sx : Nat) (hG2 : 2 ≤ E.GRP_SIZE)
    (hdx : ∀ k, k < E.GRP_SIZE / 2 + 1 → fillDx E sx k ≠ 0) :
    ∀ k, k < E.GRP_SIZE / 2 + 1 → (fillDx E sx k : ZMod E.p) ≠ 0 := by
  intro k hk e
  have hH : E.HSIZE + 1 = E.GRP_SIZE / 2 := by
    unfold Env.HSIZE
    omega
  have hlt : fillDx E sx k < E.p := by
    rcases Nat.lt_or_ge k (E.GRP_SIZE / 2) with h | h
    · rw [fillDx_table E sx k (by omega)]
      exact ModSub256_lt prime_pos _ _
    · have hk1 : k = E.HSIZE + 1 := by omega
      rw [hk1, fillDx_next]
      exact ModSub256_lt prime_pos _ _
  rw [ZMod.natCast_zmod_eq_zero_iff_dvd] at e
  exact hdx k hk (Nat.eq_zero_of_dvd_of_lt e hlt)

/-- The points of a group entered at its centre `(sx, sy)`, call by call. -/
theorem group_points (E : Env) [Fact E.p.Prime] (sx sy j : Nat) (P G : (curve E.p).Point)
    (hG2 : 2 ≤ E.GRP_SIZE) (hP : IsPt E.p sx sy P)
    (hT : ∀ i, i < E.GRP_SIZE / 2 → IsPt E.p (E.Gx i) (E.Gy i) ((i + 1) • G))
    (hinv : ∀ i, i < E.GRP_SIZE / 2 → (groupDx E sx i * fillDx E sx i) % E.p = 1) :
    (∀ i, i < E.HSIZE →
      IsPt E.p (posCall E sx sy j i).px (posCall E sx sy j i).py (P + (i + 1) • G) ∧
      IsPt E.p (negCall E sx (ModNeg256 E.p sy) j i).px (negCall E sx (ModNeg256 E.p sy) j i).py
        (P - (i + 1) • G)) ∧
    IsPt E.p (firstCall E sx sy j).px (firstCall E sx sy j).py (P - (E.GRP_SIZE / 2) • G) := by
  have hH : E.HSIZE + 1 = E.GRP_SIZE / 2 := by
    unfold Env.HSIZE
    omega
  constructor
  · intro i hi
    have hi' : i < E.GRP_SIZE / 2 := by omega
    have hc := groupDx_cast_of_exact E sx i (hinv i hi')
    exact ⟨posCall_isPt E j hP (hT i hi') (by omega) hc,
      negCall_isPt E j hP (hT i hi') (by omega) hc⟩
  · have hi' : E.HSIZE < E.GRP_SIZE / 2 := by omega
    have hc := groupDx_cast_of_exact E sx E.HSIZE (hinv _ hi')
    have := firstCall_isPt E j hP (hT _ hi') hc
    rwa [hH] at this

theorem ComputeKeys_calls_first_group (E : Env) (sx sy idx : Nat)
    (hm : 1 ≤ E.STEP_SIZE / E.GRP_SIZE) (hidx : idx < 2 * E.HSIZE + 2) :
    (ComputeKeys_calls E sx sy)[idx]? = (ComputeKeys_groupCalls E sx sy 0 sx sy)[idx]? := by
  rw [ComputeKeys_calls_eq]
  obtain ⟨n, hn⟩ : ∃ n, E.STEP_SIZE / E.GRP_SIZE = n + 1 := ⟨E.STEP_SIZE / E.GRP_SIZE - 1, by omega⟩
  rw [hn, List.range_succ_eq_map, List.flatMap_cons]
  rw [List.getElem?_append_left (by
    simp only [entryPoint, if_true]
    rw [ComputeKeys_groupCalls_length]
    exact hidx)]
  simp [entryPoint]

/-- C1. For an on-curve start point `P = (sx, sy)` with `sx` different from the x
coordinates of the table, the table holding `(Gx[i], Gy[i]) = (i+1) G` and `dx`
holding the exact modular inverses after `_ModInvGrouped`, the first group of
`ComputeKeys` hands to `CheckHash`, in loop step `i < HSIZE`, the group-law sums
`P + (i+1) G` (call `2 i + 1`) and `P - (i+1) G` (call `2 i + 2`), and after the
loop `P - (GRP_SIZE/2) G` (call `2 HSIZE + 1`). -/
theorem ComputeKeys_first_group_points (E : Env) [Fact E.p.Prime] (sx sy : Nat)
    (P G : (curve E.p).Point) (hG2 : 2 ≤ E.GRP_SIZE) (hm : 1 ≤ E.STEP_SIZE / E.GRP_SIZE)
    (hP : IsPt E.p sx sy P)
    (hT : ∀ i, i < E.GRP_SIZE / 2 → IsPt E.p (E.Gx i) (E.Gy i) ((i + 1) • G))
    (_hne : ∀ i, i < E.GRP_SIZE / 2 → sx ≠ E.Gx i)
    (hinv : ∀ i, i < E.GRP_SIZE / 2 → (groupDx E sx i * fillDx E sx i) % E.p = 1) :
    (∀ i, i < E.HSIZE → ∃ c d,
      (ComputeKeys_calls E sx sy)[2 * i + 1]? = some c ∧ IsPt E.p c.px c.py (P + (i + 1) • G) ∧
      (ComputeKeys_calls E sx sy)[2 * i + 2]? = some d ∧ IsPt E.p d.px d.py (P - (i + 1) • G)) ∧
    (∃ c, (ComputeKeys_calls E sx sy)[2 * E.HSIZE + 1]? = some c ∧
      IsPt E.p c.px c.py (P - (E.GRP_SIZE / 2) • G)) := by
  obtain ⟨hloop, hfirst⟩ := group_points E sx sy 0 P G hG2 hP hT hinv
  obtain ⟨-, gl, gf⟩ := ComputeKeys_groupCalls_getElem? E sx sy 0 sx sy
  constructor
  · intro i hi
    refine ⟨_, _, ?_, (hloop i hi).1, ?_, (hloop i hi).2⟩
    · rw [ComputeKeys_calls_first_group E sx sy _ hm (by omega)]
      exact (gl i hi).1
    · rw [ComputeKeys_calls_first_group E sx sy _ hm (by omega)]
      exact (gl i hi).2
  · refine ⟨_, ?_, hfirst⟩
    rw [ComputeKeys_calls_first_group E sx sy _ hm (by omega)]
    exact gf

/-- Witness of C1, on the curve over 67 elements: from `P = 10 G = (56, 4)` the
first group checks `P + G` and `P - G` in step 0, then `P - 2 G`. -/
theorem ComputeKeys_first_group_points_witness :
    ∃ P G : (curve (exEnv 4).p).Point, IsPt (exEnv 4).p 56 4 P ∧ IsPt (exEnv 4).p 2 22 G ∧
      (∀ i, i < (exEnv 4).HSIZE → ∃ c d,
        (ComputeKeys_calls (exEnv 4) 56 4)[2 * i + 1]? = some c ∧
        IsPt (exEnv 4).p c.px c.py (P + (i + 1) • G) ∧
        (ComputeKeys_calls (exEnv 4) 56 4)[2 * i + 2]? = some d ∧
        IsPt (exEnv 4).p d.px d.py (P - (i + 1) • G)) ∧
      (∃ c, (ComputeKeys_calls (exEnv 4) 56 4)[2 * (exEnv 4).HSIZE + 1]? = some c ∧
        IsPt (exEnv 4).p c.px c.py (P - ((exEnv 4).GRP_SIZE / 2) • G)) := by
  obtain ⟨P, G, hP, hG, hT, -⟩ := exSetup 4
  exact ⟨P, G, hP, hG, ComputeKeys_first_group_points (exEnv 4) 56 4 P G (by decide) (by decide)
    hP hT (by decide) (by decide)⟩

theorem groupDx_next_exact (E : Env) [Fact E.p.Prime] (sx : Nat) (hG2 : 2 ≤ E.GRP_SIZE)
    (hdx : ∀ k, k < E.GRP_SIZE / 2 + 1 → fillDx E sx k ≠ 0) :
    (groupDx E sx (E.HSIZE + 1) : ZMod E.p) * ((E._2Gnx : ZMod E.p) - sx) = 1 := by
  have hH : E.HSIZE + 1 = E.GRP_SIZE / 2 := by
    unfold Env.HSIZE
    omega
  have h := groupDx_exact E sx hG2 (fillDx_cast_ne_zero E sx hG2 hdx) (E.HSIZE + 1) (by omega)
  rwa [fillDx_next, cast_ModSub256 prime_pos] at h

/-- C3 (amended). For one group with centre `P = (sx, sy)` on the curve, every
delta-x of the group non-zero (the entries of `dx` before the inversion, that of
the next centre included) and `(_2Gnx, _2Gny) = GRP_SIZE * G`, the `(px, py)` left
at the end of the group is the group-law sum `P + GRP_SIZE * G`, computed as
`s = (_2Gny - sy) * (_2Gnx - sx)^-1`, `px = s^2 - sx - _2Gnx`,
`py = s * (_2Gnx - px) - _2Gny` in the field. -/
theorem ComputeKeys_group_next_centre {σ : Type} (E : Env) [Fact E.p.Prime]
    (check : Nat → Nat → Nat → σ → σ) (sx sy j : Nat) (r : WalkRegs σ)
    (P G : (curve E.p).Point) (hG2 : 2 ≤ E.GRP_SIZE) (hP : IsPt E.p sx sy P)
    (hN : IsPt E.p E._2Gnx E._2Gny (E.GRP_SIZE • G))
    (hdx : ∀ k, k < E.GRP_SIZE / 2 + 1 → fillDx E sx k ≠ 0) :
    IsPt E.p (ComputeKeys_group E check sx sy j r).px (ComputeKeys_group E check sx sy j r).py
      (P + E.GRP_SIZE • G) ∧
    ((ComputeKeys_group E check sx sy j r).px : ZMod E.p) =
      (((E._2Gny : ZMod E.p) - sy) * ((E._2Gnx : ZMod E.p) - sx)⁻¹) ^ 2 - sx - E._2Gnx ∧
    ((ComputeKeys_group E check sx sy j r).py : ZMod E.p) =
      (((E._2Gny : ZMod E.p) - sy) * ((E._2Gnx : ZMod E.p) - sx)⁻¹) *
        ((E._2Gnx : ZMod E.p) - ((ComputeKeys_group E check sx sy j r).px : ZMod E.p)) -
        E._2Gny := by
  obtain ⟨hx, hy⟩ := ComputeKeys_group_point E check sx sy j r
  have hinv := groupDx_next_exact E sx hG2 hdx
  have hI : (groupDx E sx (E.HSIZE + 1) : ZMod E.p) = ((E._2Gnx : ZMod E.p) - sx)⁻¹ :=
    eq_inv_of_mul_eq_one_left hinv
  rw [hx, hy]
  refine ⟨posPoint_isPt _ hP hN hinv, ?_, ?_⟩
  · simp only [nextCentre, posPoint, cast_ModSub256 prime_pos, cast_ModSqr, cast_ModMult, hI]
  · simp only [nextCentre, posPoint, cast_ModSub256 prime_pos, cast_ModSqr, cast_ModMult, hI]
    ring

/-- Witness of C3 (amended): from `P = 10 G` the group leaves `14 G`. -/
theorem ComputeKeys_group_next_centre_witness :
    ∃ P G : (curve (exEnv 4).p).Point, IsPt (exEnv 4).p 56 4 P ∧ IsPt (exEnv 4).p 2 22 G ∧
      IsPt (exEnv 4).p (ComputeKeys_group (exEnv 4) logCall 56 4 0 ⟨56, 4, []⟩).px
        (ComputeKeys_group (exEnv 4) logCall 56 4 0 ⟨56, 4, []⟩).py
        (P + (exEnv 4).GRP_SIZE • G) := by
  obtain ⟨P, G, hP, hG, -, hN⟩ := exSetup 4
  exact ⟨P, G, hP, hG, (ComputeKeys_group_next_centre (exEnv 4) logCall 56 4 0 ⟨56, 4, []⟩ P G
    (by decide) hP hN (by decide)).1⟩

/-- C3 as stated fails when another delta-x of the group is zero: from the
centre `P = G = (2, 22)` (so `dx[0] = 0`), with `sx ≠ _2Gnx` and
`(_2Gnx, _2Gny) = 4 G`, the group leaves `(40, 50)`, which is not `P + 4 G = (46, 40)`. -/
theorem ComputeKeys_group_next_centre_counterexample :
    ∃ P G : (curve (exEnv 4).p).Point, IsPt (exEnv 4).p 2 22 P ∧
      IsPt (exEnv 4).p (exEnv 4)._2Gnx (exEnv 4)._2Gny ((exEnv 4).GRP_SIZE • G) ∧
      2 ≠ (exEnv 4)._2Gnx ∧
      IsPt (exEnv 4).p 46 40 (P + (exEnv 4).GRP_SIZE • G) ∧
      (ComputeKeys_group (exEnv 4) logCall 2 22 0 ⟨2, 22, []⟩).px = 40 ∧
      (ComputeKeys_group (exEnv 4) logCall 2 22 0 ⟨2, 22, []⟩).py = 50 ∧
      ¬ IsPt (exEnv 4).p (ComputeKeys_group (exEnv 4) logCall 2 22 0 ⟨2, 22, []⟩).px
        (ComputeKeys_group (exEnv 4) logCall 2 22 0 ⟨2, 22, []⟩).py
        (P + (exEnv 4).GRP_SIZE • G) := by
  obtain ⟨-, G, -, hG, -, hN⟩ := exSetup 4
  have hsum : IsPt (exEnv 4).p 46 40 (G + (exEnv 4).GRP_SIZE • G) :=
    posPoint_isPt 35 hG hN (by decide)
  refine ⟨G, G, hG, hN, by decide, hsum, by decide, by decide, ?_⟩
  intro h
  have := (IsPt.unique h hsum).1
  revert this
  decide

/-- What `ComputeKeys` stores back when at least one group runs: for a valid
start point it is `P + GRP_SIZE * G`, whatever the number of groups. -/
theorem ComputeKeys_store_isPt (E : Env) [Fact E.p.Prime] (t : Thread)
    (mode sx sy : Nat) (bloomLookUp : Mem) (BLOOM_BITS : Int) (BLOOM_HASHES maxFound : Nat)
    (out : Mem) (P G : (curve E.p).Point) (hG2 : 2 ≤ E.GRP_SIZE)
    (hm : 1 ≤ E.STEP_SIZE / E.GRP_SIZE) (hP : IsPt E.p sx sy P)
    (hN : IsPt E.p E._2Gnx E._2Gny (E.GRP_SIZE • G))
    (hdx : ∀ k, k < E.GRP_SIZE / 2 + 1 → fillDx E sx k ≠ 0) :
    IsPt E.p (ComputeKeys E t mode sx sy bloomLookUp BLOOM_BITS BLOOM_HASHES maxFound out).1
      (ComputeKeys E t mode sx sy bloomLookUp BLOOM_BITS BLOOM_HASHES maxFound out).2.1
      (P + E.GRP_SIZE • G) := by
  obtain ⟨hx, hy⟩ := ComputeKeys_walk_point E
    (fun incr px py out =>
      CheckHash E t mode px py (toInt32 incr) bloomLookUp BLOOM_BITS BLOOM_HASHES maxFound out)
    sx sy out
  have he : entryPoint E sx sy (E.STEP_SIZE / E.GRP_SIZE) = nextCentre E sx sy := by
    unfold entryPoint
    rw [if_neg (by omega)]
  simp only [ComputeKeys]
  rw [hx, hy, he]
  exact posPoint_isPt _ hP hN (groupDx_next_exact E sx hG2 hdx)

/-- C2 fails on the code for `STEP_SIZE = 2 * GRP_SIZE`: on the curve over 67
elements with `GRP_SIZE = 4` and `STEP_SIZE = 8`, from the valid start point
`P = 10 G = (56, 4)` the call stores `(5, 20) = P + 4 G`, not `P + 8 G`: the
centre `(sx, sy)` is not advanced between the groups. -/
theorem ComputeKeys_store_two_groups :
    ∃ P G : (curve (exEnv 8).p).Point, IsPt (exEnv 8).p 56 4 P ∧ IsPt (exEnv 8).p 2 22 G ∧
      (∀ i, i < (exEnv 8).GRP_SIZE / 2 →
        IsPt (exEnv 8).p ((exEnv 8).Gx i) ((exEnv 8).Gy i) ((i + 1) • G)) ∧
      IsPt (exEnv 8).p (exEnv 8)._2Gnx (exEnv 8)._2Gny ((exEnv 8).GRP_SIZE • G) ∧
      (∀ k, k < (exEnv 8).GRP_SIZE / 2 + 1 → fillDx (exEnv 8) 56 k ≠ 0) ∧
      (exEnv 8).STEP_SIZE = 2 * (exEnv 8).GRP_SIZE ∧
      (ComputeKeys (exEnv 8) exThread 0 56 4 fullFilter 1000 3 16 (counterOnly 0)).1 = 5 ∧
      (ComputeKeys (exEnv 8) exThread 0 56 4 fullFilter 1000 3 16 (counterOnly 0)).2.1 = 20 ∧
      IsPt (exEnv 8).p 5 20 (P + (exEnv 8).GRP_SIZE • G) ∧
      ¬ IsPt (exEnv 8).p 5 20 (P + (exEnv 8).STEP_SIZE • G) := by
  obtain ⟨P, G, hP, hG, hT, hN⟩ := exSetup 8
  have hs := ComputeKeys_store_isPt (exEnv 8) exThread 0 56 4 fullFilter 1000 3 16 (counterOnly 0)
    P G (by decide) (by decide) hP hN (by decide)
  obtain ⟨hx, hy⟩ := ComputeKeys_walk_point (exEnv 8)
    (fun incr px py out =>
      CheckHash (exEnv 8) exThread 0 px py (toInt32 incr) fullFilter 1000 3 16 out) 56 4
    (counterOnly 0)
  have ex : (ComputeKeys (exEnv 8) exThread 0 56 4 fullFilter 1000 3 16 (counterOnly 0)).1 = 5 := by
    simp only [ComputeKeys]
    rw [hx]
    decide
  have ey : (ComputeKeys (exEnv 8) exThread 0 56 4 fullFilter 1000 3 16 (counterOnly 0)).2.1 =
      20 := by
    simp only [ComputeKeys]
    rw [hy]
    decide
  rw [ex, ey] at hs
  refine ⟨P, G, hP, hG, hT, hN, by decide, by decide, ex, ey, hs, ?_⟩
  intro h8
  have e := IsPt.eq hs h8
  have e8 : (exEnv 8).STEP_SIZE • G = (exEnv 8).GRP_SIZE • G + (exEnv 8).GRP_SIZE • G := by
    rw [← add_nsmul]
    rfl
  rw [e8, ← add_assoc] at e
  exact IsPt.ne_zero hN (self_eq_add_right.1 e)

/-! ## Increments and the points of a group -/

theorem groupCalls_incr (E : Env) (sx sy j px py : Nat) (hG2 : 2 ≤ E.GRP_SIZE)
    (hev : E.GRP_SIZE % 2 = 0) (hsmall : (j + 1) * E.GRP_SIZE < 2 ^ 31) :
    ∀ idx, idx < E.GRP_SIZE → ∃ c, (ComputeKeys_groupCalls E sx sy j px py)[idx]? = some c ∧
      c.incr = ((j * E.GRP_SIZE + E.GRP_SIZE / 2 : Nat) : Int) + groupOffset E.GRP_SIZE idx := by
  obtain ⟨gc, gl, gf⟩ := ComputeKeys_groupCalls_getElem? E sx sy j px py
  have hH : E.HSIZE + 1 = E.GRP_SIZE / 2 := by
    unfold Env.HSIZE
    omega
  have hmul : (j + 1) * E.GRP_SIZE = j * E.GRP_SIZE + E.GRP_SIZE := by ring
  intro idx hidx
  by_cases h0 : idx = 0
  · subst h0
    refine ⟨_, gc, ?_⟩
    simp only [centreCall, groupOffset, if_true, add_zero]
    rw [Nat.mod_eq_of_lt (by omega), toInt32_of_lt (by omega)]
  by_cases hl : idx = E.GRP_SIZE - 1
  · have hidx' : idx = 2 * E.HSIZE + 1 := by omega
    rw [hidx']
    refine ⟨_, gf, ?_⟩
    have hne : 2 * E.HSIZE + 1 ≠ 0 := by omega
    have hl' : 2 * E.HSIZE + 1 = E.GRP_SIZE - 1 := by omega
    simp only [firstCall, groupOffset, if_neg hne, if_pos hl']
    rw [Nat.mod_eq_of_lt (by omega), toInt32_of_lt (by omega)]
    push_cast
    ring
  by_cases hodd : idx % 2 = 1
  · obtain ⟨i, hi⟩ : ∃ i, idx = 2 * i + 1 := ⟨idx / 2, by omega⟩
    subst hi
    have hiH : i < E.HSIZE := by omega
    refine ⟨_, (gl i hiH).1, ?_⟩
    simp only [posCall, groupOffset, if_neg h0, if_neg hl, if_pos hodd]
    have e1 : (i + 1) % 2 ^ 32 = i + 1 := Nat.mod_eq_of_lt (by omega)
    have e2 : (E.GRP_SIZE / 2 + (i + 1)) % 2 ^ 32 = E.GRP_SIZE / 2 + (i + 1) :=
      Nat.mod_eq_of_lt (by omega)
    have e3 : (2 * i + 1 + 1) / 2 = i + 1 := by omega
    rw [e1, e2, e3, Nat.mod_eq_of_lt (by omega), toInt32_of_lt (by omega)]
    push_cast
    ring
  · obtain ⟨i, hi⟩ : ∃ i, idx = 2 * i + 2 := ⟨idx / 2 - 1, by omega⟩
    subst hi
    have hiH : i < E.HSIZE := by omega
    refine ⟨_, (gl i hiH).2, ?_⟩
    simp only [negCall, groupOffset, if_neg h0, if_neg hl, if_neg hodd]
    have e1 : (i + 1) % 2 ^ 32 = i + 1 := Nat.mod_eq_of_lt (by omega)
    have e2 : (E.GRP_SIZE / 2 + 2 ^ 32 - (i + 1)) % 2 ^ 32 = E.GRP_SIZE / 2 - (i + 1) := by
      have : E.GRP_SIZE / 2 + 2 ^ 32 - (i + 1) = (E.GRP_SIZE / 2 - (i + 1)) + 2 ^ 32 := by omega
      rw [this, Nat.add_mod_right]
      exact Nat.mod_eq_of_lt (by omega)
    have e3 : (2 * i + 2) / 2 = i + 1 := by omega
    rw [e1, e2, e3, Nat.mod_eq_of_lt (by omega), toInt32_of_lt (by omega)]
    have : i + 1 ≤ E.GRP_SIZE / 2 := by omega
    push_cast [Nat.cast_sub this]
    ring

theorem groupOffset_range (n idx : Nat) (hn2 : 2 ≤ n) (hev : n % 2 = 0) (hidx : idx < n) :
    -((n / 2 : Nat) : Int) ≤ groupOffset n idx ∧ groupOffset n idx < ((n / 2 : Nat) : Int) := by
  unfold groupOffset
  split_ifs <;> omega

theorem groupOffset_injective (n a b : Nat) (hn2 : 2 ≤ n) (hev : n % 2 = 0) (ha : a < n)
    (hb : b < n) (h : groupOffset n a = groupOffset n b) : a = b := by
  unfold groupOffset at h
  split_ifs at h <;> omega

theorem groupOffset_surjective (n : Nat) (k : Int) (hn2 : 2 ≤ n) (hev : n % 2 = 0)
    (hlo : -((n / 2 : Nat) : Int) ≤ k) (hhi : k < ((n / 2 : Nat) : Int)) :
    ∃ idx, idx < n ∧ groupOffset n idx = k := by
  by_cases h0 : k = 0
  · exact ⟨0, by omega, by simp [groupOffset, h0]⟩
  by_cases hl : k = -((n / 2 : Nat) : Int)
  · refine ⟨n - 1, by omega, ?_⟩
    unfold groupOffset
    rw [if_neg (by omega), if_pos rfl, hl]
  by_cases hpos : 0 < k
  · refine ⟨2 * k.toNat - 1, by omega, ?_⟩
    unfold groupOffset
    rw [if_neg (by omega), if_neg (by omega), if_pos (by omega)]
    omega
  · refine ⟨2 * (-k).toNat, by omega, ?_⟩
    unfold groupOffset
    rw [if_neg (by omega), if_neg (by omega), if_neg (by omega)]
    omega

/-! ## The report stream of `ComputeKeys` -/

theorem CheckHashComp_eq_runReports (E : Env) (t : Thread) (px isOdd : Nat) (incr : Int)
    (bloomLookUp : Mem) (BLOOM_BITS : Int) (BLOOM_HASHES maxFound : Nat) (out : Mem) :
    CheckHashComp E t px isOdd incr bloomLookUp BLOOM_BITS BLOOM_HASHES maxFound out =
      runReports maxFound out
        (compReports E t px isOdd incr bloomLookUp BLOOM_BITS BLOOM_HASHES) := rfl

theorem CheckHashUncomp_eq_runReports (E : Env) (t : Thread) (px py : Nat) (incr : Int)
    (bloomLookUp : Mem) (BLOOM_BITS : Int) (BLOOM_HASHES maxFound : Nat) (out : Mem) :
    CheckHashUncomp E t px py incr bloomLookUp BLOOM_BITS BLOOM_HASHES maxFound out =
      runReports maxFound out
        (uncompReports E t px py incr bloomLookUp BLOOM_BITS BLOOM_HASHES) := rfl

theorem runReports_append_list (maxFound : Nat) (out : Mem) (rs qs : List Report) :
    runReports maxFound out (rs ++ qs) = runReports maxFound (runReports maxFound out rs) qs := by
  simp [runReports, List.foldl_append]

theorem CheckHash_eq_runReports (E : Env) (t : Thread) (mode : Nat) (c : Call)
    (bloomLookUp : Mem) (BLOOM_BITS : Int) (BLOOM_HASHES maxFound : Nat) (out : Mem) :
    CheckHash E t mode c.px c.py c.incr bloomLookUp BLOOM_BITS BLOOM_HASHES maxFound out =
      runReports maxFound out (callReports E t mode bloomLookUp BLOOM_BITS BLOOM_HASHES c) := by
  unfold CheckHash callReports
  split_ifs
  · exact CheckHashComp_eq_runReports ..
  · exact CheckHashUncomp_eq_runReports ..
  · rw [runReports_append_list, ← CheckHashComp_eq_runReports, ← CheckHashUncomp_eq_runReports]
  · rfl

theorem foldl_CheckHash_eq_runReports (E : Env) (t : Thread) (mode : Nat) (bloomLookUp : Mem)
    (BLOOM_BITS : Int) (BLOOM_HASHES maxFound : Nat) (cs : List Call) (out : Mem) :
    cs.foldl (fun out c => CheckHash E t mode c.px c.py c.incr bloomLookUp BLOOM_BITS
        BLOOM_HASHES maxFound out) out =
      runReports maxFound out
        (cs.flatMap (callReports E t mode bloomLookUp BLOOM_BITS BLOOM_HASHES)) := by
  induction cs generalizing out with
  | nil => rfl
  | cons c cs ih =>
    rw [List.foldl_cons, ih, List.flatMap_cons, runReports_append_list, CheckHash_eq_runReports]

/-- The output buffer of `ComputeKeys` is the buffer after the reports of its
calls, applied one after another. -/
theorem ComputeKeys_out_eq_runReports (E : Env) (t : Thread) (mode sx sy : Nat)
    (bloomLookUp : Mem) (BLOOM_BITS : Int) (BLOOM_HASHES maxFound : Nat) (out : Mem) :
    (ComputeKeys E t mode sx sy bloomLookUp BLOOM_BITS BLOOM_HASHES maxFound out).2.2 =
      runReports maxFound out ((ComputeKeys_calls E sx sy).flatMap
        (callReports E t mode bloomLookUp BLOOM_BITS BLOOM_HASHES)) := by
  rw [ComputeKeys_eq_fold_calls, foldl_CheckHash_eq_runReports]

/-- A report made while the counter is in `[1, 2^29)` leaves words 1..7 (slot 0)
alone and moves the counter by at most one. -/
theorem Report.apply_keeps_slot0 (maxFound : Nat) (out : Mem) (r : Report) (h1 : 1 ≤ out 0)
    (h2 : out 0 < 2 ^ 29) :
    out 0 ≤ (r.apply maxFound out) 0 ∧ (r.apply maxFound out) 0 ≤ out 0 + 1 ∧
      ∀ k, 1 ≤ k → k ≤ 7 → (r.apply maxFound out) k = out k := by
  by_cases hp : r.passes = true
  · rw [Report.apply_of_passes _ _ _ hp]
    by_cases hlt : out 0 < maxFound
    · obtain ⟨r0, -, -, -, -, -, -, -, rf⟩ :=
        report_recordWritten r.t r.h r.incr r.endo r.mode maxFound out hlt (by omega)
      exact ⟨by omega, by omega, fun k hk1 hk7 => rf k (by omega) (by omega)⟩
    · rw [report_full _ _ _ _ _ _ _ hlt]
      have e : (out 0 + 1) % 2 ^ 32 = out 0 + 1 := Nat.mod_eq_of_lt (by omega)
      refine ⟨?_, ?_, ?_⟩
      · simp only [Mem.write, if_true, e]
        omega
      · simp only [Mem.write, if_true, e]
        omega
      · intro k hk1 _
        have : k ≠ 0 := by omega
        simp only [Mem.write, if_neg this]
  · have hno : r.apply maxFound out = out := by
      unfold Report.apply
      unfold Report.passes at hp
      cases hm : r.matcher with
      | bloom f B k =>
        rw [hm] at hp
        simp only [decide_eq_true_eq] at hp
        simp only [CheckPoint, if_neg hp]
      | exact tgt =>
        rw [hm] at hp
        simp only [Bool.not_eq_true] at hp
        simp [CheckPoint2, hp]
    rw [hno]
    exact ⟨le_refl _, by omega, fun _ _ _ => rfl⟩

theorem runReports_keeps_slot0 (maxFound : Nat) (rs : List Report) :
    ∀ out : Mem, 1 ≤ out 0 → out 0 + rs.length ≤ 2 ^ 29 →
      out 0 ≤ (runReports maxFound out rs) 0 ∧
      (runReports maxFound out rs) 0 ≤ out 0 + rs.length ∧
      ∀ k, 1 ≤ k → k ≤ 7 → (runReports maxFound out rs) k = out k := by
  induction rs with
  | nil =>
    intro out _ _
    exact ⟨le_refl _, le_refl _, fun _ _ _ => rfl⟩
  | cons r rs ih =>
    intro out h1 h2
    simp only [List.length_cons] at h2
    obtain ⟨a1, a2, a3⟩ := Report.apply_keeps_slot0 maxFound out r h1 (by omega)
    obtain ⟨b1, b2, b3⟩ := ih (r.apply maxFound out) (by omega) (by omega)
    have e : runReports maxFound out (r :: rs) = runReports maxFound (r.apply maxFound out) rs :=
      rfl
    rw [e]
    refine ⟨by omega, by simp only [List.length_cons]; omega, ?_⟩
    intro k hk1 hk7
    rw [b3 k hk1 hk7, a3 k hk1 hk7]

theorem ComputeKeys_calls_length (E : Env) (sx sy : Nat) :
    (ComputeKeys_calls E sx sy).length = (E.STEP_SIZE / E.GRP_SIZE) * (2 * E.HSIZE + 2) := by
  rw [ComputeKeys_calls_eq]
  generalize E.STEP_SIZE / E.GRP_SIZE = m
  induction m with
  | zero => simp
  | succ n ih =>
    rw [List.range_succ, List.flatMap_append, List.length_append, ih]
    simp only [List.flatMap_cons, List.flatMap_nil, List.append_nil,
      ComputeKeys_groupCalls_length]
    ring

theorem callReports_length_le (E : Env) (t : Thread) (mode : Nat) (bloomLookUp : Mem)
    (BLOOM_BITS : Int) (BLOOM_HASHES : Nat) (c : Call) :
    (callReports E t mode bloomLookUp BLOOM_BITS BLOOM_HASHES c).length ≤ 12 := by
  unfold callReports
  split_ifs <;> simp [compReports, uncompReports]

theorem flatMap_callReports_length_le (E : Env) (t : Thread) (mode : Nat) (bloomLookUp : Mem)
    (BLOOM_BITS : Int) (BLOOM_HASHES : Nat) (cs : List Call) :
    (cs.flatMap (callReports E t mode bloomLookUp BLOOM_BITS BLOOM_HASHES)).length ≤
      12 * cs.length := by
  induction cs with
  | nil => simp
  | cons c cs ih =>
    rw [List.flatMap_cons, List.length_append, List.length_cons]
    have := callReports_length_le E t mode bloomLookUp BLOOM_BITS BLOOM_HASHES c
    omega

/-- A first matching report on a reset buffer keeps its record in slot 0 while
fewer than `2^29` reports follow. -/
theorem runReports_cons_slot0 (maxFound : Nat) (out : Mem) (r0 : Report) (tl : List Report)
    (h0 : out 0 = 0) (hmax : 0 < maxFound) (hpass : r0.passes = true)
    (hlen : tl.length + 1 ≤ 2 ^ 29) :
    SlotHolds (runReports maxFound out (r0 :: tl)) 0 r0 := by
  have e : runReports maxFound out (r0 :: tl) = runReports maxFound (r0.apply maxFound out) tl :=
    rfl
  rw [e, Report.apply_of_passes _ _ _ hpass]
  obtain ⟨c0, c1, c2, c3, c4, c5, c6, c7, -⟩ :=
    report_recordWritten r0.t r0.h r0.incr r0.endo r0.mode maxFound out (by omega) (by omega)
  rw [h0] at c0 c1 c2 c3 c4 c5 c6 c7
  obtain ⟨-, -, k3⟩ := runReports_keeps_slot0 maxFound tl
    (report r0.t r0.h r0.incr r0.endo r0.mode maxFound out) (by omega) (by omega)
  unfold SlotHolds
  rw [k3 _ (by omega) (by omega), k3 _ (by omega) (by omega), k3 _ (by omega) (by omega),
    k3 _ (by omega) (by omega), k3 _ (by omega) (by omega), k3 _ (by omega) (by omega),
    k3 _ (by omega) (by omega)]
  exact ⟨c1, c2, c3, c4, c5, c6, c7⟩

theorem ComputeKeys_calls_head (E : Env) (sx sy : Nat) (hm : 1 ≤ E.STEP_SIZE / E.GRP_SIZE)
    (hsmall : E.GRP_SIZE / 2 < 2 ^ 31) :
    ∃ rest, ComputeKeys_calls E sx sy = ⟨sx, sy, ((E.GRP_SIZE / 2 : Nat) : Int)⟩ :: rest := by
  have h := ComputeKeys_calls_first_group E sx sy 0 hm (by omega)
  rw [(ComputeKeys_groupCalls_getElem? E sx sy 0 sx sy).1] at h
  cases hcs : ComputeKeys_calls E sx sy with
  | nil => rw [hcs] at h; simp at h
  | cons c rest =>
    rw [hcs] at h
    simp only [List.getElem?_cons_zero, Option.some.injEq] at h
    refine ⟨rest, ?_⟩
    rw [h]
    simp only [centreCall, Nat.zero_mul, Nat.zero_add]
    rw [Nat.mod_eq_of_lt (by omega), toInt32_of_lt hsmall]

/-- The record of the start point survives the launch: in compressed mode, from a
reset buffer with room for one record, if the compressed digest of the start
point passes the filter then slot 0 of the final buffer holds its record, with
the increment of the centre call. -/
theorem ComputeKeys_start_record (E : Env) (t : Thread) (sx sy : Nat) (bloomLookUp : Mem)
    (BLOOM_BITS : Int) (BLOOM_HASHES maxFound : Nat) (out : Mem)
    (hm : 1 ≤ E.STEP_SIZE / E.GRP_SIZE) (hG2 : 2 ≤ E.GRP_SIZE)
    (hstep : 12 * E.STEP_SIZE ≤ 2 ^ 29) (h0 : out 0 = 0) (hmax : 0 < maxFound)
    (hb : BloomCheck (E._GetHash160Comp sx (sy % 2)) bloomLookUp (ofInt64 BLOOM_BITS)
      BLOOM_HASHES > 0) :
    SlotHolds (ComputeKeys E t SEARCH_COMPRESSED sx sy bloomLookUp BLOOM_BITS BLOOM_HASHES
        maxFound out).2.2 0
      ⟨t, E._GetHash160Comp sx (sy % 2), ((E.GRP_SIZE / 2 : Nat) : Int), 0, 1,
        Matcher.bloom bloomLookUp (ofInt64 BLOOM_BITS) BLOOM_HASHES⟩ := by
  have hlen := ComputeKeys_calls_length E sx sy
  have hH : 2 * E.HSIZE + 2 ≤ E.GRP_SIZE := by
    unfold Env.HSIZE
    omega
  have hle : (ComputeKeys_calls E sx sy).length ≤ E.STEP_SIZE := by
    rw [hlen]
    calc E.STEP_SIZE / E.GRP_SIZE * (2 * E.HSIZE + 2)
        ≤ E.STEP_SIZE / E.GRP_SIZE * E.GRP_SIZE := Nat.mul_le_mul_left _ hH
      _ ≤ E.STEP_SIZE := Nat.div_mul_le_self _ _
  have hsmall : E.GRP_SIZE / 2 < 2 ^ 31 := by
    have : E.GRP_SIZE ≤ E.STEP_SIZE := by
      have h1 := Nat.div_mul_le_self E.STEP_SIZE E.GRP_SIZE
      have h2 : 1 * E.GRP_SIZE ≤ E.STEP_SIZE / E.GRP_SIZE * E.GRP_SIZE :=
        Nat.mul_le_mul_right _ hm
      omega
    omega
  obtain ⟨rest, hcs⟩ := ComputeKeys_calls_head E sx sy hm hsmall
  have hflen := flatMap_callReports_length_le E t SEARCH_COMPRESSED bloomLookUp BLOOM_BITS
    BLOOM_HASHES (ComputeKeys_calls E sx sy)
  rw [ComputeKeys_out_eq_runReports]
  rw [hcs] at hflen ⊢
  rw [List.flatMap_cons] at hflen ⊢
  have hcr : callReports E t SEARCH_COMPRESSED bloomLookUp BLOOM_BITS BLOOM_HASHES
      ⟨sx, sy, ((E.GRP_SIZE / 2 : Nat) : Int)⟩ =
      ⟨t, E._GetHash160Comp sx (sy % 2), ((E.GRP_SIZE / 2 : Nat) : Int), 0, 1,
        Matcher.bloom bloomLookUp (ofInt64 BLOOM_BITS) BLOOM_HASHES⟩ ::
      (compReports E t sx (sy % 2) ((E.GRP_SIZE / 2 : Nat) : Int) bloomLookUp BLOOM_BITS
        BLOOM_HASHES).tail := by
    simp [callReports, compReports]
  rw [hcr] at hflen ⊢
  rw [List.cons_append] at hflen ⊢
  rw [hcs, List.length_cons] at hle
  simp only [List.length_cons] at hflen
  refine runReports_cons_slot0 maxFound out _ _ h0 hmax ?_ (by omega)
  simp only [Report.passes, decide_eq_true_eq]
  exact hb

/-- C9 (amended). The increment `ComputeKeys` passes to `CheckHash` for the call
at position `idx` of group `j` is `j * GRP_SIZE + GRP_SIZE / 2 + k`, with `k` the
signed offset of that position from the centre (0 for the centre, `+(i+1)` for
`P + (i+1) G`, `-(i+1)` for `P - (i+1) G`, `-GRP_SIZE/2` for the first point): in
the first group the start point itself is passed `GRP_SIZE / 2`, and when its
compressed digest passes the filter (compressed mode, reset buffer) its record in
slot 0 has a meta word whose bits 31..16 read `GRP_SIZE / 2`. -/
theorem ComputeKeys_increment (E : Env) (t : Thread) (sx sy j px py : Nat) (bloomLookUp : Mem)
    (BLOOM_BITS : Int) (BLOOM_HASHES maxFound : Nat) (out : Mem) (hG2 : 2 ≤ E.GRP_SIZE)
    (hev : E.GRP_SIZE % 2 = 0) (hsmall : (j + 1) * E.GRP_SIZE < 2 ^ 31) :
    (∀ idx, idx < E.GRP_SIZE → ∃ c, (ComputeKeys_groupCalls E sx sy j px py)[idx]? = some c ∧
      c.incr = ((j * E.GRP_SIZE + E.GRP_SIZE / 2 : Nat) : Int) + groupOffset E.GRP_SIZE idx) ∧
    (1 ≤ E.STEP_SIZE / E.GRP_SIZE →
      (ComputeKeys_calls E sx sy)[0]? = some ⟨sx, sy, ((E.GRP_SIZE / 2 : Nat) : Int)⟩) ∧
    (1 ≤ E.STEP_SIZE / E.GRP_SIZE → 12 * E.STEP_SIZE ≤ 2 ^ 29 → E.GRP_SIZE < 2 ^ 16 →
      out 0 = 0 → 0 < maxFound →
      BloomCheck (E._GetHash160Comp sx (sy % 2)) bloomLookUp (ofInt64 BLOOM_BITS)
        BLOOM_HASHES > 0 →
      SlotHolds (ComputeKeys E t SEARCH_COMPRESSED sx sy bloomLookUp BLOOM_BITS BLOOM_HASHES
          maxFound out).2.2 0
        ⟨t, E._GetHash160Comp sx (sy % 2), ((E.GRP_SIZE / 2 : Nat) : Int), 0, 1,
          Matcher.bloom bloomLookUp (ofInt64 BLOOM_BITS) BLOOM_HASHES⟩ ∧
      metaIncr ((ComputeKeys E t SEARCH_COMPRESSED sx sy bloomLookUp BLOOM_BITS BLOOM_HASHES
          maxFound out).2.2 2) = ((E.GRP_SIZE / 2 : Nat) : Int)) := by
  refine ⟨groupCalls_incr E sx sy j px py hG2 hev hsmall, ?_, ?_⟩
  · intro hm
    rw [ComputeKeys_calls_first_group E sx sy 0 hm (by omega),
      (ComputeKeys_groupCalls_getElem? E sx sy 0 sx sy).1]
    have hmul : (j + 1) * E.GRP_SIZE = j * E.GRP_SIZE + E.GRP_SIZE := by ring
    simp only [centreCall, Nat.zero_mul, Nat.zero_add]
    rw [Nat.mod_eq_of_lt (by omega), toInt32_of_lt (by omega)]
  · intro hm hstep h16 h0 hmax hb
    have hs := ComputeKeys_start_record E t sx sy bloomLookUp BLOOM_BITS BLOOM_HASHES maxFound
      out hm hG2 hstep h0 hmax hb
    refine ⟨hs, ?_⟩
    have h2 := hs.2.1
    simp only [Nat.mul_zero, Nat.zero_add] at h2
    rw [h2]
    exact (metaWord_decode ((E.GRP_SIZE / 2 : Nat) : Int) 0 1 (by omega) (Or.inr rfl)
      (by omega)).2.1

/-- Witness of C9 (amended), with `GRP_SIZE = 4`: the calls of the first group
carry the increments `2, 3, 1, 0`. -/
theorem ComputeKeys_increment_witness :
    (∀ idx, idx < (exEnv 4).GRP_SIZE → ∃ c,
      (ComputeKeys_groupCalls (exEnv 4) 56 4 0 56 4)[idx]? = some c ∧
      c.incr = ((0 * (exEnv 4).GRP_SIZE + (exEnv 4).GRP_SIZE / 2 : Nat) : Int) +
        groupOffset (exEnv 4).GRP_SIZE idx) ∧
    ComputeKeys_calls (exEnv 4) 56 4 = [⟨56, 4, 2⟩, ⟨24, 30, 3⟩, ⟨13, 44, 1⟩, ⟨21, 42, 0⟩] :=
  ⟨(ComputeKeys_increment (exEnv 4) exThread 56 4 0 56 4 fullFilter 1000 3 16 (counterOnly 0)
    (by decide) (by decide) (by decide)).1, by decide⟩

/-- C9 as stated fails: with `GRP_SIZE = 4` the start point `(56, 4)` itself is
passed the increment 2, not 0; `P + G` is passed 3 and `P - G` is passed 1; and
the record of the start point in a full filter has increment 2 in its meta word. -/
theorem ComputeKeys_increment_counterexample :
    (ComputeKeys_calls (exEnv 4) 56 4)[0]? = some ⟨56, 4, 2⟩ ∧
    (ComputeKeys_calls (exEnv 4) 56 4)[1]? = some ⟨24, 30, 3⟩ ∧
    (ComputeKeys_calls (exEnv 4) 56 4)[2]? = some ⟨13, 44, 1⟩ ∧
    (ComputeKeys (exEnv 4) exThread SEARCH_COMPRESSED 56 4 fullFilter 1000 3 64
      (counterOnly 0)).2.2 3 = 56 ∧
    metaIncr ((ComputeKeys (exEnv 4) exThread SEARCH_COMPRESSED 56 4 fullFilter 1000 3 64
      (counterOnly 0)).2.2 2) = 2 := by
  refine ⟨by decide, by decide, by decide, by decide, by decide⟩

theorem add_groupOffset_zsmul {p : Nat} [Fact p.Prime] (P G : (curve p).Point) (n i : Nat) :
    (P + (i + 1) • G = P + (((2 * i + 1 + 1) / 2 : Nat) : Int) • G) ∧
    (P - (i + 1) • G = P + (-(((2 * i + 2) / 2 : Nat) : Int)) • G) ∧
    (P - n • G = P + (-((n : Nat) : Int)) • G) := by
  have e1 : (2 * i + 1 + 1) / 2 = i + 1 := by omega
  rw [e1]
  refine ⟨?_, ?_, ?_⟩
  · rw [natCast_zsmul]
  · rw [neg_zsmul, natCast_zsmul, sub_eq_add_neg]
  · rw [neg_zsmul, natCast_zsmul, sub_eq_add_neg]

/-- C10 (amended). One group of `ComputeKeys` with centre `P` (a valid start
point: table correct, every delta-x non-zero, `GRP_SIZE` even and at least 2)
calls `CheckHash` on exactly `GRP_SIZE` walk points, namely `P + k G` for every
integer `k` from `-H` to `H - 1` with `H = GRP_SIZE / 2`, each once: the endpoint
`k = -H` is included, the endpoint `k = +H` is not. -/
theorem ComputeKeys_group_points_count (E : Env) [Fact E.p.Prime] (sx sy j : Nat)
    (P G : (curve E.p).Point) (hG2 : 2 ≤ E.GRP_SIZE) (hev : E.GRP_SIZE % 2 = 0)
    (hP : IsPt E.p sx sy P)
    (hT : ∀ i, i < E.GRP_SIZE / 2 → IsPt E.p (E.Gx i) (E.Gy i) ((i + 1) • G))
    (hdx : ∀ k, k < E.GRP_SIZE / 2 + 1 → fillDx E sx k ≠ 0) :
    (ComputeKeys_groupCalls E sx sy j sx sy).length = E.GRP_SIZE ∧
    (∀ idx, idx < E.GRP_SIZE → ∃ c, (ComputeKeys_groupCalls E sx sy j sx sy)[idx]? = some c ∧
      IsPt E.p c.px c.py (P + groupOffset E.GRP_SIZE idx • G)) ∧
    (∀ idx, idx < E.GRP_SIZE → -((E.GRP_SIZE / 2 : Nat) : Int) ≤ groupOffset E.GRP_SIZE idx ∧
      groupOffset E.GRP_SIZE idx < ((E.GRP_SIZE / 2 : Nat) : Int)) ∧
    (∀ k : Int, -((E.GRP_SIZE / 2 : Nat) : Int) ≤ k → k < ((E.GRP_SIZE / 2 : Nat) : Int) →
      ∃ idx, idx < E.GRP_SIZE ∧ groupOffset E.GRP_SIZE idx = k ∧
        ∀ idx1, idx1 < E.GRP_SIZE → groupOffset E.GRP_SIZE idx1 = k → idx1 = idx) := by
  have hH : E.HSIZE + 1 = E.GRP_SIZE / 2 := by
    unfold Env.HSIZE
    omega
  have hinv : ∀ i, i < E.GRP_SIZE / 2 → (groupDx E sx i * fillDx E sx i) % E.p = 1 := by
    intro i hi
    have h := groupDx_exact E sx hG2 (fillDx_cast_ne_zero E sx hG2 hdx) i (by omega)
    have h1 : ((groupDx E sx i * fillDx E sx i : Nat) : ZMod E.p) = ((1 : Nat) : ZMod E.p) := by
      push_cast
      exact h
    have h2 := (ZMod.natCast_eq_natCast_iff _ _ _).1 h1
    have hp1 : 1 < E.p := (Fact.out : E.p.Prime).one_lt
    unfold Nat.ModEq at h2
    rw [h2, Nat.mod_eq_of_lt hp1]
  obtain ⟨hloop, hfirst⟩ := group_points E sx sy j P G hG2 hP hT hinv
  obtain ⟨gc, gl, gf⟩ := ComputeKeys_groupCalls_getElem? E sx sy j sx sy
  refine ⟨?_, ?_, fun idx hidx => groupOffset_range _ idx hG2 hev hidx, ?_⟩
  · rw [ComputeKeys_groupCalls_length]
    omega
  · intro idx hidx
    by_cases h0 : idx = 0
    · subst h0
      refine ⟨_, gc, ?_⟩
      simp only [centreCall, groupOffset, if_true, zero_zsmul, add_zero]
      exact hP
    by_cases hl : idx = E.GRP_SIZE - 1
    · have hidx1 : idx = 2 * E.HSIZE + 1 := by omega
      refine ⟨_, hidx1 ▸ gf, ?_⟩
      simp only [groupOffset, if_neg h0, if_pos hl]
      rw [← (add_groupOffset_zsmul P G (E.GRP_SIZE / 2) 0).2.2]
      exact hfirst
    by_cases hodd : idx % 2 = 1
    · obtain ⟨i, hi⟩ : ∃ i, idx = 2 * i + 1 := ⟨idx / 2, by omega⟩
      subst hi
      have hiH : i < E.HSIZE := by omega
      refine ⟨_, (gl i hiH).1, ?_⟩
      simp only [groupOffset, if_neg h0, if_neg hl, if_pos hodd]
      rw [← (add_groupOffset_zsmul P G 0 i).1]
      exact (hloop i hiH).1
    · obtain ⟨i, hi⟩ : ∃ i, idx = 2 * i + 2 := ⟨idx / 2 - 1, by omega⟩
      subst hi
      have hiH : i < E.HSIZE := by omega
      refine ⟨_, (gl i hiH).2, ?_⟩
      simp only [groupOffset, if_neg h0, if_neg hl, if_neg hodd]
      rw [← (add_groupOffset_zsmul P G 0 i).2.1]
      exact (hloop i hiH).2
  · intro k hlo hhi
    obtain ⟨idx, hidx, hk⟩ := groupOffset_surjective E.GRP_SIZE k hG2 hev hlo hhi
    exact ⟨idx, hidx, hk, fun idx1 h1 hk1 =>
      groupOffset_injective E.GRP_SIZE idx1 idx hG2 hev h1 hidx (hk1.trans hk.symm)⟩

/-- Witness of C10 (amended): with `GRP_SIZE = 4` a group makes 4 calls. -/
theorem ComputeKeys_group_points_count_witness :
    ∃ P G : (curve (exEnv 4).p).Point, IsPt (exEnv 4).p 56 4 P ∧ IsPt (exEnv 4).p 2 22 G ∧
      (ComputeKeys_groupCalls (exEnv 4) 56 4 0 56 4).length = (exEnv 4).GRP_SIZE ∧
      (∀ idx, idx < (exEnv 4).GRP_SIZE → ∃ c,
        (ComputeKeys_groupCalls (exEnv 4) 56 4 0 56 4)[idx]? = some c ∧
        IsPt (exEnv 4).p c.px c.py (P + groupOffset (exEnv 4).GRP_SIZE idx • G)) := by
  obtain ⟨P, G, hP, hG, hT, -⟩ := exSetup 4
  have h := ComputeKeys_group_points_count (exEnv 4) 56 4 0 P G (by decide) (by decide) hP hT
    (by decide)
  exact ⟨P, G, hP, hG, h.1, h.2.1⟩

/-- C10 as stated fails: with `GRP_SIZE = 4` (so `H = 2`) a group calls `CheckHash`
4 times, not 5, and the endpoint `P + 2 G = (14, 65)` is none of the points checked. -/
theorem ComputeKeys_group_points_count_counterexample :
    ∃ P G : (curve (exEnv 4).p).Point, IsPt (exEnv 4).p 56 4 P ∧ IsPt (exEnv 4).p 2 22 G ∧
      (ComputeKeys_groupCalls (exEnv 4) 56 4 0 56 4).length = 4 ∧
      (ComputeKeys_groupCalls (exEnv 4) 56 4 0 56 4).length ≠ (exEnv 4).GRP_SIZE + 1 ∧
      IsPt (exEnv 4).p 14 65 (P + ((exEnv 4).GRP_SIZE / 2) • G) ∧
      ∀ c ∈ ComputeKeys_groupCalls (exEnv 4) 56 4 0 56 4,
        ¬ IsPt (exEnv 4).p c.px c.py (P + ((exEnv 4).GRP_SIZE / 2) • G) := by
  obtain ⟨P, G, hP, hG, hT, -⟩ := exSetup 4
  have hsum : IsPt (exEnv 4).p 14 65 (P + (1 + 1) • G) :=
    posPoint_isPt 50 hP (hT 1 (by decide)) (by decide)
  refine ⟨P, G, hP, hG, by decide, by decide, hsum, ?_⟩
  intro c hc hcP
  have hxy := IsPt.unique hcP hsum
  have hall : ∀ c ∈ ComputeKeys_groupCalls (exEnv 4) 56 4 0 56 4, c.px ≠ 14 := by decide
  exact hall c hc hxy.1

/-! ## Hash fan-out: the digests submitted per walk point -/

theorem neg32_eq_neg (incr : Int) (h1 : -2 ^ 31 < incr) (h2 : incr < 2 ^ 31) :
    neg32 incr = -incr := by
  unfold neg32 toInt32 ofInt32
  split_ifs <;> omega

theorem ModNeg256_eq_sub (p y : Nat) (h1 : 0 < y) (h2 : y < p) : ModNeg256 p y = p - y := by
  unfold ModNeg256
  rw [Nat.mod_eq_of_lt h2, Nat.mod_eq_of_lt (by omega)]

/-- C11. `CheckHashComp` submits exactly six digests to the matcher, in this
order: the compressed digests of `x`, `beta*x mod p`, `beta2*x mod p` with the
given parity, tagged `(incr, 0)`, `(incr, 1)`, `(incr, 2)`, then the compressed
digests of the same three `x` values with the opposite parity, tagged
`(-incr, 0)`, `(-incr, 1)`, `(-incr, 2)`, all with mode bit 1. `CheckHashUncomp`
does the same for the uncompressed digests of `(x, y)`, `(beta*x, y)`,
`(beta2*x, y)` and then of the same `x` values with `-y mod p`, all with mode
bit 0. The `int32_t` negation `neg32 incr` is `-incr` (for `-2^31 < incr`), the
opposite `lnot b` of a parity bit is `1 - b`, and `-y mod p` is `p - y` for
`0 < y < p`. -/
theorem CheckHash_six_digests (E : Env) (t : Thread) (x y isOdd : Nat) (incr : Int)
    (bloomLookUp : Mem) (BLOOM_BITS : Int) (BLOOM_HASHES maxFound : Nat) (out : Mem) :
    CheckHashComp E t x isOdd incr bloomLookUp BLOOM_BITS BLOOM_HASHES maxFound out =
      runReports maxFound out
        [⟨t, E._GetHash160Comp x isOdd, incr, 0, 1,
            .bloom bloomLookUp (ofInt64 BLOOM_BITS) BLOOM_HASHES⟩,
         ⟨t, E._GetHash160Comp ((x * E._beta) % E.p) isOdd, incr, 1, 1,
            .bloom bloomLookUp (ofInt64 BLOOM_BITS) BLOOM_HASHES⟩,
         ⟨t, E._GetHash160Comp ((x * E._beta2) % E.p) isOdd, incr, 2, 1,
            .bloom bloomLookUp (ofInt64 BLOOM_BITS) BLOOM_HASHES⟩,
         ⟨t, E._GetHash160Comp x (lnot isOdd), neg32 incr, 0, 1,
            .bloom bloomLookUp (ofInt64 BLOOM_BITS) BLOOM_HASHES⟩,
         ⟨t, E._GetHash160Comp ((x * E._beta) % E.p) (lnot isOdd), neg32 incr, 1, 1,
            .bloom bloomLookUp (ofInt64 BLOOM_BITS) BLOOM_HASHES⟩,
         ⟨t, E._GetHash160Comp ((x * E._beta2) % E.p) (lnot isOdd), neg32 incr, 2, 1,
            .bloom bloomLookUp (ofInt64 BLOOM_BITS) BLOOM_HASHES⟩] ∧
    CheckHashUncomp E t x y incr bloomLookUp BLOOM_BITS BLOOM_HASHES maxFound out =
      runReports maxFound out
        [⟨t, E._GetHash160 x y, incr, 0, 0,
            .bloom bloomLookUp (ofInt64 BLOOM_BITS) BLOOM_HASHES⟩,
         ⟨t, E._GetHash160 ((x * E._beta) % E.p) y, incr, 1, 0,
            .bloom bloomLookUp (ofInt64 BLOOM_BITS) BLOOM_HASHES⟩,
         ⟨t, E._GetHash160 ((x * E._beta2) % E.p) y, incr, 2, 0,
            .bloom bloomLookUp (ofInt64 BLOOM_BITS) BLOOM_HASHES⟩,
         ⟨t, E._GetHash160 x (ModNeg256 E.p y), neg32 incr, 0, 0,
            .bloom bloomLookUp (ofInt64 BLOOM_BITS) BLOOM_HASHES⟩,
         ⟨t, E._GetHash160 ((x * E._beta) % E.p) (ModNeg256 E.p y), neg32 incr, 1, 0,
            .bloom bloomLookUp (ofInt64 BLOOM_BITS) BLOOM_HASHES⟩,
         ⟨t, E._GetHash160 ((x * E._beta2) % E.p) (ModNeg256 E.p y), neg32 incr, 2, 0,
            .bloom bloomLookUp (ofInt64 BLOOM_BITS) BLOOM_HASHES⟩] ∧
    (-2 ^ 31 < incr → incr < 2 ^ 31 → neg32 incr = -incr) ∧
    lnot 0 = 1 ∧ lnot 1 = 0 ∧
    (0 < y → y < E.p → ModNeg256 E.p y = E.p - y) := by
  refine ⟨?_, ?_, neg32_eq_neg incr, rfl, rfl, ModNeg256_eq_sub E.p y⟩
  · rw [CheckHashComp_eq_runReports]
    simp only [compReports, _ModMult]
  · rw [CheckHashUncomp_eq_runReports]
    simp only [uncompReports, _ModMult]

/-! ## The endomorphism and the negated point -/

/-- C12. For a point `(x, y)` of `y^2 = x^3 + 7` over `F_p` and `beta` with
`beta^3 = 1 (mod p)`, `beta2 = beta^2 (mod p)`, the pairs `(beta*x mod p, y)` and
`(beta2*x mod p, y)` that `CheckHashUncomp` and `CheckHashUncomp2` hash for the
endomorphism indices 1 and 2 are again points of the curve: the original `py` is
the right y coordinate of the endomorphism images. -/
theorem endomorphism_onCurve (E : Env) (t : Thread) (x y : Nat) (incr : Int)
    (bloomLookUp : Mem) (BLOOM_BITS : Int) (BLOOM_HASHES maxFound : Nat) (hash160 : Digest)
    (out : Mem) (hP : onCurve E.p x y)
    (hb : (E._beta ^ 3) % E.p = 1 % E.p) (hb2 : E._beta2 % E.p = (E._beta ^ 2) % E.p) :
    onCurve E.p ((x * E._beta) % E.p) y ∧ onCurve E.p ((x * E._beta2) % E.p) y ∧
    (∃ rest, uncompReports E t x y incr bloomLookUp BLOOM_BITS BLOOM_HASHES =
      ⟨t, E._GetHash160 x y, incr, 0, 0, .bloom bloomLookUp (ofInt64 BLOOM_BITS) BLOOM_HASHES⟩ ::
      ⟨t, E._GetHash160 ((x * E._beta) % E.p) y, incr, 1, 0,
        .bloom bloomLookUp (ofInt64 BLOOM_BITS) BLOOM_HASHES⟩ ::
      ⟨t, E._GetHash160 ((x * E._beta2) % E.p) y, incr, 2, 0,
        .bloom bloomLookUp (ofInt64 BLOOM_BITS) BLOOM_HASHES⟩ :: rest) ∧
    CheckHashUncomp E t x y incr bloomLookUp BLOOM_BITS BLOOM_HASHES maxFound out =
      runReports maxFound out (uncompReports E t x y incr bloomLookUp BLOOM_BITS BLOOM_HASHES) ∧
    CheckHashUncomp2 E t x y incr hash160 maxFound out =
      runReports maxFound out
        ((uncompReports E t x y incr bloomLookUp BLOOM_BITS BLOOM_HASHES).map
          (fun r => { r with matcher := .exact hash160 })) := by
  obtain ⟨hx, hy, he⟩ := hP
  have hp : 0 < E.p := by omega
  have key : ∀ b : Nat, (b ^ 3) % E.p = 1 % E.p →
      (y * y) % E.p = ((x * b) % E.p * ((x * b) % E.p) * ((x * b) % E.p) + 7) % E.p := by
    intro b hb3
    have h1 : ((x * b) % E.p * ((x * b) % E.p) * ((x * b) % E.p) + 7) % E.p =
        (x * x * x * (b ^ 3) + 7) % E.p := by
      have e : x * x * x * b ^ 3 = (x * b) * (x * b) * (x * b) := by ring
      rw [e]
      conv_rhs => rw [Nat.add_mod, Nat.mul_mod, Nat.mul_mod ((x * b)) ((x * b))]
      conv_lhs => rw [Nat.add_mod, Nat.mul_mod]
      simp only [Nat.mod_mod]
    have h2 : (x * x * x * (b ^ 3) + 7) % E.p = (x * x * x + 7) % E.p := by
      rw [Nat.add_mod, Nat.mul_mod, hb3, ← Nat.mul_mod, ← Nat.add_mod, Nat.mul_one]
    rw [h1, h2, he]
  have hb6 : (E._beta2 ^ 3) % E.p = 1 % E.p := by
    have e1 : (E._beta2 ^ 3) % E.p = ((E._beta ^ 2) ^ 3) % E.p := by
      rw [Nat.pow_mod, hb2, ← Nat.pow_mod]
    have e2 : (E._beta ^ 2) ^ 3 = (E._beta ^ 3) ^ 2 := by ring
    rw [e1, e2, Nat.pow_mod, hb, ← Nat.pow_mod, one_pow]
  refine ⟨⟨Nat.mod_lt _ hp, hy, key _ hb⟩, ⟨Nat.mod_lt _ hp, hy, key _ hb6⟩, ⟨_, rfl⟩, rfl, rfl⟩

/-- Witness of C12 on the example instance (`beta = 29`, `beta2 = 37` over 67
elements): the images of the start point `(56, 4)`. -/
theorem endomorphism_onCurve_witness :
    onCurve (exEnv 4).p ((56 * (exEnv 4)._beta) % (exEnv 4).p) 4 ∧
    onCurve (exEnv 4).p ((56 * (exEnv 4)._beta2) % (exEnv 4).p) 4 :=
  have H := endomorphism_onCurve (exEnv 4) exThread 56 4 2 fullFilter 1000 3 64 exDigest
    (counterOnly 0) (by decide) (by decide) (by decide)
  ⟨H.1, H.2.1⟩

theorem isPt_neg {p : Nat} [Fact p.Prime] {x y : Nat} {P : (curve p).Point}
    (hP : IsPt p x y P) : IsPt p x (ModNeg256 p y) (-P) := by
  have hp := prime_pos (p := p)
  obtain ⟨hx, _, h1, rfl⟩ := hP
  refine ⟨hx, Nat.mod_lt _ hp, ?_⟩
  rw [WeierstrassCurve.Affine.Point.neg_some]
  apply some_congr
  · rfl
  · rw [cast_ModNeg256 hp]
    simp [WeierstrassCurve.Affine.negY, curve]

/-- C13. For a walk point `(x, y)` with `y` in `[1, p-1]` and `p` odd, the parity
of `p - y` is the opposite of the parity of `y`; so the digest `CheckHashComp`
computes with `!isOdd` (`isOdd = py[0] & 1`) and reports under `-incr` is the
compressed digest of the negated point `-P = (x, p - y)`, the point whose
uncompressed digest `CheckHashUncomp` reports under `-incr` via `ModNeg256`. -/
theorem negated_point_digest (E : Env) [Fact E.p.Prime] (t : Thread) (x y : Nat) (incr : Int)
    (bloomLookUp : Mem) (BLOOM_BITS : Int) (BLOOM_HASHES maxFound : Nat) (out : Mem)
    (P : (curve E.p).Point) (hP : IsPt E.p x y P) (hy : 1 ≤ y ∧ y ≤ E.p - 1)
    (hodd : E.p % 2 = 1) :
    (E.p - y) % 2 = lnot (y % 2) ∧ (E.p - y) % 2 ≠ y % 2 ∧
    ModNeg256 E.p y = E.p - y ∧ IsPt E.p x (E.p - y) (-P) ∧
    CheckHash E t SEARCH_COMPRESSED x y incr bloomLookUp BLOOM_BITS BLOOM_HASHES maxFound out =
      CheckHashComp E t x (y % 2) incr bloomLookUp BLOOM_BITS BLOOM_HASHES maxFound out ∧
    (compReports E t x (y % 2) incr bloomLookUp BLOOM_BITS BLOOM_HASHES)[3]? =
      some ⟨t, E._GetHash160Comp x ((E.p - y) % 2), neg32 incr, 0, 1,
        .bloom bloomLookUp (ofInt64 BLOOM_BITS) BLOOM_HASHES⟩ ∧
    (uncompReports E t x y incr bloomLookUp BLOOM_BITS BLOOM_HASHES)[3]? =
      some ⟨t, E._GetHash160 x (E.p - y), neg32 incr, 0, 0,
        .bloom bloomLookUp (ofInt64 BLOOM_BITS) BLOOM_HASHES⟩ := by
  have hp2 : 2 ≤ E.p := (Fact.out : E.p.Prime).two_le
  have hm : ModNeg256 E.p y = E.p - y := ModNeg256_eq_sub E.p y (by omega) (by omega)
  have hpar : (E.p - y) % 2 = lnot (y % 2) := by
    unfold lnot
    split_ifs <;> omega
  have hneg := isPt_neg hP
  rw [hm] at hneg
  refine ⟨hpar, by omega, hm, hneg, ?_, ?_, ?_⟩
  · simp [CheckHash, SEARCH_COMPRESSED]
  · simp [compReports, hpar]
  · simp [uncompReports, hm]

/-- Witness of C13 on the example instance: `-(56, 4) = (56, 63)`. -/
theorem negated_point_digest_witness :
    ∃ P : (curve (exEnv 4).p).Point, IsPt (exEnv 4).p 56 4 P ∧
      ((exEnv 4).p - 4) % 2 = lnot (4 % 2) ∧ IsPt (exEnv 4).p 56 ((exEnv 4).p - 4) (-P) := by
  obtain ⟨P, -, hP, -, -, -⟩ := exSetup 4
  have H := negated_point_digest (exEnv 4) exThread 56 4 2 fullFilter 1000 3 64 (counterOnly 0)
    P hP (by decide) (by decide)
  exact ⟨P, hP, H.1, H.2.2.2.1⟩

/-! ## Mode dispatch -/

/-- C19. `CheckHash` and `CheckHash2` dispatch on `mode`: with `SEARCH_COMPRESSED`
(0) only the compressed checks run, with `isOdd = py[0] & 1`; with
`SEARCH_UNCOMPRESSED` (1) only the uncompressed checks run; with `SEARCH_BOTH` (2)
the compressed checks run, then the uncompressed checks; for every other mode
no digest is checked and the output buffer is unchanged. -/
theorem CheckHash_dispatch (E : Env) (t : Thread) (mode px py : Nat) (incr : Int)
    (bloomLookUp : Mem) (BLOOM_BITS : Int) (BLOOM_HASHES maxFound : Nat) (hash160 : Digest)
    (out : Mem) :
    SEARCH_COMPRESSED = 0 ∧ SEARCH_UNCOMPRESSED = 1 ∧ SEARCH_BOTH = 2 ∧
    (mode = 0 →
      CheckHash E t mode px py incr bloomLookUp BLOOM_BITS BLOOM_HASHES maxFound out =
        CheckHashComp E t px (py % 2) incr bloomLookUp BLOOM_BITS BLOOM_HASHES maxFound out ∧
      CheckHash2 E t mode px py incr hash160 maxFound out =
        CheckHashComp2 E t px (py % 2) incr hash160 maxFound out) ∧
    (mode = 1 →
      CheckHash E t mode px py incr bloomLookUp BLOOM_BITS BLOOM_HASHES maxFound out =
        CheckHashUncomp E t px py incr bloomLookUp BLOOM_BITS BLOOM_HASHES maxFound out ∧
      CheckHash2 E t mode px py incr hash160 maxFound out =
        CheckHashUncomp2 E t px py incr hash160 maxFound out) ∧
    (mode = 2 →
      CheckHash E t mode px py incr bloomLookUp BLOOM_BITS BLOOM_HASHES maxFound out =
        CheckHashUncomp E t px py incr bloomLookUp BLOOM_BITS BLOOM_HASHES maxFound
          (CheckHashComp E t px (py % 2) incr bloomLookUp BLOOM_BITS BLOOM_HASHES maxFound out) ∧
      CheckHash2 E t mode px py incr hash160 maxFound out =
        CheckHashUncomp2 E t px py incr hash160 maxFound
          (CheckHashComp2 E t px (py % 2) incr hash160 maxFound out) ∧
      callReports E t mode bloomLookUp BLOOM_BITS BLOOM_HASHES ⟨px, py, incr⟩ =
        callReports E t 0 bloomLookUp BLOOM_BITS BLOOM_HASHES ⟨px, py, incr⟩ ++
        callReports E t 1 bloomLookUp BLOOM_BITS BLOOM_HASHES ⟨px, py, incr⟩) ∧
    (2 < mode →
      CheckHash E t mode px py incr bloomLookUp BLOOM_BITS BLOOM_HASHES maxFound out = out ∧
      CheckHash2 E t mode px py incr hash160 maxFound out = out ∧
      callReports E t mode bloomLookUp BLOOM_BITS BLOOM_HASHES ⟨px, py, incr⟩ = []) := by
  have c01 : (0 : Nat) = SEARCH_COMPRESSED := rfl
  have c10 : (1 : Nat) ≠ SEARCH_COMPRESSED := by decide
  have c11 : (1 : Nat) = SEARCH_UNCOMPRESSED := rfl
  have c20 : (2 : Nat) ≠ SEARCH_COMPRESSED := by decide
  have c21 : (2 : Nat) ≠ SEARCH_UNCOMPRESSED := by decide
  have c22 : (2 : Nat) = SEARCH_BOTH := rfl
  refine ⟨rfl, rfl, rfl, ?_, ?_, ?_, ?_⟩
  · intro h
    subst h
    simp only [CheckHash, CheckHash2, if_pos c01, and_self]
  · intro h
    subst h
    simp only [CheckHash, CheckHash2, if_neg c10, if_pos c11, and_self]
  · intro h
    subst h
    simp only [CheckHash, CheckHash2, callReports, if_neg c20, if_neg c21, if_pos c22,
      if_pos c01, if_neg c10, if_pos c11, and_self]
  · intro h
    have h0 : mode ≠ SEARCH_COMPRESSED := by unfold SEARCH_COMPRESSED; omega
    have h1 : mode ≠ SEARCH_UNCOMPRESSED := by unfold SEARCH_UNCOMPRESSED; omega
    have h2 : mode ≠ SEARCH_BOTH := by unfold SEARCH_BOTH; omega
    simp only [CheckHash, CheckHash2, callReports, if_neg h0, if_neg h1, if_neg h2, and_self]

/-! ## Bloom filter: membership -/

theorem filterBit_eq_testBit (f : Mem) (x : Nat) :
    filterBit f x = (f (x / 8)).testBit (x % 8) := by
  unfold filterBit
  rw [Nat.testBit_to_div_mod]

theorem filterBit_setFilterBit (f : Mem) (x y : Nat) :
    filterBit (setFilterBit f x) y = (filterBit f y || decide (x = y)) := by
  rw [filterBit_eq_testBit, filterBit_eq_testBit]
  unfold setFilterBit Mem.write
  by_cases hb : y / 8 = x / 8
  · rw [if_pos hb, Nat.testBit_or, Nat.testBit_two_pow, hb]
    congr 1
    by_cases hxy : x = y
    · subst hxy
      simp
    · have : x % 8 ≠ y % 8 := by omega
      simp [this, hxy]
  · rw [if_neg hb]
    have : x ≠ y := by
      rintro rfl
      exact hb rfl
    simp [this]

theorem BloomCheck_eq_one_iff (h : Digest) (filter : Mem) (B k : Nat) (hk : k < 256) :
    BloomCheck h filter B k = 1 ↔
      ∀ i, i < k → filterBit filter (bloomIndex (murmurhash2 h.bytes 20 0x9747b28c)
        (murmurhash2 h.bytes 20 (murmurhash2 h.bytes 20 0x9747b28c)) i B) = true := by
  obtain ⟨h1, -⟩ := BloomCheck_loop_spec filter B k (murmurhash2 h.bytes 20 0x9747b28c)
    (murmurhash2 h.bytes 20 (murmurhash2 h.bytes 20 0x9747b28c)) hk k 0 (by omega)
  unfold BloomCheck
  rw [h1]
  exact ⟨fun H i hi => H i (Nat.zero_le i) hi, fun H i _ hi => H i hi⟩

theorem forUpTo_setFilterBit (g : Nat → Nat) (f : Mem) (n : Nat) :
    (∀ x, filterBit f x = true → filterBit (forUpTo n (fun i f => setFilterBit f (g i)) f) x = true)
    ∧ ∀ i, i < n → filterBit (forUpTo n (fun i f => setFilterBit f (g i)) f) (g i) = true := by
  induction n with
  | zero => exact ⟨fun x hx => hx, fun i hi => absurd hi (Nat.not_lt_zero i)⟩
  | succ n ih =>
    rw [forUpTo_succ]
    constructor
    · intro x hx
      rw [filterBit_setFilterBit, ih.1 x hx]
      rfl
    · intro i hi
      rw [filterBit_setFilterBit]
      rcases Nat.lt_or_ge i n with h | h
      · rw [ih.2 i h]
        rfl
      · have : i = n := by omega
        subst this
        simp

theorem bloomBuild_spec (S : List Digest) (B k : Nat) :
    ∀ f : Mem, (∀ x, filterBit f x = true → filterBit (bloomBuild f S B k) x = true) ∧
      ∀ h, h ∈ S → ∀ i, i < k →
        filterBit (bloomBuild f S B k) (bloomIndex (murmurhash2 h.bytes 20 0x9747b28c)
          (murmurhash2 h.bytes 20 (murmurhash2 h.bytes 20 0x9747b28c)) i B) = true := by
  induction S with
  | nil =>
    intro f
    exact ⟨fun x hx => hx, fun h hh => absurd hh (List.not_mem_nil h)⟩
  | cons s S ih =>
    intro f
    have hs := forUpTo_setFilterBit (fun i => bloomIndex (murmurhash2 s.bytes 20 0x9747b28c)
      (murmurhash2 s.bytes 20 (murmurhash2 s.bytes 20 0x9747b28c)) i B) f k
    have e : bloomBuild f (s :: S) B k = bloomBuild (bloomAdd f s B k) S B k := rfl
    rw [e]
    obtain ⟨i1, i2⟩ := ih (bloomAdd f s B k)
    constructor
    · intro x hx
      exact i1 x (hs.1 x hx)
    · intro h hh i hi
      rcases List.mem_cons.1 hh with rfl | hm
      · exact i1 _ (hs.2 i hi)
      · exact i2 h hm i hi

/-- C14. No false negatives: for every list `S` of digests, every `k` (a
`uint8_t`) and every `BLOOM_BITS > 0`, if the filter is obtained from any bit
array by setting, for each `h` in `S`, the `k` bits at the positions `BloomCheck`
probes for `h`, then `BloomCheck` returns 1 for every `h` in `S`; and setting
further bits of a filter never turns a result 1 into 0. -/
theorem BloomCheck_no_false_negative (f0 : Mem) (S : List Digest) (BLOOM_BITS k : Nat)
    (_hB : 0 < BLOOM_BITS) (hk : k < 256) :
    (∀ h, h ∈ S → BloomCheck h (bloomBuild f0 S BLOOM_BITS k) BLOOM_BITS k = 1) ∧
    (∀ (f g : Mem) (h : Digest), (∀ x, filterBit f x = true → filterBit g x = true) →
      BloomCheck h f BLOOM_BITS k = 1 → BloomCheck h g BLOOM_BITS k = 1) ∧
    (∀ (f : Mem) (h : Digest) (x : Nat),
      BloomCheck h f BLOOM_BITS k = 1 → BloomCheck h (setFilterBit f x) BLOOM_BITS k = 1) := by
  have mono : ∀ (f g : Mem) (h : Digest), (∀ x, filterBit f x = true → filterBit g x = true) →
      BloomCheck h f BLOOM_BITS k = 1 → BloomCheck h g BLOOM_BITS k = 1 := by
    intro f g h hfg hf
    rw [BloomCheck_eq_one_iff h g BLOOM_BITS k hk]
    intro i hi
    exact hfg _ ((BloomCheck_eq_one_iff h f BLOOM_BITS k hk).1 hf i hi)
  refine ⟨?_, mono, ?_⟩
  · intro h hh
    rw [BloomCheck_eq_one_iff h _ BLOOM_BITS k hk]
    exact (bloomBuild_spec S BLOOM_BITS k f0).2 h hh
  · intro f h x hf
    refine mono f _ h ?_ hf
    intro y hy
    rw [filterBit_setFilterBit, hy]
    rfl

/-- Witness of C14: a filter of 1000 bits built from two digests with `k = 3`. -/
theorem BloomCheck_no_false_negative_witness :
    BloomCheck exDigest (bloomBuild (fun _ => 0) [exDigest, ⟨1, 2, 3, 4, 5⟩] 1000 3) 1000 3 = 1 ∧
    BloomCheck ⟨1, 2, 3, 4, 5⟩ (bloomBuild (fun _ => 0) [exDigest, ⟨1, 2, 3, 4, 5⟩] 1000 3)
      1000 3 = 1 :=
  have H := BloomCheck_no_false_negative (fun _ => 0) [exDigest, ⟨1, 2, 3, 4, 5⟩] 1000 3
    (by decide) (by decide)
  ⟨H.1 _ (by simp), H.1 _ (by simp)⟩

/-! ## Bloom filter: the probed index -/

theorem bloomIndex_eq (a b i B : Nat) : bloomIndex a b i B = ((a + i * b) % 2 ^ 32) % B := by
  unfold bloomIndex
  have h1 : (a + b * i % 2 ^ 32) % 2 ^ 32 = (a + i * b) % 2 ^ 32 := by
    rw [Nat.add_mod, Nat.mod_mod, ← Nat.add_mod, Nat.mul_comm]
  rw [h1]
  exact Nat.mod_eq_of_lt (lt_of_le_of_lt (Nat.mod_le _ B) (Nat.mod_lt _ (by norm_num)))

/-- C20 (amended). For every digest `h`, every `i < k` and every
`BLOOM_BITS > 0`, the bit index probed by `BloomCheck` at step `i` is
`((a + i*b) mod 2^32) mod BLOOM_BITS`, with `a = murmurhash2(h, 20, 0x9747b28c)`
and `b = murmurhash2(h, 20, a)`: the sum is a `uint32_t` and wraps before the
reduction modulo `BLOOM_BITS`. `BloomCheck` returns 1 exactly when the bits at
these indices are set. -/
theorem BloomCheck_probe_index (h : Digest) (filter : Mem) (BLOOM_BITS k : Nat)
    (_hB : 0 < BLOOM_BITS) (hk : k < 256) :
    (∀ i, bloomIndex (murmurhash2 h.bytes 20 0x9747b28c)
        (murmurhash2 h.bytes 20 (murmurhash2 h.bytes 20 0x9747b28c)) i BLOOM_BITS =
      ((murmurhash2 h.bytes 20 0x9747b28c +
        i * murmurhash2 h.bytes 20 (murmurhash2 h.bytes 20 0x9747b28c)) % 2 ^ 32) % BLOOM_BITS) ∧
    (BloomCheck h filter BLOOM_BITS k = 1 ↔
      ∀ i, i < k → filterBit filter
        (((murmurhash2 h.bytes 20 0x9747b28c +
          i * murmurhash2 h.bytes 20 (murmurhash2 h.bytes 20 0x9747b28c)) % 2 ^ 32)
            % BLOOM_BITS) = true) := by
  refine ⟨fun i => bloomIndex_eq _ _ i BLOOM_BITS, ?_⟩
  rw [BloomCheck_eq_one_iff h filter BLOOM_BITS k hk]
  constructor
  · intro H i hi
    rw [← bloomIndex_eq]
    exact H i hi
  · intro H i hi
    rw [bloomIndex_eq]
    exact H i hi

/-- Witness of C20 (amended): the two probes of the example digest in a filter of
1000 bits are the bits 42 and 653. -/
theorem BloomCheck_probe_index_witness :
    BloomCheck exDigest wrapFilter 1000 2 = 1 ∧
    (BloomCheck exDigest wrapFilter 1000 2 = 1 ↔
      ∀ i, i < 2 → filterBit wrapFilter
        (((murmurhash2 exDigest.bytes 20 0x9747b28c +
          i * murmurhash2 exDigest.bytes 20 (murmurhash2 exDigest.bytes 20 0x9747b28c)) % 2 ^ 32)
            % 1000) = true) :=
  ⟨by decide, (BloomCheck_probe_index exDigest wrapFilter 1000 2 (by decide) (by decide)).2⟩

/-- C20 as stated fails: for the example digest `a = 3200839042` and
`b = 4264140907`, so `a + 1*b` exceeds `2^32`; with `BLOOM_BITS = 1000` the exact
sum gives bit 949 at step 1, but `BloomCheck` probes bit 653: it returns 1 on a
filter in which only the bits 42 and 653 are set and bit 949 is clear. -/
theorem BloomCheck_probe_index_counterexample :
    murmurhash2 exDigest.bytes 20 0x9747b28c = 3200839042 ∧
    murmurhash2 exDigest.bytes 20 3200839042 = 4264140907 ∧
    (3200839042 + 1 * 4264140907) % 1000 = 949 ∧
    bloomIndex 3200839042 4264140907 1 1000 = 653 ∧
    BloomCheck exDigest wrapFilter 1000 2 = 1 ∧
    filterBit wrapFilter 949 = false ∧ filterBit wrapFilter 653 = true ∧
    ¬ (BloomCheck exDigest wrapFilter 1000 2 = 1 ↔
      ∀ i, i < 2 → filterBit wrapFilter
        ((murmurhash2 exDigest.bytes 20 0x9747b28c +
          i * murmurhash2 exDigest.bytes 20 (murmurhash2 exDigest.bytes 20 0x9747b28c))
            % 1000) = true) := by
  refine ⟨by decide, by decide, by decide, by decide, by decide, by decide, by decide, ?_⟩
  intro hiff
  have h1 := hiff.1 (by decide) 1 (by decide)
  revert h1
  decide

/-! ## MurmurHash2 -/

theorem murmurhash2_loop_tail (key : Mem) (n : Nat) :
    ∀ (bytes : List Nat) (off h : Nat), bytes.length ≤ n →
      (∀ i, i < bytes.length → key (off + i) = bytes.getD i 0) →
      (∀ b, b ∈ bytes → b < 256) →
      murmurhash2_tail key (murmurhash2_loop key n off (bytes.length : Int) h).1
        (murmurhash2_loop key n off (bytes.length : Int) h).2.1
        (murmurhash2_loop key n off (bytes.length : Int) h).2.2 = murmurBody bytes h := by
  induction n with
  | zero =>
    intro bytes off h hl _ _
    have : bytes = [] := List.length_eq_zero.1 (by omega)
    subst this
    simp [murmurhash2_loop, murmurhash2_tail, murmurBody]
  | succ n ih =>
    intro bytes off h hl hkey hb
    match bytes, hl, hkey, hb with
    | [], _, _, _ => simp [murmurhash2_loop, murmurhash2_tail, murmurBody]
    | [b0], _, hkey, hb =>
      have k0 : key off = b0 := by simpa using hkey 0 (by simp)
      have l0 : b0 % 256 = b0 := Nat.mod_eq_of_lt (hb b0 (by simp))
      simp [murmurhash2_loop, murmurhash2_tail, murmurBody, k0, l0]
    | [b0, b1], _, hkey, hb =>
      have k0 : key off = b0 := by simpa using hkey 0 (by simp)
      have k1 : key (off + 1) = b1 := by simpa using hkey 1 (by simp)
      have l0 : b0 % 256 = b0 := Nat.mod_eq_of_lt (hb b0 (by simp))
      have l1 : b1 % 256 = b1 := Nat.mod_eq_of_lt (hb b1 (by simp))
      simp [murmurhash2_loop, murmurhash2_tail, murmurBody, k0, k1, l0, l1]
    | [b0, b1, b2], _, hkey, hb =>
      have k0 : key off = b0 := by simpa using hkey 0 (by simp)
      have k1 : key (off + 1) = b1 := by simpa using hkey 1 (by simp)
      have k2 : key (off + 2) = b2 := by simpa using hkey 2 (by simp)
      have l0 : b0 % 256 = b0 := Nat.mod_eq_of_lt (hb b0 (by simp))
      have l1 : b1 % 256 = b1 := Nat.mod_eq_of_lt (hb b1 (by simp))
      have l2 : b2 % 256 = b2 := Nat.mod_eq_of_lt (hb b2 (by simp))
      simp [murmurhash2_loop, murmurhash2_tail, murmurBody, k0, k1, k2, l0, l1, l2]
    | b0 :: b1 :: b2 :: b3 :: rest, hl, hkey, hb =>
      have k0 : key off = b0 := by simpa using hkey 0 (by simp)
      have k1 : key (off + 1) = b1 := by simpa using hkey 1 (by simp)
      have k2 : key (off + 2) = b2 := by simpa using hkey 2 (by simp)
      have k3 : key (off + 3) = b3 := by simpa using hkey 3 (by simp)
      have l0 : b0 % 256 = b0 := Nat.mod_eq_of_lt (hb b0 (by simp))
      have l1 : b1 % 256 = b1 := Nat.mod_eq_of_lt (hb b1 (by simp))
      have l2 : b2 % 256 = b2 := Nat.mod_eq_of_lt (hb b2 (by simp))
      have l3 : b3 % 256 = b3 := Nat.mod_eq_of_lt (hb b3 (by simp))
      have h4 : (4 : Int) ≤ ((b0 :: b1 :: b2 :: b3 :: rest).length : Int) := by
        simp only [List.length_cons]
        omega
      have hlen : (((b0 :: b1 :: b2 :: b3 :: rest).length : Nat) : Int) - 4 =
          ((rest.length : Nat) : Int) := by
        simp only [List.length_cons]
        omega
      have hrec := ih rest (off + 4)
        (murmurMix h (b0 + 2 ^ 8 * b1 + 2 ^ 16 * b2 + 2 ^ 24 * b3))
        (by simp only [List.length_cons] at hl; omega)
        (fun i hi => by
          have e : off + 4 + i = off + (i + 4) := by omega
          rw [e]
          exact (hkey (i + 4) (by simp only [List.length_cons]; omega)).trans rfl)
        (fun b hbm => hb b (by simp [hbm]))
      rw [murmurBody, ← hrec]
      simp only [murmurhash2_loop, if_pos h4, hlen, load32, k0, k1, k2, k3, l0, l1, l2, l3,
        murmurMix]

theorem load32_bytes (h : Digest) :
    load32 h.bytes 0 = h.h0 % 2 ^ 32 ∧ load32 h.bytes 4 = h.h1 % 2 ^ 32 ∧
    load32 h.bytes 8 = h.h2 % 2 ^ 32 ∧ load32 h.bytes 12 = h.h3 % 2 ^ 32 ∧
    load32 h.bytes 16 = h.h4 % 2 ^ 32 := by
  simp only [load32, Digest.bytes, Digest.word, Nat.shiftRight_eq_div_pow]
  norm_num
  refine ⟨?_, ?_, ?_, ?_, ?_⟩ <;> omega

/-- C15. For every byte string, length `len >= 0` (an `int`) and 32-bit seed,
`murmurhash2` equals the reference MurmurHash2 with `m = 0x5bd1e995` and
`r = 24`, arithmetic modulo `2^32`: `h` starts as `seed XOR len`, each full
little-endian word is mixed, the 1 to 3 tail bytes are XORed in followed by
`h *= m`, then `h ^= h >> 13`, `h *= m`, `h ^= h >> 15`. For the 20-byte digest
used by `BloomCheck` exactly five words are mixed and the tail step is skipped. -/
theorem murmurhash2_eq_ref (key : Mem) (bytes : List Nat) (seed : Nat) (h : Digest)
    (hkey : ∀ i, i < bytes.length → key i = bytes.getD i 0)
    (hbytes : ∀ b, b ∈ bytes → b < 256) (hlen : bytes.length < 2 ^ 31) (hseed : seed < 2 ^ 32)
    (hw : h.h0 < 2 ^ 32 ∧ h.h1 < 2 ^ 32 ∧ h.h2 < 2 ^ 32 ∧ h.h3 < 2 ^ 32 ∧ h.h4 < 2 ^ 32) :
    murmurhash2 key (bytes.length : Int) seed = MurmurHash2_ref bytes seed ∧
    murmurhash2 h.bytes 20 seed =
      murmurFinal (murmurMix (murmurMix (murmurMix (murmurMix (murmurMix (seed ^^^ 20) h.h0)
        h.h1) h.h2) h.h3) h.h4) := by
  constructor
  · have hl := murmurhash2_loop_tail key bytes.length bytes 0 (seed ^^^ bytes.length)
      (le_refl _) (fun i hi => by simpa using hkey i hi) hbytes
    have e1 : seed % 2 ^ 32 = seed := Nat.mod_eq_of_lt hseed
    have e2 : ofInt32 (bytes.length : Int) = bytes.length := by
      unfold ofInt32
      omega
    simp only [murmurhash2, e1, e2, Int.toNat_ofNat, MurmurHash2_ref, murmurFinal]
    rw [← hl]
  · obtain ⟨w0, w1, w2, w3, w4⟩ := load32_bytes h
    obtain ⟨a0, a1, a2, a3, a4⟩ := hw
    have e1 : seed % 2 ^ 32 = seed := Nat.mod_eq_of_lt hseed
    have e2 : ofInt32 20 = 20 := by decide
    have e3 : seed % 4294967296 = seed := Nat.mod_eq_of_lt hseed
    simp [murmurhash2, e3, murmurhash2_loop, murmurhash2_tail, murmurFinal, murmurMix, e1, e2, w0, w1,
      w2, w3, w4, Nat.mod_eq_of_lt a0, Nat.mod_eq_of_lt a1, Nat.mod_eq_of_lt a2,
      Nat.mod_eq_of_lt a3, Nat.mod_eq_of_lt a4]

/-- Witness of C15: seven bytes (one word and a tail of three) with seed 42, and
the example digest. -/
theorem murmurhash2_eq_ref_witness :
    murmurhash2 (fun k => k + 1) 7 42 = MurmurHash2_ref [1, 2, 3, 4, 5, 6, 7] 42 ∧
    MurmurHash2_ref [1, 2, 3, 4, 5, 6, 7] 42 = 692069924 :=
  ⟨(murmurhash2_eq_ref (fun k => k + 1) [1, 2, 3, 4, 5, 6, 7] 42 exDigest (by decide)
    (by decide) (by decide) (by decide) (by decide)).1, by decide⟩

/-! ## Grouped inversion, in the integers modulo `p` -/

theorem cast_ne_zero_of_mod (p : Nat) (a : Nat) (h : a % p ≠ 0) : (a : ZMod p) ≠ 0 := by
  intro h0
  rw [ZMod.natCast_zmod_eq_zero_iff_dvd] at h0
  exact h (Nat.mod_eq_zero_of_dvd h0)

theorem mod_eq_one_of_cast (p : Nat) [Fact p.Prime] (a : Nat) (h : (a : ZMod p) = 1) :
    a % p = 1 := by
  have h1 : ((a : Nat) : ZMod p) = ((1 : Nat) : ZMod p) := by simpa using h
  have h2 := (ZMod.eq_iff_modEq_nat p).1 h1
  have hp : 1 < p := (Fact.out : p.Prime).one_lt
  unfold Nat.ModEq at h2
  rw [h2, Nat.mod_eq_of_lt hp]

theorem invBackward_inverts (p : Nat) [Fact p.Prime] (N : Nat) (hN : 1 ≤ N) (D : Mem)
    (hne : ∀ k, k < N → D k % p ≠ 0) (Q : Nat) (hQ : (Q * subp p D (N - 1)) % p = 1) :
    ∀ i, i < N → (invBackward p (subp p D) (N - 1) Q D i * D i) % p = 1 := by
  have hne1 : ∀ k, k ≤ N - 1 → (D k : ZMod p) ≠ 0 :=
    fun k hk => cast_ne_zero_of_mod p _ (hne k (by omega))
  have hQ1 : (Q : ZMod p) = ((subp p D (N - 1) : Nat) : ZMod p)⁻¹ := by
    apply eq_inv_of_mul_eq_one_left
    have h1 : (((Q * subp p D (N - 1)) % p : Nat) : ZMod p) = ((1 : Nat) : ZMod p) := by rw [hQ]
    simpa using h1
  obtain ⟨h1, _⟩ := invBackward_spec D (N - 1) Q D (fun _ _ => rfl) hQ1 hne1
  intro i hi
  apply mod_eq_one_of_cast
  rw [Nat.cast_mul, h1 i (by omega)]
  exact inv_mul_cancel₀ (hne1 i (by omega))

/-- C16. The grouped inversion that the walk applies to `dx` replaces, for every
`N >= 1` and every array `D` of `N` non-zero elements of `F_p` (`p` prime), each
`D[i]` by its modular inverse: `new D[i] * old D[i] = 1 (mod p)` for all `i < N`.
It uses a single field inversion, that of the last forward product `P[N-1]`:
the result is the backward pass started from `Q = _ModInv(P[N-1])`, and the
backward pass started from any `Q` with `Q * P[N-1] = 1 (mod p)` inverts as well. -/
theorem ModInvGrouped_inverts (p : Nat) [Fact p.Prime] (N : Nat) (hN : 1 ≤ N) (D : Mem)
    (hne : ∀ k, k < N → D k % p ≠ 0) :
    (∀ i, i < N → (_ModInvGrouped p N D i * D i) % p = 1) ∧
    _ModInvGrouped p N D = invBackward p (subp p D) (N - 1) (_ModInv p (subp p D (N - 1))) D ∧
    (_ModInv p (subp p D (N - 1)) * subp p D (N - 1)) % p = 1 ∧
    (∀ Q, (Q * subp p D (N - 1)) % p = 1 →
      ∀ i, i < N → (invBackward p (subp p D) (N - 1) Q D i * D i) % p = 1) := by
  have hne1 : ∀ k, k ≤ N - 1 → (D k : ZMod p) ≠ 0 :=
    fun k hk => cast_ne_zero_of_mod p _ (hne k (by omega))
  have hP : ((subp p D (N - 1) : Nat) : ZMod p) ≠ 0 := cast_subp_ne_zero D (N - 1) hne1
  have hinv : (_ModInv p (subp p D (N - 1)) * subp p D (N - 1)) % p = 1 := by
    apply mod_eq_one_of_cast
    rw [Nat.cast_mul, cast_ModInv _ hP]
    exact inv_mul_cancel₀ hP
  exact ⟨invBackward_inverts p N hN D hne _ hinv, rfl, hinv,
    fun Q hQ => invBackward_inverts p N hN D hne Q hQ⟩

/-- Witness of C16: three elements modulo 67. -/
theorem ModInvGrouped_inverts_witness :
    (∀ i, i < 3 → (_ModInvGrouped 67 3 (fun k => k + 2) i * (i + 2)) % 67 = 1) ∧
    _ModInvGrouped 67 3 (fun k => k + 2) 0 = 34 ∧
    _ModInvGrouped 67 3 (fun k => k + 2) 1 = 45 ∧
    _ModInvGrouped 67 3 (fun k => k + 2) 2 = 17 :=
  ⟨(ModInvGrouped_inverts 67 3 (by decide) (fun k => k + 2)
    (fun k hk => by show (k + 2) % 67 ≠ 0; omega)).1, by decide, by decide, by decide⟩

/-! ## The fast path walks like `ComputeKeys` -/

theorem ComputeKeysComp_group_point {σ : Type} (E : Env) (checkx : Nat → Nat → σ → σ)
    (sx sy j : Nat) (r : WalkRegs σ) :
    (ComputeKeysComp_group E checkx sx sy j r).px = (nextCentre E sx sy).1 ∧
    (ComputeKeysComp_group E checkx sx sy j r).py = (nextCentre E sx sy).2 := by
  simp [ComputeKeysComp_group, nextCentre, posPoint, groupDx]

theorem ComputeKeysComp_walk_point {σ : Type} (E : Env) (checkx : Nat → Nat → σ → σ)
    (sx sy : Nat) (acc : σ) :
    (ComputeKeysComp_walk E checkx sx sy acc).px =
      (entryPoint E sx sy (E.STEP_SIZE / E.GRP_SIZE)).1 ∧
    (ComputeKeysComp_walk E checkx sx sy acc).py =
      (entryPoint E sx sy (E.STEP_SIZE / E.GRP_SIZE)).2 := by
  simp only [ComputeKeysComp_walk]
  cases h : E.STEP_SIZE / E.GRP_SIZE with
  | zero => simp [forUpTo_zero, entryPoint]
  | succ n =>
    rw [forUpTo_succ]
    simpa [entryPoint] using ComputeKeysComp_group_point E checkx sx sy n _

/-- C18. The four kernel variants perform the same walk: for every loaded start
point and tables, `ComputeKeys` (for every mode value), `ComputeKeys2`,
`ComputeKeysComp` and `ComputeKeysComp2` store the same `(startx, starty)`, the
point `entryPoint` that is a function of the tables and the start point alone:
it does not depend on the Bloom filter, the target `hash160`, `maxFound` or the
contents of the output buffer. -/
theorem kernels_store_same_point (E : Env) (t : Thread) (mode sx sy : Nat) (bloomLookUp : Mem)
    (BLOOM_BITS : Int) (BLOOM_HASHES maxFound : Nat) (hash160 : Digest) (out : Mem) :
    ((ComputeKeys E t mode sx sy bloomLookUp BLOOM_BITS BLOOM_HASHES maxFound out).1,
      (ComputeKeys E t mode sx sy bloomLookUp BLOOM_BITS BLOOM_HASHES maxFound out).2.1) =
        entryPoint E sx sy (E.STEP_SIZE / E.GRP_SIZE) ∧
    ((ComputeKeys2 E t mode sx sy hash160 maxFound out).1,
      (ComputeKeys2 E t mode sx sy hash160 maxFound out).2.1) =
        entryPoint E sx sy (E.STEP_SIZE / E.GRP_SIZE) ∧
    ((ComputeKeysComp E t sx sy bloomLookUp BLOOM_BITS BLOOM_HASHES maxFound out).1,
      (ComputeKeysComp E t sx sy bloomLookUp BLOOM_BITS BLOOM_HASHES maxFound out).2.1) =
        entryPoint E sx sy (E.STEP_SIZE / E.GRP_SIZE) ∧
    ((ComputeKeysComp2 E t sx sy hash160 maxFound out).1,
      (ComputeKeysComp2 E t sx sy hash160 maxFound out).2.1) =
        entryPoint E sx sy (E.STEP_SIZE / E.GRP_SIZE) := by
  refine ⟨?_, ?_, ?_, ?_⟩
  · exact Prod.ext (ComputeKeys_walk_point E _ sx sy out).1 (ComputeKeys_walk_point E _ sx sy out).2
  · exact Prod.ext (ComputeKeys_walk_point E _ sx sy out).1 (ComputeKeys_walk_point E _ sx sy out).2
  · exact Prod.ext (ComputeKeysComp_walk_point E _ sx sy out).1
      (ComputeKeysComp_walk_point E _ sx sy out).2
  · exact Prod.ext (ComputeKeysComp_walk_point E _ sx sy out).1
      (ComputeKeysComp_walk_point E _ sx sy out).2

/-! ## The report stream of the fast path -/

theorem toInt32_negWord (w : Nat) : toInt32 (negWord w) = neg32 (toInt32 w) := by
  unfold neg32 toInt32 negWord ofInt32
  split_ifs <;> omega

theorem neg32_neg32 (w : Nat) : neg32 (neg32 (toInt32 w)) = toInt32 w := by
  unfold neg32 toInt32 ofInt32
  split_ifs <;> omega

theorem ComputeKeysComp_step_acc {σ : Type} (E : Env) (checkx : Nat → Nat → σ → σ)
    (sx sy pyn : Nat) (dx : Mem) (j i : Nat) (r r2 : WalkRegs σ) (h : r.acc = r2.acc) :
    (ComputeKeysComp_step E checkx sx sy pyn dx j i r).acc =
      (ComputeKeys_step E (fun w px _ a => checkx w px a) sx sy pyn dx j i r2).acc := by
  simp only [ComputeKeysComp_step, ComputeKeys_step, CHECK_PREFIX, h]

theorem ComputeKeysComp_group_eq {σ : Type} (E : Env) (checkx : Nat → Nat → σ → σ)
    (sx sy j : Nat) (r : WalkRegs σ) :
    ComputeKeysComp_group E checkx sx sy j r =
      ComputeKeys_group E (fun w px _ a => checkx w px a) sx sy j r := by
  have hloop := forUpTo_rel (fun (a b : WalkRegs σ) => a.acc = b.acc)
    (ComputeKeysComp_step E checkx sx sy (ModNeg256 E.p r.py)
      (_ModInvGrouped E.p (E.GRP_SIZE / 2 + 1) (fillDx E sx)) j)
    (ComputeKeys_step E (fun w px _ a => checkx w px a) sx sy (ModNeg256 E.p r.py)
      (_ModInvGrouped E.p (E.GRP_SIZE / 2 + 1) (fillDx E sx)) j)
    (fun i a b hab => ComputeKeysComp_step_acc E checkx sx sy _ _ j i a b hab) E.HSIZE
    ⟨r.px, r.py, checkx ((j * E.GRP_SIZE + E.GRP_SIZE / 2) % 2 ^ 32) r.px r.acc⟩
    ⟨r.px, r.py, checkx ((j * E.GRP_SIZE + E.GRP_SIZE / 2) % 2 ^ 32) r.px r.acc⟩ rfl
  simp only [ComputeKeysComp_group, ComputeKeys_group, CHECK_PREFIX]
  simp only at hloop
  rw [hloop]

theorem ComputeKeysComp_walk_eq {σ : Type} (E : Env) (checkx : Nat → Nat → σ → σ)
    (sx sy : Nat) (acc : σ) :
    ComputeKeysComp_walk E checkx sx sy acc =
      ComputeKeys_walk E (fun w px _ a => checkx w px a) sx sy acc := by
  simp only [ComputeKeysComp_walk, ComputeKeys_walk]
  congr 1
  funext j r
  exact ComputeKeysComp_group_eq E checkx sx sy j r

/-- The state left by the walk of `ComputeKeys` with any check is the check
folded over the logged calls. -/
theorem ComputeKeys_walk_fold {σ : Type} (E : Env) (f : Int → Nat → Nat → σ → σ)
    (sx sy : Nat) (acc0 : σ) :
    (ComputeKeys_walk E (fun w px py a => f (toInt32 w) px py a) sx sy acc0).acc =
      (ComputeKeys_calls E sx sy).foldl (fun a c => f c.incr c.px c.py a) acc0 := by
  have h := forUpTo_rel (LogRel f acc0)
    (ComputeKeys_group E (fun w px py a => f (toInt32 w) px py a) sx sy)
    (ComputeKeys_group E logCall sx sy)
    (fun j a b hab => ComputeKeys_group_logRel E f acc0 sx sy j a b hab)
    (E.STEP_SIZE / E.GRP_SIZE) ⟨sx, sy, acc0⟩ ⟨sx, sy, []⟩ ⟨rfl, rfl, rfl⟩
  obtain ⟨-, -, h3⟩ := h
  simp only [ComputeKeys_calls, ComputeKeys_walk]
  rw [h3]

theorem CHECK_P2PKH_POINT_eq_runReports (E : Env) (t : Thread) (m : Matcher) (w px maxFound : Nat)
    (out : Mem) :
    CHECK_P2PKH_POINT E (fun h incr endo mode out =>
        Report.apply maxFound out ⟨t, h, incr, endo, mode, m⟩) w px out =
      runReports maxFound out (symReports E t px (toInt32 w) m) := by
  simp only [CHECK_P2PKH_POINT, toInt32_negWord]
  rfl

theorem foldl_symReports (E : Env) (t : Thread) (m : Matcher) (maxFound : Nat) (cs : List Call)
    (out : Mem) :
    cs.foldl (fun out c => runReports maxFound out (symReports E t c.px c.incr m)) out =
      runReports maxFound out (cs.flatMap (fun c => symReports E t c.px c.incr m)) := by
  induction cs generalizing out with
  | nil => rfl
  | cons c cs ih => rw [List.foldl_cons, ih, List.flatMap_cons, runReports_append_list]

/-- The output buffer of the fast path with matcher `m` is the buffer after the
reports of `CHECK_P2PKH_POINT` on the walk points of `ComputeKeys`. -/
theorem ComputeKeysComp_walk_eq_runReports (E : Env) (t : Thread) (m : Matcher)
    (sx sy maxFound : Nat) (out : Mem) :
    (ComputeKeysComp_walk E (CHECK_P2PKH_POINT E (fun h incr endo mode out =>
        Report.apply maxFound out ⟨t, h, incr, endo, mode, m⟩)) sx sy out).acc =
      runReports maxFound out
        ((ComputeKeys_calls E sx sy).flatMap (fun c => symReports E t c.px c.incr m)) := by
  have hfun : (fun (w px _py : Nat) (a : Mem) => CHECK_P2PKH_POINT E (fun h incr endo mode out =>
        Report.apply maxFound out ⟨t, h, incr, endo, mode, m⟩) w px a) =
      (fun (w px _py : Nat) (a : Mem) =>
        runReports maxFound a (symReports E t px (toInt32 w) m)) := by
    funext w px _ a
    exact CHECK_P2PKH_POINT_eq_runReports E t m w px maxFound a
  rw [ComputeKeysComp_walk_eq, ← foldl_symReports, hfun]
  exact ComputeKeys_walk_fold E
    (fun incr px _ out => runReports maxFound out (symReports E t px incr m)) sx sy out

theorem perm_interleave {α : Type} (a0 d0 a1 d1 a2 d2 : α) :
    [a0, d0, a1, d1, a2, d2].Perm [a0, a1, a2, d0, d1, d2] :=
  List.Perm.cons a0
    ((List.Perm.swap a1 d0 _).trans
      ((((List.Perm.swap a2 d1 _).cons d0).cons a1).trans ((List.Perm.swap a2 d0 _).cons a1)))

theorem perm_interleave2 {α : Type} (a0 d0 a1 d1 a2 d2 : α) :
    [a0, d0, a1, d1, a2, d2].Perm [d0, d1, d2, a0, a1, a2] :=
  (perm_interleave a0 d0 a1 d1 a2 d2).trans
    (List.perm_append_comm : ([a0, a1, a2] ++ [d0, d1, d2]).Perm ([d0, d1, d2] ++ [a0, a1, a2]))

theorem symReports_perm (E : Env) (t : Thread) (x : Nat) (incr : Int) (m : Matcher)
    (bloomLookUp : Mem) (BLOOM_BITS : Int) (BLOOM_HASHES : Nat)
    (hsym : ∀ x, E._GetHash160CompSym x = (E._GetHash160Comp x 0, E._GetHash160Comp x 1)) :
    (symReports E t x incr m).Perm
      ((compReports E t x 0 incr bloomLookUp BLOOM_BITS BLOOM_HASHES).map
        (Report.withMatcher m)) := by
  simp only [symReports, compReports, hsym, List.map, Report.withMatcher]
  exact perm_interleave _ _ _ _ _ _

theorem symReports_perm_odd (E : Env) (t : Thread) (x w : Nat) (m : Matcher)
    (bloomLookUp : Mem) (BLOOM_BITS : Int) (BLOOM_HASHES : Nat)
    (hsym : ∀ x, E._GetHash160CompSym x = (E._GetHash160Comp x 0, E._GetHash160Comp x 1)) :
    (symReports E t x (neg32 (toInt32 w)) m).Perm
      ((compReports E t x 1 (toInt32 w) bloomLookUp BLOOM_BITS BLOOM_HASHES).map
        (Report.withMatcher m)) := by
  have e : lnot 1 = 0 := rfl
  simp only [symReports, compReports, hsym, List.map, Report.withMatcher, neg32_neg32, e]
  exact perm_interleave2 _ _ _ _ _ _

theorem CheckHashComp2_eq_runReports (E : Env) (t : Thread) (px isOdd : Nat) (incr : Int)
    (hash160 : Digest) (bloomLookUp : Mem) (BLOOM_BITS : Int) (BLOOM_HASHES maxFound : Nat)
    (out : Mem) :
    CheckHashComp2 E t px isOdd incr hash160 maxFound out =
      runReports maxFound out
        ((compReports E t px isOdd incr bloomLookUp BLOOM_BITS BLOOM_HASHES).map
          (Report.withMatcher (.exact hash160))) := rfl

theorem foldl_runReports_flatMap (maxFound : Nat) (g : Call → List Report) (cs : List Call)
    (out : Mem) :
    cs.foldl (fun out c => runReports maxFound out (g c)) out =
      runReports maxFound out (cs.flatMap g) := by
  induction cs generalizing out with
  | nil => rfl
  | cons c cs ih => rw [List.foldl_cons, ih, List.flatMap_cons, runReports_append_list]

theorem ComputeKeys2_compressed_eq_runReports (E : Env) (t : Thread) (sx sy : Nat)
    (hash160 : Digest) (bloomLookUp : Mem) (BLOOM_BITS : Int) (BLOOM_HASHES maxFound : Nat)
    (out : Mem) :
    (ComputeKeys2 E t SEARCH_COMPRESSED sx sy hash160 maxFound out).2.2 =
      runReports maxFound out ((ComputeKeys_calls E sx sy).flatMap (fun c =>
        (compReports E t c.px (c.py % 2) c.incr bloomLookUp BLOOM_BITS BLOOM_HASHES).map
          (Report.withMatcher (.exact hash160)))) := by
  have h := ComputeKeys_walk_fold E
    (fun incr px py out => CheckHash2 E t SEARCH_COMPRESSED px py incr hash160 maxFound out)
    sx sy out
  rw [← foldl_runReports_flatMap]
  simp only [ComputeKeys2]
  rw [h]
  rfl

/-- C17 (amended). `CHECK_P2PKH_POINT` reads only `px`: with `_GetHash160CompSym x`
returning the compressed digests of `x` with even and with odd parity, the fast
path submits, for every walk point and endomorphism index, the even-parity digest
with `+incr` and the odd-parity digest with `-incr`, mode bit 1. Its output is
the report stream of these calls over the walk points of `ComputeKeys`. At a walk
point with even `y` the reports are a permutation of those of mode
`SEARCH_COMPRESSED` (digest of `P` with `+incr`, of `-P` with `-incr`); at a walk
point with odd `y` they are a permutation of the compressed reports with the
increment negated (digest of `P` with `-incr`, of `-P` with `+incr`). -/
theorem ComputeKeysComp_reports (E : Env) (t : Thread) (sx sy : Nat) (bloomLookUp : Mem)
    (BLOOM_BITS : Int) (BLOOM_HASHES maxFound : Nat) (hash160 : Digest) (out : Mem)
    (hsym : ∀ x, E._GetHash160CompSym x = (E._GetHash160Comp x 0, E._GetHash160Comp x 1)) :
    (ComputeKeysComp E t sx sy bloomLookUp BLOOM_BITS BLOOM_HASHES maxFound out).2.2 =
      runReports maxFound out ((ComputeKeys_calls E sx sy).flatMap (fun c =>
        symReports E t c.px c.incr (.bloom bloomLookUp (ofInt64 BLOOM_BITS) BLOOM_HASHES))) ∧
    (ComputeKeysComp2 E t sx sy hash160 maxFound out).2.2 =
      runReports maxFound out ((ComputeKeys_calls E sx sy).flatMap (fun c =>
        symReports E t c.px c.incr (.exact hash160))) ∧
    (ComputeKeys E t SEARCH_COMPRESSED sx sy bloomLookUp BLOOM_BITS BLOOM_HASHES maxFound out).2.2 =
      runReports maxFound out ((ComputeKeys_calls E sx sy).flatMap (fun c =>
        compReports E t c.px (c.py % 2) c.incr bloomLookUp BLOOM_BITS BLOOM_HASHES)) ∧
    (ComputeKeys2 E t SEARCH_COMPRESSED sx sy hash160 maxFound out).2.2 =
      runReports maxFound out ((ComputeKeys_calls E sx sy).flatMap (fun c =>
        (compReports E t c.px (c.py % 2) c.incr bloomLookUp BLOOM_BITS BLOOM_HASHES).map
          (Report.withMatcher (.exact hash160)))) ∧
    (∀ (x y : Nat) (incr : Int) (m : Matcher), y % 2 = 0 →
      (E._GetHash160CompSym x).1 = E._GetHash160Comp x (y % 2) ∧
      (E._GetHash160CompSym x).2 = E._GetHash160Comp x (lnot (y % 2)) ∧
      (symReports E t x incr m).Perm
        ((compReports E t x (y % 2) incr bloomLookUp BLOOM_BITS BLOOM_HASHES).map
          (Report.withMatcher m))) ∧
    (∀ (x y w : Nat) (m : Matcher), y % 2 = 1 →
      (E._GetHash160CompSym x).1 = E._GetHash160Comp x (lnot (y % 2)) ∧
      (E._GetHash160CompSym x).2 = E._GetHash160Comp x (y % 2) ∧
      (symReports E t x (neg32 (toInt32 w)) m).Perm
        ((compReports E t x (y % 2) (toInt32 w) bloomLookUp BLOOM_BITS BLOOM_HASHES).map
          (Report.withMatcher m))) ∧
    ((∀ c, c ∈ ComputeKeys_calls E sx sy → c.py % 2 = 0) →
      ((ComputeKeys_calls E sx sy).flatMap (fun c =>
        symReports E t c.px c.incr (.exact hash160))).Perm
      ((ComputeKeys_calls E sx sy).flatMap (fun c =>
        (compReports E t c.px (c.py % 2) c.incr bloomLookUp BLOOM_BITS BLOOM_HASHES).map
          (Report.withMatcher (.exact hash160))))) := by
  refine ⟨?_, ?_, ?_, ?_, ?_, ?_, ?_⟩
  · exact ComputeKeysComp_walk_eq_runReports E t
      (.bloom bloomLookUp (ofInt64 BLOOM_BITS) BLOOM_HASHES) sx sy maxFound out
  · exact ComputeKeysComp_walk_eq_runReports E t (.exact hash160) sx sy maxFound out
  · rw [ComputeKeys_out_eq_runReports]
    rfl
  · exact ComputeKeys2_compressed_eq_runReports E t sx sy hash160 bloomLookUp BLOOM_BITS
      BLOOM_HASHES maxFound out
  · intro x y incr m hy
    rw [hy, hsym]
    exact ⟨rfl, rfl, symReports_perm E t x incr m bloomLookUp BLOOM_BITS BLOOM_HASHES hsym⟩
  · intro x y w m hy
    rw [hy, hsym]
    exact ⟨rfl, rfl, symReports_perm_odd E t x w m bloomLookUp BLOOM_BITS BLOOM_HASHES hsym⟩
  · intro hall
    apply List.Perm.flatMap_left
    intro c hc
    rw [hall c hc]
    exact symReports_perm E t c.px c.incr _ bloomLookUp BLOOM_BITS BLOOM_HASHES hsym

/-- Witness of C17 (amended): the example instance, whose `_GetHash160CompSym`
returns the even and the odd compressed digest; start point `(56, 4)`, target
the compressed digest of the start point. -/
theorem ComputeKeysComp_reports_witness :
    (ComputeKeysComp2 (exEnv 4) exThread 56 4 ⟨56, 0, 0, 0, 0⟩ 4 (counterOnly 0)).2.2 =
      runReports 4 (counterOnly 0) ((ComputeKeys_calls (exEnv 4) 56 4).flatMap (fun c =>
        symReports (exEnv 4) exThread c.px c.incr (.exact ⟨56, 0, 0, 0, 0⟩))) ∧
    (ComputeKeysComp2 (exEnv 4) exThread 56 4 ⟨56, 0, 0, 0, 0⟩ 4 (counterOnly 0)).2.2 0 = 1 ∧
    metaIncr ((ComputeKeysComp2 (exEnv 4) exThread 56 4 ⟨56, 0, 0, 0, 0⟩ 4
      (counterOnly 0)).2.2 2) = 2 ∧
    metaIncr ((ComputeKeys2 (exEnv 4) exThread SEARCH_COMPRESSED 56 4 ⟨56, 0, 0, 0, 0⟩ 4
      (counterOnly 0)).2.2 2) = 2 :=
  ⟨(ComputeKeysComp_reports (exEnv 4) exThread 56 4 fullFilter 1000 3 4 ⟨56, 0, 0, 0, 0⟩
    (counterOnly 0) (fun _ => rfl)).2.1, by decide, by decide, by decide⟩

/-- C17 as stated fails: the start point `(62, 63)` of the example curve has an
odd `y`. Its compressed digest is submitted by `ComputeKeys2` in mode
`SEARCH_COMPRESSED` with increment `+2` and by `ComputeKeysComp2` with increment
`-2`: each kernel writes one record for this target, with the same digest and
different signed increments. -/
theorem ComputeKeysComp_reports_counterexample :
    onCurve 67 62 63 ∧
    (exEnv 4)._GetHash160Comp 62 (63 % 2) = ⟨62, 1, 0, 0, 0⟩ ∧
    (exEnv 4)._GetHash160CompSym 62 =
      ((exEnv 4)._GetHash160Comp 62 0, (exEnv 4)._GetHash160Comp 62 1) ∧
    (ComputeKeys2 (exEnv 4) exThread SEARCH_COMPRESSED 62 63 ⟨62, 1, 0, 0, 0⟩ 4
      (counterOnly 0)).2.2 0 = 1 ∧
    (ComputeKeysComp2 (exEnv 4) exThread 62 63 ⟨62, 1, 0, 0, 0⟩ 4 (counterOnly 0)).2.2 0 = 1 ∧
    (ComputeKeys2 (exEnv 4) exThread SEARCH_COMPRESSED 62 63 ⟨62, 1, 0, 0, 0⟩ 4
      (counterOnly 0)).2.2 3 = 62 ∧
    (ComputeKeysComp2 (exEnv 4) exThread 62 63 ⟨62, 1, 0, 0, 0⟩ 4 (counterOnly 0)).2.2 3 = 62 ∧
    (ComputeKeys2 (exEnv 4) exThread SEARCH_COMPRESSED 62 63 ⟨62, 1, 0, 0, 0⟩ 4
      (counterOnly 0)).2.2 4 = 1 ∧
    (ComputeKeysComp2 (exEnv 4) exThread 62 63 ⟨62, 1, 0, 0, 0⟩ 4 (counterOnly 0)).2.2 4 = 1 ∧
    metaIncr ((ComputeKeys2 (exEnv 4) exThread SEARCH_COMPRESSED 62 63 ⟨62, 1, 0, 0, 0⟩ 4
      (counterOnly 0)).2.2 2) = 2 ∧
    metaIncr ((ComputeKeysComp2 (exEnv 4) exThread 62 63 ⟨62, 1, 0, 0, 0⟩ 4
      (counterOnly 0)).2.2 2) = -2 ∧
    (symReports (exEnv 4) exThread 62 2 (.exact ⟨62, 1, 0, 0, 0⟩))[0]?.map Report.tag =
      some (⟨62, 0, 0, 0, 0⟩, 2, 0, 1) ∧
    (compReports (exEnv 4) exThread 62 (63 % 2) 2 fullFilter 1000 3)[0]?.map Report.tag =
      some (⟨62, 1, 0, 0, 0⟩, 2, 0, 1) := by
  refine ⟨by decide, by decide, by decide, by decide, by decide, by decide, by decide, by decide,
    by decide, by decide, by decide, by decide, by decide⟩

/-! ## The labels of a group and of a whole call -/

theorem groupCalls_incr_map (E : Env) (sx sy j px py : Nat) (hG2 : 2 ≤ E.GRP_SIZE)
    (hev : E.GRP_SIZE % 2 = 0) (hsmall : (j + 1) * E.GRP_SIZE < 2 ^ 31) :
    (ComputeKeys_groupCalls E sx sy j px py).map Call.incr =
      (List.range E.GRP_SIZE).map
        (fun idx => ((j * E.GRP_SIZE + E.GRP_SIZE / 2 : Nat) : Int) + groupOffset E.GRP_SIZE idx) := by
  have hlen : (ComputeKeys_groupCalls E sx sy j px py).length = E.GRP_SIZE := by
    rw [ComputeKeys_groupCalls_length]
    unfold Env.HSIZE
    omega
  apply List.ext_getElem?
  intro n
  by_cases hn : n < E.GRP_SIZE
  · obtain ⟨c, hc, hi⟩ := groupCalls_incr E sx sy j px py hG2 hev hsmall n hn
    rw [List.getElem?_map, hc, List.getElem?_map, List.getElem?_range hn]
    simp only [Option.map_some']
    rw [hi]
  · rw [List.getElem?_eq_none (by simp only [List.length_map]; omega),
      List.getElem?_eq_none (by simp only [List.length_map, List.length_range]; omega)]

theorem groupOffset_labels_perm (G : Nat) (base : Int) (hG2 : 2 ≤ G) (hev : G % 2 = 0) :
    ((List.range G).map (fun idx => base + ((G / 2 : Nat) : Int) + groupOffset G idx)).Perm
      ((List.range G).map (fun t => base + ((t : Nat) : Int))) := by
  have d1 : ((List.range G).map
      (fun idx => base + ((G / 2 : Nat) : Int) + groupOffset G idx)).Nodup := by
    refine List.Nodup.map_on ?_ (List.nodup_range G)
    intro x hx y hy hxy
    exact groupOffset_injective G x y hG2 hev (List.mem_range.1 hx) (List.mem_range.1 hy)
      (by omega)
  have d2 : ((List.range G).map (fun t => base + ((t : Nat) : Int))).Nodup := by
    refine List.Nodup.map_on ?_ (List.nodup_range G)
    intro x _ y _ hxy
    omega
  rw [List.perm_ext_iff_of_nodup d1 d2]
  intro a
  simp only [List.mem_map, List.mem_range]
  constructor
  · rintro ⟨idx, hidx, rfl⟩
    obtain ⟨r1, r2⟩ := groupOffset_range G idx hG2 hev hidx
    refine ⟨(((G / 2 : Nat) : Int) + groupOffset G idx).toNat, by omega, by omega⟩
  · rintro ⟨t, ht, rfl⟩
    obtain ⟨idx, hidx, hk⟩ := groupOffset_surjective G ((t : Int) - ((G / 2 : Nat) : Int)) hG2 hev
      (by omega) (by omega)
    exact ⟨idx, hidx, by omega⟩

theorem flatMap_range_blocks (G m : Nat) :
    (List.range m).flatMap (fun j => (List.range G).map (fun t => ((j * G + t : Nat) : Int))) =
      (List.range (m * G)).map (fun n => ((n : Nat) : Int)) := by
  induction m with
  | zero => simp
  | succ m ih =>
    rw [List.range_succ, List.flatMap_append, ih, Nat.succ_mul, List.range_add, List.map_append,
      List.map_map]
    simp [Function.comp_def]

theorem groupCalls_labels_perm (E : Env) (sx sy j px py : Nat) (hG2 : 2 ≤ E.GRP_SIZE)
    (hev : E.GRP_SIZE % 2 = 0) (hsmall : (j + 1) * E.GRP_SIZE < 2 ^ 31) :
    ((ComputeKeys_groupCalls E sx sy j px py).map Call.incr).Perm
      ((List.range E.GRP_SIZE).map (fun t => ((j * E.GRP_SIZE + t : Nat) : Int))) := by
  rw [groupCalls_incr_map E sx sy j px py hG2 hev hsmall]
  have h := groupOffset_labels_perm E.GRP_SIZE ((j * E.GRP_SIZE : Nat) : Int) hG2 hev
  have e1 : (fun idx => ((j * E.GRP_SIZE + E.GRP_SIZE / 2 : Nat) : Int) +
      groupOffset E.GRP_SIZE idx) =
      (fun idx => ((j * E.GRP_SIZE : Nat) : Int) + ((E.GRP_SIZE / 2 : Nat) : Int) +
        groupOffset E.GRP_SIZE idx) := by
    funext idx
    push_cast
    ring
  have e2 : (fun t => ((j * E.GRP_SIZE + t : Nat) : Int)) =
      (fun t => ((j * E.GRP_SIZE : Nat) : Int) + ((t : Nat) : Int)) := by
    funext t
    push_cast
    ring
  rw [e1, e2]
  exact h

/-- The labels of `ComputeKeys` by position: for `GRP_SIZE` even and at least 2,
`STEP_SIZE` a multiple of `GRP_SIZE` and below `2^31`, the call at position `idx`
of group `j` is passed `j*GRP_SIZE + GRP_SIZE/2 + groupOffset idx`; the labels of
a group are the integers `j*GRP_SIZE + t`, `t = 0 .. GRP_SIZE-1`, each once, and
those of a whole call are `0 .. STEP_SIZE-1` without repetition. -/
theorem ComputeKeys_labels (E : Env) (sx sy : Nat) (hG2 : 2 ≤ E.GRP_SIZE)
    (hev : E.GRP_SIZE % 2 = 0) (hdiv : E.STEP_SIZE % E.GRP_SIZE = 0)
    (hsmall : E.STEP_SIZE < 2 ^ 31) :
    (∀ j px py, j < E.STEP_SIZE / E.GRP_SIZE →
      (ComputeKeys_groupCalls E sx sy j px py).length = E.GRP_SIZE ∧
      (∀ idx, idx < E.GRP_SIZE → ∃ c,
        (ComputeKeys_groupCalls E sx sy j px py)[idx]? = some c ∧
        c.incr = ((j * E.GRP_SIZE : Nat) : Int) +
          (((E.GRP_SIZE / 2 : Nat) : Int) + groupOffset E.GRP_SIZE idx)) ∧
      ((ComputeKeys_groupCalls E sx sy j px py).map Call.incr).Perm
        ((List.range E.GRP_SIZE).map (fun t => ((j * E.GRP_SIZE + t : Nat) : Int)))) ∧
    (∀ idx, idx < E.GRP_SIZE → -((E.GRP_SIZE / 2 : Nat) : Int) ≤ groupOffset E.GRP_SIZE idx ∧
      groupOffset E.GRP_SIZE idx < ((E.GRP_SIZE / 2 : Nat) : Int)) ∧
    (∀ k : Int, -((E.GRP_SIZE / 2 : Nat) : Int) ≤ k → k < ((E.GRP_SIZE / 2 : Nat) : Int) →
      ∃ idx, idx < E.GRP_SIZE ∧ groupOffset E.GRP_SIZE idx = k ∧
        ∀ idx1, idx1 < E.GRP_SIZE → groupOffset E.GRP_SIZE idx1 = k → idx1 = idx) ∧
    ((ComputeKeys_calls E sx sy).map Call.incr).Perm
      ((List.range E.STEP_SIZE).map (fun n => ((n : Nat) : Int))) ∧
    ((ComputeKeys_calls E sx sy).map Call.incr).Nodup := by
  have hjs : ∀ j, j < E.STEP_SIZE / E.GRP_SIZE → (j + 1) * E.GRP_SIZE < 2 ^ 31 := by
    intro j hj
    have h1 : (j + 1) * E.GRP_SIZE ≤ (E.STEP_SIZE / E.GRP_SIZE) * E.GRP_SIZE :=
      Nat.mul_le_mul_right _ hj
    have h2 := Nat.div_mul_le_self E.STEP_SIZE E.GRP_SIZE
    omega
  have hwhole : ((ComputeKeys_calls E sx sy).map Call.incr).Perm
      ((List.range E.STEP_SIZE).map (fun n => ((n : Nat) : Int))) := by
    have hS : (E.STEP_SIZE / E.GRP_SIZE) * E.GRP_SIZE = E.STEP_SIZE :=
      Nat.div_mul_cancel (Nat.dvd_of_mod_eq_zero hdiv)
    rw [ComputeKeys_calls_eq, List.map_flatMap]
    rw [← hS, ← flatMap_range_blocks, hS]
    apply List.Perm.flatMap_left
    intro j hj
    exact groupCalls_labels_perm E sx sy j _ _ hG2 hev (hjs j (List.mem_range.1 hj))
  refine ⟨?_, fun idx hidx => groupOffset_range E.GRP_SIZE idx hG2 hev hidx, ?_, hwhole, ?_⟩
  · intro j px py hj
    refine ⟨?_, ?_, groupCalls_labels_perm E sx sy j px py hG2 hev (hjs j hj)⟩
    · rw [ComputeKeys_groupCalls_length]
      unfold Env.HSIZE
      omega
    · intro idx hidx
      obtain ⟨c, hc, hi⟩ := groupCalls_incr E sx sy j px py hG2 hev (hjs j hj) idx hidx
      refine ⟨c, hc, ?_⟩
      rw [hi]
      push_cast
      ring
  · intro k hlo hhi
    obtain ⟨idx, hidx, hk⟩ := groupOffset_surjective E.GRP_SIZE k hG2 hev hlo hhi
    exact ⟨idx, hidx, hk, fun idx1 h1 hk1 =>
      groupOffset_injective E.GRP_SIZE idx1 idx hG2 hev h1 hidx (hk1.trans hk.symm)⟩
  · refine (List.Perm.nodup_iff hwhole).2 ?_
    refine List.Nodup.map_on ?_ (List.nodup_range _)
    intro x _ y _ hxy
    omega

/-- C21 fails on the code from the second group on (the defect of C2: `sx, sy`
are not advanced between the groups). On the curve over 67 elements with
`GRP_SIZE = 4`, `STEP_SIZE = 8` and the valid start point `P = 10 G = (56, 4)`,
the labels passed to `CheckHash` are `0 .. 7`, each once, and in the first group
the point at offset `k` carries `2 + k`. In the second group the centre
`P + 4 G = (5, 20)` carries 6, but label 7 is passed with `(24, 30) = P + G`
instead of `P + 5 G = (53, 12)`, label 5 with `(46, 25)`, which is not on the
curve, instead of `P + 3 G = (55, 17)`, and label 4 with `(21, 42)` instead of
`P + 2 G = (14, 65)`. -/
theorem ComputeKeys_labels_second_group :
    ∃ P G : (curve (exEnv 8).p).Point, IsPt (exEnv 8).p 56 4 P ∧ IsPt (exEnv 8).p 2 22 G ∧
      (∀ i, i < (exEnv 8).GRP_SIZE / 2 →
        IsPt (exEnv 8).p ((exEnv 8).Gx i) ((exEnv 8).Gy i) ((i + 1) • G)) ∧
      IsPt (exEnv 8).p (exEnv 8)._2Gnx (exEnv 8)._2Gny ((exEnv 8).GRP_SIZE • G) ∧
      (∀ k, k < (exEnv 8).GRP_SIZE / 2 + 1 → fillDx (exEnv 8) 56 k ≠ 0) ∧
      (exEnv 8).STEP_SIZE = 2 * (exEnv 8).GRP_SIZE ∧
      ComputeKeys_calls (exEnv 8) 56 4 =
        [⟨56, 4, 2⟩, ⟨24, 30, 3⟩, ⟨13, 44, 1⟩, ⟨21, 42, 0⟩,
          ⟨5, 20, 6⟩, ⟨24, 30, 7⟩, ⟨46, 25, 5⟩, ⟨21, 42, 4⟩] ∧
      ((ComputeKeys_calls (exEnv 8) 56 4).map Call.incr).Perm
        ((List.range (exEnv 8).STEP_SIZE).map (fun n => ((n : Nat) : Int))) ∧
      IsPt (exEnv 8).p 24 30 (P + 1 • G) ∧
      IsPt (exEnv 8).p 5 20 (P + 4 • G) ∧
      IsPt (exEnv 8).p 53 12 (P + 5 • G) ∧ ¬ IsPt (exEnv 8).p 24 30 (P + 5 • G) ∧
      IsPt (exEnv 8).p 55 17 (P + 3 • G) ∧ ¬ IsPt (exEnv 8).p 46 25 (P + 3 • G) ∧
      ¬ onCurve (exEnv 8).p 46 25 ∧
      IsPt (exEnv 8).p 14 65 (P + 2 • G) ∧ ¬ IsPt (exEnv 8).p 21 42 (P + 2 • G) := by
  obtain ⟨P, G, hP, hG, hT, hN⟩ := exSetup 8
  have h11 : IsPt (exEnv 8).p 24 30 (P + G) := posPoint_isPt 31 hP hG (by decide)
  have h12 : IsPt (exEnv 8).p 14 65 (P + (1 + 1) • G) :=
    posPoint_isPt 50 hP (hT 1 (by decide)) (by decide)
  have h13 : IsPt (exEnv 8).p 55 17 (P + (1 + 1) • G + G) := posPoint_isPt 39 h12 hG (by decide)
  have h14 : IsPt (exEnv 8).p 5 20 (P + 4 • G) := posPoint_isPt 54 hP hN (by decide)
  have h15 : IsPt (exEnv 8).p 53 12 (P + 4 • G + G) := posPoint_isPt 22 h14 hG (by decide)
  have e1 : P + 1 • G = P + G := by rw [one_nsmul]
  have e3 : P + 3 • G = P + (1 + 1) • G + G := by
    rw [add_assoc, ← succ_nsmul]
  have e5 : P + 5 • G = P + 4 • G + G := by
    rw [add_assoc, ← succ_nsmul]
  rw [← e1] at h11
  rw [← e3] at h13
  rw [← e5] at h15
  have hperm := (ComputeKeys_labels (exEnv 8) 56 4 (by decide) (by decide) (by decide)
    (by decide)).2.2.2.1
  refine ⟨P, G, hP, hG, hT, hN, by decide, by decide, by decide, hperm, h11, h14, h15, ?_, h13,
    ?_, by decide, h12, ?_⟩
  · intro h
    exact absurd (IsPt.unique h h15).1 (by decide)
  · intro h
    exact absurd (IsPt.unique h h13).1 (by decide)
  · intro h
    exact absurd (IsPt.unique h h12).1 (by decide)

/-! ## The fast path and the compressed mode submit the same triples -/

theorem natAbs_neg32 (w : Nat) : (neg32 (toInt32 w)).natAbs = (toInt32 w).natAbs := by
  have h : neg32 (toInt32 w) = -(toInt32 w) ∨ neg32 (toInt32 w) = toInt32 w := by
    unfold neg32 toInt32 ofInt32
    split_ifs <;> omega
  rcases h with h | h
  · rw [h, Int.natAbs_neg]
  · rw [h]

theorem loopCalls_incr_word (E : Env) (sx sy pyn j n : Nat) :
    ∀ c, c ∈ loopCalls E sx sy pyn j n → ∃ w, c.incr = toInt32 w := by
  intro c hc
  simp only [loopCalls, List.mem_flatMap, List.mem_range, List.mem_cons, List.mem_singleton,
    List.not_mem_nil, or_false] at hc
  obtain ⟨i, -, rfl | rfl⟩ := hc
  · exact ⟨_, rfl⟩
  · exact ⟨_, rfl⟩

theorem ComputeKeys_calls_incr_word (E : Env) (sx sy : Nat) :
    ∀ c, c ∈ ComputeKeys_calls E sx sy → ∃ w, c.incr = toInt32 w := by
  intro c hc
  rw [ComputeKeys_calls_eq] at hc
  obtain ⟨j, -, hj⟩ := List.mem_flatMap.1 hc
  rw [ComputeKeys_groupCalls_eq] at hj
  rcases List.mem_cons.1 hj with rfl | h2
  · exact ⟨_, rfl⟩
  · rcases List.mem_append.1 h2 with h3 | h3
    · exact loopCalls_incr_word E sx sy _ j _ c h3
    · rw [List.mem_singleton.1 h3]
      exact ⟨_, rfl⟩

theorem symReports_triple_perm (E : Env) (t : Thread) (x q b0 w : Nat) (m : Matcher)
    (bloomLookUp : Mem) (BLOOM_BITS : Int) (BLOOM_HASHES : Nat)
    (hq : q = 0 ∨ q = 1) (hb0 : b0 = 0 ∨ b0 = 1)
    (hsym : ∀ x, E._GetHash160CompSym x =
      (E._GetHash160Comp x b0, E._GetHash160Comp x (lnot b0))) :
    ((symReports E t x (toInt32 w) m).map Report.triple).Perm
      ((compReports E t x q (toInt32 w) bloomLookUp BLOOM_BITS BLOOM_HASHES).map
        Report.triple) := by
  have e0 : lnot 0 = 1 := rfl
  have e1 : lnot 1 = 0 := rfl
  rcases hq with rfl | rfl <;> rcases hb0 with rfl | rfl
  · simp only [symReports, compReports, hsym, List.map, Report.triple, natAbs_neg32, e0]
    exact perm_interleave _ _ _ _ _ _
  · simp only [symReports, compReports, hsym, List.map, Report.triple, natAbs_neg32, e0, e1]
    exact perm_interleave2 _ _ _ _ _ _
  · simp only [symReports, compReports, hsym, List.map, Report.triple, natAbs_neg32, e0, e1]
    exact perm_interleave2 _ _ _ _ _ _
  · simp only [symReports, compReports, hsym, List.map, Report.triple, natAbs_neg32, e1]
    exact perm_interleave _ _ _ _ _ _

theorem symReports_perm_or (E : Env) (t : Thread) (x q b0 w : Nat)
    (bloomLookUp : Mem) (BLOOM_BITS : Int) (BLOOM_HASHES : Nat)
    (hq : q = 0 ∨ q = 1) (hb0 : b0 = 0 ∨ b0 = 1)
    (hsym : ∀ x, E._GetHash160CompSym x =
      (E._GetHash160Comp x b0, E._GetHash160Comp x (lnot b0))) :
    (q = b0 ∧ (symReports E t x (toInt32 w)
        (.bloom bloomLookUp (ofInt64 BLOOM_BITS) BLOOM_HASHES)).Perm
      (compReports E t x q (toInt32 w) bloomLookUp BLOOM_BITS BLOOM_HASHES)) ∨
    (q = lnot b0 ∧ (symReports E t x (toInt32 w)
        (.bloom bloomLookUp (ofInt64 BLOOM_BITS) BLOOM_HASHES)).Perm
      (compReports E t x q (neg32 (toInt32 w)) bloomLookUp BLOOM_BITS BLOOM_HASHES)) := by
  have e0 : lnot 0 = 1 := rfl
  have e1 : lnot 1 = 0 := rfl
  rcases hq with rfl | rfl <;> rcases hb0 with rfl | rfl
  · refine Or.inl ⟨rfl, ?_⟩
    simp only [symReports, compReports, hsym, e0]
    exact perm_interleave _ _ _ _ _ _
  · refine Or.inr ⟨rfl, ?_⟩
    simp only [symReports, compReports, hsym, e0, e1, neg32_neg32]
    exact perm_interleave2 _ _ _ _ _ _
  · refine Or.inr ⟨rfl, ?_⟩
    simp only [symReports, compReports, hsym, e0, e1, neg32_neg32]
    exact perm_interleave2 _ _ _ _ _ _
  · refine Or.inl ⟨rfl, ?_⟩
    simp only [symReports, compReports, hsym, e1]
    exact perm_interleave _ _ _ _ _ _

/-- C22. Assuming `_GetHash160CompSym x` returns the pair of compressed digests
of `x` with the two y parities in a fixed order (parity `b0` first), for every
start point `ComputeKeysComp` submits to the matcher the same multiset of
(digest, endomorphism index, `|incr|`) triples as `ComputeKeys` with mode
`SEARCH_COMPRESSED`: both outputs are the report streams over the same walk
points, the triples of the two streams are a permutation of each other, and at
each walk point the six reports are, up to order, those of the compressed mode
or those of the compressed mode with `+incr` and `-incr` exchanged. -/
theorem ComputeKeysComp_same_triples (E : Env) (t : Thread) (sx sy b0 : Nat) (bloomLookUp : Mem)
    (BLOOM_BITS : Int) (BLOOM_HASHES maxFound : Nat) (out : Mem) (hb0 : b0 = 0 ∨ b0 = 1)
    (hsym : ∀ x, E._GetHash160CompSym x =
      (E._GetHash160Comp x b0, E._GetHash160Comp x (lnot b0))) :
    (ComputeKeysComp E t sx sy bloomLookUp BLOOM_BITS BLOOM_HASHES maxFound out).2.2 =
      runReports maxFound out ((ComputeKeys_calls E sx sy).flatMap (fun c =>
        symReports E t c.px c.incr (.bloom bloomLookUp (ofInt64 BLOOM_BITS) BLOOM_HASHES))) ∧
    (ComputeKeys E t SEARCH_COMPRESSED sx sy bloomLookUp BLOOM_BITS BLOOM_HASHES maxFound out).2.2 =
      runReports maxFound out ((ComputeKeys_calls E sx sy).flatMap (fun c =>
        compReports E t c.px (c.py % 2) c.incr bloomLookUp BLOOM_BITS BLOOM_HASHES)) ∧
    (((ComputeKeys_calls E sx sy).flatMap (fun c =>
        symReports E t c.px c.incr
          (.bloom bloomLookUp (ofInt64 BLOOM_BITS) BLOOM_HASHES))).map Report.triple).Perm
      (((ComputeKeys_calls E sx sy).flatMap (fun c =>
        compReports E t c.px (c.py % 2) c.incr bloomLookUp BLOOM_BITS BLOOM_HASHES)).map
          Report.triple) ∧
    (∀ c, c ∈ ComputeKeys_calls E sx sy →
      (c.py % 2 = b0 ∧ (symReports E t c.px c.incr
          (.bloom bloomLookUp (ofInt64 BLOOM_BITS) BLOOM_HASHES)).Perm
        (compReports E t c.px (c.py % 2) c.incr bloomLookUp BLOOM_BITS BLOOM_HASHES)) ∨
      (c.py % 2 = lnot b0 ∧ (symReports E t c.px c.incr
          (.bloom bloomLookUp (ofInt64 BLOOM_BITS) BLOOM_HASHES)).Perm
        (compReports E t c.px (c.py % 2) (neg32 c.incr) bloomLookUp BLOOM_BITS
          BLOOM_HASHES))) := by
  refine ⟨?_, ?_, ?_, ?_⟩
  · exact ComputeKeysComp_walk_eq_runReports E t
      (.bloom bloomLookUp (ofInt64 BLOOM_BITS) BLOOM_HASHES) sx sy maxFound out
  · rw [ComputeKeys_out_eq_runReports]
    rfl
  · rw [List.map_flatMap, List.map_flatMap]
    apply List.Perm.flatMap_left
    intro c hc
    obtain ⟨w, hw⟩ := ComputeKeys_calls_incr_word E sx sy c hc
    rw [hw]
    exact symReports_triple_perm E t c.px (c.py % 2) b0 w _ bloomLookUp BLOOM_BITS BLOOM_HASHES
      (by omega) hb0 hsym
  · intro c hc
    obtain ⟨w, hw⟩ := ComputeKeys_calls_incr_word E sx sy c hc
    rw [hw]
    exact symReports_perm_or E t c.px (c.py % 2) b0 w bloomLookUp BLOOM_BITS BLOOM_HASHES
      (by omega) hb0 hsym

/-- Witness of C22: the example instance (even parity first), start point
`(62, 63)` with odd `y`, one group of four points. -/
theorem ComputeKeysComp_same_triples_witness :
    (((ComputeKeys_calls (exEnv 4) 62 63).flatMap (fun c =>
        symReports (exEnv 4) exThread c.px c.incr
          (.bloom fullFilter (ofInt64 1000) 3))).map Report.triple).Perm
      (((ComputeKeys_calls (exEnv 4) 62 63).flatMap (fun c =>
        compReports (exEnv 4) exThread c.px (c.py % 2) c.incr fullFilter 1000 3)).map
          Report.triple) ∧
    ((ComputeKeys_calls (exEnv 4) 62 63).flatMap (fun c =>
        symReports (exEnv 4) exThread c.px c.incr
          (.bloom fullFilter (ofInt64 1000) 3))).length = 24 ∧
    (symReports (exEnv 4) exThread 62 2 (.bloom fullFilter (ofInt64 1000) 3)).map Report.triple =
      [(⟨62, 0, 0, 0, 0⟩, 0, 2), (⟨62, 1, 0, 0, 0⟩, 0, 2), (⟨56, 0, 0, 0, 0⟩, 1, 2),
        (⟨56, 1, 0, 0, 0⟩, 1, 2), (⟨16, 0, 0, 0, 0⟩, 2, 2), (⟨16, 1, 0, 0, 0⟩, 2, 2)] :=
  ⟨(ComputeKeysComp_same_triples (exEnv 4) exThread 62 63 0 fullFilter 1000 3 64 (counterOnly 0)
    (Or.inl rfl) (fun _ => rfl)).2.2.1, by decide, by decide⟩

/-! ## `BloomCheck` terminates and reads in bounds -/

theorem bloomIndex_lt (a b i B : Nat) (hB : 1 ≤ B) :
    bloomIndex a b i B < B ∧ bloomIndex a b i B >>> 3 ≤ (B - 1) / 8 ∧
      bloomIndex a b i B >>> 3 < (B + 7) / 8 := by
  have h1 : bloomIndex a b i B < B := by
    unfold bloomIndex
    exact lt_of_le_of_lt (Nat.mod_le _ _) (Nat.mod_lt _ (by omega))
  rw [Nat.shiftRight_eq_div_pow]
  norm_num
  refine ⟨h1, ?_, ?_⟩ <;> omega

theorem test_bit_set_bit_access_fst (buf : Mem) (bit : Nat) :
    (test_bit_set_bit_access buf bit).1 = test_bit_set_bit buf bit ∧
    (test_bit_set_bit_access buf bit).2 = [Access.read (bit >>> 3)] := ⟨rfl, rfl⟩

theorem BloomCheck_run_loop_spec (filter : Mem) (B K add a b : Nat) (hB : 1 ≤ B) (hK : K ≤ 255) :
    ∀ (n fuel i hits : Nat) (tr : List Access), i + n = K → n < fuel →
      ∃ tr2, BloomCheck_run_loop filter B K add a b fuel i hits tr =
          .returned (BloomCheck_loop filter B K add a b n i hits) (tr ++ tr2) ∧
        tr2.length ≤ n ∧
        ∀ acc, acc ∈ tr2 → ∃ j, j < K ∧ acc = Access.read (bloomIndex a b j B >>> 3) := by
  have hB0 : B ≠ 0 := by omega
  intro n
  induction n with
  | zero =>
    intro fuel i hits tr hi hf
    obtain ⟨f, rfl⟩ : ∃ f, fuel = f + 1 := ⟨fuel - 1, by omega⟩
    have hnot : ¬ i < K := by omega
    refine ⟨[], ?_, by simp, by simp⟩
    simp only [BloomCheck_run_loop, BloomCheck_loop, if_neg hnot, List.append_nil]
  | succ n ih =>
    intro fuel i hits tr hi hf
    obtain ⟨f, rfl⟩ : ∃ f, fuel = f + 1 := ⟨fuel - 1, by omega⟩
    have hlt : i < K := by omega
    have hi1 : (i + 1) % 2 ^ 8 = i + 1 := Nat.mod_eq_of_lt (by omega)
    simp only [BloomCheck_run_loop, BloomCheck_loop, if_pos hlt, if_neg hB0,
      test_bit_set_bit_access_fst, hi1]
    by_cases ht : test_bit_set_bit filter (bloomIndex a b i B) ≠ 0
    · simp only [if_pos ht]
      obtain ⟨tr2, e, hl, hm⟩ := ih f (i + 1) ((hits + 1) % 2 ^ 8)
        (tr ++ [Access.read (bloomIndex a b i B >>> 3)]) (by omega) (by omega)
      refine ⟨Access.read (bloomIndex a b i B >>> 3) :: tr2, ?_, ?_, ?_⟩
      · rw [e]
        simp
      · simp only [List.length_cons]
        omega
      · intro acc hacc
        rcases List.mem_cons.1 hacc with rfl | h2
        · exact ⟨i, hlt, rfl⟩
        · exact hm acc h2
    · simp only [if_neg ht]
      by_cases hadd : add = 0
      · simp only [if_pos hadd]
        refine ⟨[Access.read (bloomIndex a b i B >>> 3)], rfl, ?_, ?_⟩
        · simp
        · intro acc hacc
          rcases List.mem_singleton.1 hacc with rfl
          exact ⟨i, hlt, rfl⟩
      · simp only [if_neg hadd]
        obtain ⟨tr2, e, hl, hm⟩ := ih f (i + 1) hits
          (tr ++ [Access.read (bloomIndex a b i B >>> 3)]) (by omega) (by omega)
        refine ⟨Access.read (bloomIndex a b i B >>> 3) :: tr2, ?_, ?_, ?_⟩
        · rw [e]
          simp
        · simp only [List.length_cons]
          omega
        · intro acc hacc
          rcases List.mem_cons.1 hacc with rfl | h2
          · exact ⟨i, hlt, rfl⟩
          · exact hm acc h2

theorem BloomCheck_loop_congr (f g : Mem) (B K add a b : Nat)
    (h : ∀ j, test_bit_set_bit g (bloomIndex a b j B) = test_bit_set_bit f (bloomIndex a b j B)) :
    ∀ (n i hits : Nat), BloomCheck_loop g B K add a b n i hits =
      BloomCheck_loop f B K add a b n i hits := by
  intro n
  induction n with
  | zero =>
    intro i hits
    rfl
  | succ n ih =>
    intro i hits
    simp only [BloomCheck_loop, h, ih]

/-- C23. `BloomCheck` is total and reads in bounds under its precondition: for
every `BLOOM_BITS >= 1`, every `BLOOM_HASHES` in `0..255` and every digest, the
run with its loop condition on the 8-bit counter returns (no remainder by zero,
at most `BLOOM_HASHES` iterations, any budget above `BLOOM_HASHES` suffices) the
value of `BloomCheck`; each probed bit index is `< BLOOM_BITS`; every access to
the filter is a read, of a byte index `<= (BLOOM_BITS - 1) div 8`, so below
`ceil(BLOOM_BITS / 8)`; the filter is never written, and bytes outside that range
do not influence the result. -/
theorem BloomCheck_in_bounds (h : Digest) (filter : Mem) (BLOOM_BITS BLOOM_HASHES : Nat)
    (hB : 1 ≤ BLOOM_BITS) (hK : BLOOM_HASHES ≤ 255) :
    (∀ fuel, BLOOM_HASHES < fuel →
      ∃ tr, BloomCheck_run h filter BLOOM_BITS BLOOM_HASHES fuel =
          .returned (BloomCheck h filter BLOOM_BITS BLOOM_HASHES) tr ∧
        tr.length ≤ BLOOM_HASHES ∧
        (∀ acc, acc ∈ tr → ∃ byte, acc = Access.read byte ∧ byte ≤ (BLOOM_BITS - 1) / 8 ∧
          byte < (BLOOM_BITS + 7) / 8) ∧
        (∀ byte, Access.write byte ∉ tr)) ∧
    (∀ i, bloomIndex (murmurhash2 h.bytes 20 0x9747b28c)
        (murmurhash2 h.bytes 20 (murmurhash2 h.bytes 20 0x9747b28c)) i BLOOM_BITS < BLOOM_BITS ∧
      bloomIndex (murmurhash2 h.bytes 20 0x9747b28c)
        (murmurhash2 h.bytes 20 (murmurhash2 h.bytes 20 0x9747b28c)) i BLOOM_BITS >>> 3 ≤
          (BLOOM_BITS - 1) / 8) ∧
    (∀ filter2 : Mem, (∀ k, k ≤ (BLOOM_BITS - 1) / 8 → filter2 k = filter k) →
      BloomCheck h filter2 BLOOM_BITS BLOOM_HASHES = BloomCheck h filter BLOOM_BITS BLOOM_HASHES) := by
  refine ⟨?_, ?_, ?_⟩
  · intro fuel hf
    obtain ⟨tr2, e, hl, hm⟩ := BloomCheck_run_loop_spec filter BLOOM_BITS BLOOM_HASHES 0
      (murmurhash2 h.bytes 20 0x9747b28c)
      (murmurhash2 h.bytes 20 (murmurhash2 h.bytes 20 0x9747b28c)) hB hK BLOOM_HASHES fuel 0 0 []
      (by omega) hf
    refine ⟨tr2, ?_, hl, ?_, ?_⟩
    · simpa [BloomCheck_run, BloomCheck] using e
    · intro acc hacc
      obtain ⟨j, -, rfl⟩ := hm acc hacc
      exact ⟨_, rfl, (bloomIndex_lt _ _ j BLOOM_BITS hB).2.1, (bloomIndex_lt _ _ j BLOOM_BITS hB).2.2⟩
    · intro byte hmem
      obtain ⟨j, -, hj⟩ := hm _ hmem
      exact Access.noConfusion hj
  · intro i
    exact ⟨(bloomIndex_lt _ _ i BLOOM_BITS hB).1, (bloomIndex_lt _ _ i BLOOM_BITS hB).2.1⟩
  · intro filter2 hsame
    simp only [BloomCheck]
    apply BloomCheck_loop_congr
    intro j
    simp only [test_bit_set_bit]
    rw [hsame _ (bloomIndex_lt _ _ j BLOOM_BITS hB).2.1]

/-- Witness of C23: the example digest in a filter of 1000 bits (125 bytes) with
two probes reads the bytes 5 and 81. -/
theorem BloomCheck_in_bounds_witness :
    BloomCheck_run exDigest wrapFilter 1000 2 3 =
      .returned 1 [Access.read 5, Access.read 81] ∧
    (∀ fuel, 2 < fuel →
      ∃ tr, BloomCheck_run exDigest wrapFilter 1000 2 fuel =
          .returned (BloomCheck exDigest wrapFilter 1000 2) tr ∧
        tr.length ≤ 2 ∧
        (∀ acc, acc ∈ tr → ∃ byte, acc = Access.read byte ∧ byte ≤ (1000 - 1) / 8 ∧
          byte < (1000 + 7) / 8) ∧
        (∀ byte, Access.write byte ∉ tr)) :=
  ⟨by decide, (BloomCheck_in_bounds exDigest wrapFilter 1000 2 (by decide) (by decide)).1⟩

end KeyHunt
